import Mathlib

/-!
# celerite kernels: factor, factor_grad, solve, solve_grad

A shallow embedding of `src/celerite.h` over an exact field.  A buffer of shape
`(R, C)` is a function of a row index and a column index; the dimensions
`N = U.rows()`, `J = U.cols()` and `Nrhs = Z.cols()` are explicit arguments and
every product of the source that contracts an index becomes a finite sum over
`Finset.range` of that dimension.  In-place updates of a row rebuild the buffer
with that row replaced.
-/

open Finset

namespace Celerite

/-- A two-dimensional buffer: row index, column index. -/
abbrev Mat (α : Type) := ℕ → ℕ → α

/-- A one-dimensional buffer. -/
abbrev Vec (α : Type) := ℕ → α

/-- The `for (n = lo; n < lo + k; ++n)` loop: the body runs at `lo`, `lo + 1`, ...,
`lo + k - 1`, in that order. -/
def loopUp {σ : Type} (body : ℕ → σ → σ) (lo : ℕ) : ℕ → σ → σ
  | 0, s => s
  | k + 1, s => body (lo + k) (loopUp body lo k s)

/-- The `for (n = lo + k - 1; n >= lo; --n)` loop: the body runs at `lo + k - 1`, ...,
`lo + 1`, `lo`, in that order. -/
def loopDown {σ : Type} (body : ℕ → σ → σ) (lo : ℕ) : ℕ → σ → σ
  | 0, s => s
  | k + 1, s => loopDown body lo k (body (lo + k) s)

section Factor

variable {α : Type} [Field α]

/-- The three buffers `factor` writes: `d` (N), `W` (N, J) and `S` (J, J). -/
structure FactorBuf (α : Type) where
  d : Vec α
  W : Mat α
  S : Mat α

/-- Lines 18-19 of `factor`: `S.setZero(); W.row(0) /= d(0);` with `d` holding `a` and `W`
holding `V`. -/
def factorInit (a : Vec α) (V : Mat α) : FactorBuf α where
  d := a
  W := fun i c => if i = 0 then V 0 c / a 0 else V i c
  S := fun _ _ => 0

/-- The row vector `U.row(n) * S` of width `J` (line 28, `tmp`). -/
def rowTimes (U : Mat α) (J n : ℕ) (S : Mat α) : Vec α :=
  fun e => ∑ c in range J, U n c * S c e

/-- Lines 24-29 of `factor` for row `n`: the update of `S` and of the pivot `d(n)`. -/
def factorPivot (U P : Mat α) (J n : ℕ) (st : FactorBuf α) : FactorBuf α :=
  let S1 : Mat α := fun c e => st.S c e + st.d (n - 1) * st.W (n - 1) c * st.W (n - 1) e
  let S2 : Mat α := fun c e => S1 c e * (P (n - 1) c * P (n - 1) e)
  let tmp := rowTimes U J n S2
  { d := fun i => if i = n then st.d n - ∑ e in range J, tmp e * U n e else st.d i
    W := st.W
    S := S2 }

/-- Lines 33-34 of `factor` for row `n`: `W.row(n) -= tmp; W.row(n) /= d(n);`. -/
def factorRowW (U : Mat α) (J n : ℕ) (st : FactorBuf α) : FactorBuf α :=
  let tmp := rowTimes U J n st.S
  { d := st.d
    W := fun i c => if i = n then (st.W n c - tmp c) / st.d n else st.W i c
    S := st.S }

end Factor

section FactorLoop

variable {α : Type} [LinearOrderedField α]

/-- The row loop of `factor` (lines 22-37) with `k` rows left, the next one being `n`:
the result is the returned status and the buffers at that moment. -/
def factorLoop (U P : Mat α) (J : ℕ) : ℕ → ℕ → FactorBuf α → ℕ × FactorBuf α
  | 0, _, st => (0, st)
  | k + 1, n, st =>
    let st1 := factorPivot U P J n st
    if st1.d n ≤ 0 then (n, st1)
    else factorLoop U P J k (n + 1) (factorRowW U J n st1)

/-- The function `factor`: `U` is (N, J), `P` is (N-1, J), `a` is the initial content of `d`,
`V` the initial content of `W`, `S0` the initial content of `S`. -/
def factor (U P : Mat α) (J N : ℕ) (a : Vec α) (V : Mat α) (_S0 : Mat α) : ℕ × FactorBuf α :=
  factorLoop U P J (N - 1) 1 (factorInit a V)

end FactorLoop

section FactorGrad

variable {α : Type} [Field α]

/-- The locals of `factor_grad` (`bd_`, `bW_`, `bS_`, `S_`) and its four output buffers. -/
structure FactorGradState (α : Type) where
  bd_ : α
  bW_ : Vec α
  bS_ : Mat α
  S_ : Mat α
  ba : Vec α
  bU : Mat α
  bV : Mat α
  bP : Mat α

/-- Lines 60-62 of `factor_grad`: the local copies, next to the caller's buffers. -/
def factorGradInit (N : ℕ) (d : Vec α) (S : Mat α) (bd : Vec α) (bW bS : Mat α)
    (ba : Vec α) (bU bV bP : Mat α) : FactorGradState α where
  bd_ := bd (N - 1)
  bW_ := fun c => bW (N - 1) c / d (N - 1)
  bS_ := bS
  S_ := S
  ba := ba
  bU := bU
  bV := bV
  bP := bP

/-- Lines 66-90 of `factor_grad`: one pass of the reverse loop, at row `n`. -/
def factorGradBody (U P : Mat α) (d : Vec α) (W : Mat α) (bd : Vec α) (bW : Mat α) (J : ℕ)
    (n : ℕ) (s : FactorGradState α) : FactorGradState α :=
  -- Step 6
  let bd1 : α := s.bd_ - ∑ c in range J, W n c * s.bW_ c
  let bV1 : Mat α := fun i c => if i = n then s.bV n c + s.bW_ c else s.bV i c
  let bU1 : Mat α := fun i c =>
    if i = n then s.bU n c + ∑ e in range J, (-s.bW_ e) * s.S_ e c else s.bU i c
  let bS1 : Mat α := fun c e => s.bS_ c e - U n c * s.bW_ e
  -- Step 5
  let ba1 : Vec α := fun i => if i = n then s.ba n + bd1 else s.ba i
  let bU2 : Mat α := fun i c =>
    if i = n then bU1 n c - ∑ e in range J, 2 * bd1 * U n e * s.S_ e c else bU1 i c
  let bS2 : Mat α := fun c e => bS1 c e - bd1 * U n c * U n e
  -- Step 4
  let S1 : Mat α := fun c e => s.S_ c e * (P (n - 1) e)⁻¹
  let bP1 : Mat α := fun i c =>
    if i = n - 1 then
      s.bP (n - 1) c + (∑ e in range J, bS2 c e * S1 e c + ∑ e in range J, S1 e c * bS2 e c)
    else s.bP i c
  -- Step 3
  let bS3 : Mat α := fun c e => P (n - 1) c * bS2 c e * P (n - 1) e
  let bSWT : Vec α := fun c => ∑ e in range J, bS3 c e * W (n - 1) e
  let bd2 : α := bd (n - 1) + ∑ c in range J, W (n - 1) c * bSWT c
  let bW2 : Vec α := fun c => bW (n - 1) c / d (n - 1)
  let bW3 : Vec α := fun c => bW2 c + ∑ e in range J, W (n - 1) e * (bS3 e c + bS3 c e)
  -- Downdate S
  let S2 : Mat α := fun c e => (P (n - 1) c)⁻¹ * S1 c e
  let S3 : Mat α := fun c e => S2 c e - d (n - 1) * W (n - 1) c * W (n - 1) e
  { bd_ := bd2, bW_ := bW3, bS_ := bS3, S_ := S3, ba := ba1, bU := bU2, bV := bV1, bP := bP1 }

/-- Lines 95-97 of `factor_grad`: the update of the first row. -/
def factorGradLast (W : Mat α) (J : ℕ) (s : FactorGradState α) : FactorGradState α :=
  let bV1 : Mat α := fun i c => if i = 0 then s.bV 0 c + s.bW_ c else s.bV i c
  let bd1 : α := s.bd_ - ∑ c in range J, s.bW_ c * W 0 c
  { s with bV := bV1, bd_ := bd1, ba := fun i => if i = 0 then s.ba 0 + bd1 else s.ba i }

/-- The function `factor_grad`: `ba`, `bU`, `bV`, `bP` are the initial contents of the output
buffers; the result carries their final contents. -/
def factor_grad (U P : Mat α) (d : Vec α) (W S : Mat α) (bd : Vec α) (bW bS : Mat α)
    (J N : ℕ) (ba : Vec α) (bU bV bP : Mat α) : FactorGradState α :=
  factorGradLast W J
    (loopDown (factorGradBody U P d W bd bW J) 1 (N - 1)
      (factorGradInit N d S bd bW bS ba bU bV bP))

end FactorGrad

section Solve

variable {α : Type} [Field α]

/-- The three buffers `solve` writes: `Z` (N, Nrhs), `F` and `G` (J, Nrhs). -/
structure SolveBuf (α : Type) where
  Z : Mat α
  F : Mat α
  G : Mat α

/-- Lines 116-118 of `solve`: one pass of the forward sweep, at row `n`. -/
def solveFwd (U P W : Mat α) (J : ℕ) (n : ℕ) (s : SolveBuf α) : SolveBuf α :=
  let F1 : Mat α := fun c r => s.F c r + W (n - 1) c * s.Z (n - 1) r
  let F2 : Mat α := fun c r => P (n - 1) c * F1 c r
  { Z := fun i r => if i = n then s.Z n r - ∑ c in range J, U n c * F2 c r else s.Z i r
    F := F2
    G := s.G }

/-- Line 121 of `solve`: every row of `Z` is divided by its pivot. -/
def solveScale (d : Vec α) (s : SolveBuf α) : SolveBuf α :=
  { s with Z := fun i r => s.Z i r / d i }

/-- Lines 124-126 of `solve`: one pass of the backward sweep, at row `n`. -/
def solveBwd (U P W : Mat α) (J : ℕ) (n : ℕ) (s : SolveBuf α) : SolveBuf α :=
  let G1 : Mat α := fun c r => s.G c r + U (n + 1) c * s.Z (n + 1) r
  let G2 : Mat α := fun c r => P n c * G1 c r
  { Z := fun i r => if i = n then s.Z n r - ∑ c in range J, W n c * G2 c r else s.Z i r
    F := s.F
    G := G2 }

/-- The function `solve`: `Y` is the initial content of `Z`; the initial contents of `F` and
`G` are overwritten by zero. -/
def solve (U P : Mat α) (d : Vec α) (W : Mat α) (J N : ℕ) (Y : Mat α) (_F0 _G0 : Mat α) :
    SolveBuf α :=
  let s0 : SolveBuf α := { Z := Y, F := fun _ _ => 0, G := fun _ _ => 0 }
  let s1 := loopUp (solveFwd U P W J) 1 (N - 1) s0
  let s2 := solveScale d s1
  loopDown (solveBwd U P W J) 0 (N - 1) s2

/-- The locals of `solve_grad` (`bF_`, `F_`, `bG_`, `G_`, `Z_`) and its five output buffers. -/
structure SolveGradState (α : Type) where
  bF_ : Mat α
  F_ : Mat α
  bG_ : Mat α
  G_ : Mat α
  Z_ : Mat α
  bU : Mat α
  bP : Mat α
  bd : Vec α
  bW : Mat α
  bY : Mat α

/-- Lines 150-156 of `solve_grad`: the local copies, `bY = bZ` and `bU.row(0).setZero()`. -/
def solveGradInit (Z F G bZ bF bG : Mat α) (bU bP : Mat α) (bd : Vec α) (bW : Mat α) :
    SolveGradState α where
  bF_ := bF
  F_ := F
  bG_ := bG
  G_ := G
  Z_ := Z
  bU := fun i c => if i = 0 then 0 else bU i c
  bP := bP
  bd := bd
  bW := bW
  bY := bZ

/-- Lines 159-178 of `solve_grad`: one pass of the first loop, at row `n`. -/
def solveGradBody1 (U P W : Mat α) (J Nrhs : ℕ) (n : ℕ) (s : SolveGradState α) :
    SolveGradState α :=
  let bW1 : Mat α := fun i c =>
    if i = n then s.bW n c - ∑ r in range Nrhs, s.bY n r * s.G_ c r else s.bW i c
  let bG1 : Mat α := fun c r => s.bG_ c r - W n c * s.bY n r
  let Z1 : Mat α := fun i r =>
    if i = n then s.Z_ n r + ∑ c in range J, W n c * s.G_ c r else s.Z_ i r
  let G1 : Mat α := fun c r => (P n c)⁻¹ * s.G_ c r
  let bP1 : Mat α := fun i c =>
    if i = n then s.bP n c + ∑ r in range Nrhs, bG1 c r * G1 c r else s.bP i c
  let bG2 : Mat α := fun c r => P n c * bG1 c r
  let G2 : Mat α := fun c r => G1 c r - U (n + 1) c * Z1 (n + 1) r
  let bU1 : Mat α := fun i c =>
    if i = n + 1 then s.bU (n + 1) c + ∑ r in range Nrhs, Z1 (n + 1) r * bG2 c r else s.bU i c
  let bY1 : Mat α := fun i r =>
    if i = n + 1 then s.bY (n + 1) r + ∑ c in range J, U (n + 1) c * bG2 c r else s.bY i r
  { s with bW := bW1, bG_ := bG2, Z_ := Z1, G_ := G2, bP := bP1, bU := bU1, bY := bY1 }

/-- Lines 181-187 of `solve_grad`: `bW.row(N-1).setZero()`, the division of `bY` by `d`, the
update of `bd` and the multiplication of `Z_` by `d`. -/
def solveGradMid (d : Vec α) (N Nrhs : ℕ) (s : SolveGradState α) : SolveGradState α :=
  let bW1 : Mat α := fun i c => if i = N - 1 then 0 else s.bW i c
  let bY1 : Mat α := fun i r => s.bY i r / d i
  let bd1 : Vec α := fun i => s.bd i - ∑ r in range Nrhs, s.Z_ i r * bY1 i r
  let Z1 : Mat α := fun i r => s.Z_ i r * d i
  { s with bW := bW1, bY := bY1, bd := bd1, Z_ := Z1 }

/-- Lines 190-206 of `solve_grad`: one pass of the second loop, at row `n`. -/
def solveGradBody2 (U P W : Mat α) (J Nrhs : ℕ) (n : ℕ) (s : SolveGradState α) :
    SolveGradState α :=
  let bU1 : Mat α := fun i c =>
    if i = n then s.bU n c - ∑ r in range Nrhs, s.bY n r * s.F_ c r else s.bU i c
  let bF1 : Mat α := fun c r => s.bF_ c r - U n c * s.bY n r
  let F1 : Mat α := fun c r => (P (n - 1) c)⁻¹ * s.F_ c r
  let bP1 : Mat α := fun i c =>
    if i = n - 1 then s.bP (n - 1) c + ∑ r in range Nrhs, bF1 c r * F1 c r else s.bP i c
  let bF2 : Mat α := fun c r => P (n - 1) c * bF1 c r
  let F2 : Mat α := fun c r => F1 c r - W (n - 1) c * s.Z_ (n - 1) r
  let bW1 : Mat α := fun i c =>
    if i = n - 1 then s.bW (n - 1) c + ∑ r in range Nrhs, s.Z_ (n - 1) r * bF2 c r
    else s.bW i c
  let bY1 : Mat α := fun i r =>
    if i = n - 1 then s.bY (n - 1) r + ∑ c in range J, W (n - 1) c * bF2 c r else s.bY i r
  { s with bU := bU1, bF_ := bF2, F_ := F2, bP := bP1, bW := bW1, bY := bY1 }

/-- The function `solve_grad`: `bU`, `bP`, `bd`, `bW`, `bY` are the initial contents of the
output buffers; the result carries their final contents. -/
def solve_grad (U P : Mat α) (d : Vec α) (W : Mat α) (Z F G bZ bF bG : Mat α) (J N Nrhs : ℕ)
    (bU bP : Mat α) (bd : Vec α) (bW : Mat α) (_bY : Mat α) : SolveGradState α :=
  let s0 := solveGradInit Z F G bZ bF bG bU bP bd bW
  let s1 := loopUp (solveGradBody1 U P W J Nrhs) 0 (N - 1) s0
  let s2 := solveGradMid d N Nrhs s1
  loopDown (solveGradBody2 U P W J Nrhs) 1 (N - 1) s2

end Solve

/-! ## Reference definitions: the row recursion, the dense matrices, inner products -/

section Reference

variable {α : Type} [Field α]

/-- The row recursion of the factorisation carried through rows `0..m` with no failure check:
the buffers after the first row (`m = 0`) or after the update of `S`, `d(m)` and `W.row(m)`. -/
def rowState (U P : Mat α) (J : ℕ) (a : Vec α) (V : Mat α) : ℕ → FactorBuf α
  | 0 => factorInit a V
  | m + 1 => factorRowW U J (m + 1) (factorPivot U P J (m + 1) (rowState U P J a V m))

/-- The updated pivot of row `n`: `a(n) - U_n S_n U_n^T`, where `S_n` is the running state of
row `n` in the row recursion. -/
def pivot (U P : Mat α) (J : ℕ) (a : Vec α) (V : Mat α) (n : ℕ) : α :=
  a n - ∑ e in range J, (∑ c in range J, U n c * (rowState U P J a V n).S c e) * U n e

/-- The decay accumulated between rows `j` and `i`: `prod_{k=j}^{i-1} P[k,c]`. -/
def decay (P : Mat α) (j i c : ℕ) : α := ∏ k in Ico j i, P k c

/-- The dense symmetric matrix `K`: diagonal `a`, off-diagonal entries
`sum_c U[i,c] * V[j,c] * prod_{k=j}^{i-1} P[k,c]` for `i > j`. -/
def denseK (a : Vec α) (U V P : Mat α) (J : ℕ) : Mat α := fun i j =>
  if i = j then a i
  else if j < i then ∑ c in range J, U i c * V j c * decay P j i c
  else ∑ c in range J, U j c * V i c * decay P i j c

/-- The dense unit lower triangular matrix `L`: entries
`sum_c U[i,c] * W[j,c] * prod_{k=j}^{i-1} P[k,c]` for `i > j`. -/
def denseL (U W P : Mat α) (J : ℕ) : Mat α := fun i j =>
  if i = j then 1
  else if j < i then ∑ c in range J, U i c * W j c * decay P j i c
  else 0

/-- The leading `N x N` block of a dense buffer as a matrix. -/
def toMatrix (N : ℕ) (M : Mat α) : Matrix (Fin N) (Fin N) α := Matrix.of fun i j => M i j

/-- The first `N` entries of a buffer as a vector. -/
def toVector (N : ℕ) (v : Vec α) : Fin N → α := fun i => v i

/-- The inner product of two vectors of length `N`. -/
def dotV (N : ℕ) (x y : Vec α) : α := ∑ i in range N, x i * y i

/-- The inner product of two buffers of shape `(R, C)`. -/
def dotM (R C : ℕ) (A B : Mat α) : α := ∑ i in range R, ∑ c in range C, A i c * B i c

end Reference

section ReferenceOrder

variable {α : Type} [LinearOrderedField α]

end ReferenceOrder

/-! ## Concrete inputs -/

section Examples

/-- The all-ones buffer over the rationals. -/
def exOnes : Mat ℚ := fun _ _ => 1

/-- The diagonal `[-1, 1, 1, ...]`. -/
def exNegFirst : Vec ℚ := fun i => if i = 0 then -1 else 1

/-- The all-ones vector over the rationals. -/
def exOneVec : Vec ℚ := fun _ => 1

/-- The constant vector `[2, 2, ...]` over the rationals. -/
def exTwoVec : Vec ℚ := fun _ => 2

end Examples

/-! ## Relations and invariants used in the proofs -/

section
variable {α : Type} [Field α]

/-- Two states of `factor_grad` with the same locals whose buffers differ by fixed offsets. -/
def FactorGradShift (ba0 : Vec α) (bU0 bV0 bP0 : Mat α) (s t : FactorGradState α) : Prop :=
  s.bd_ = t.bd_ ∧ s.bW_ = t.bW_ ∧ s.bS_ = t.bS_ ∧ s.S_ = t.S_ ∧
    (∀ i, s.ba i = ba0 i + t.ba i) ∧ (∀ i c, s.bU i c = bU0 i c + t.bU i c) ∧
    (∀ i c, s.bV i c = bV0 i c + t.bV i c) ∧ (∀ i c, s.bP i c = bP0 i c + t.bP i c)

end

section
variable {α : Type} [Field α]

/-- The running Y-gradient and the negated adjoint accumulators of `solve_grad` mirror the
buffers of a run of `solve`. -/
def SolveMirror (s : SolveGradState α) (t : SolveBuf α) : Prop :=
  (∀ i r, s.bY i r = t.Z i r) ∧ (∀ c r, s.bG_ c r = -t.F c r) ∧ (∀ c r, s.bF_ c r = -t.G c r)

end

section
variable {α : Type} [Field α]

/-- The pairing of the running adjoints of `solve_grad` with the buffers of `solve`:
`sum(bY .* Z) + sum(bF_ .* F) + sum(bG_ .* G)`. -/
def solvePairing (J N Nrhs : ℕ) (s : SolveGradState α) (t : SolveBuf α) : α :=
  dotM N Nrhs s.bY t.Z + dotM J Nrhs s.bF_ t.F + dotM J Nrhs s.bG_ t.G

/-- The buffers `t1 + k * t2`. -/
def SolveBuf.comb (k : α) (t1 t2 : SolveBuf α) : SolveBuf α where
  Z := fun i r => t1.Z i r + k * t2.Z i r
  F := fun c r => t1.F c r + k * t2.F c r
  G := fun c r => t1.G c r + k * t2.G c r

end

section
variable {α : Type} [Field α]

/-- The running state of row `n` in closed form: the decayed sum of the rank-one terms of the
rows below `n`. -/
def stateSum (d : Vec α) (W P : Mat α) (n : ℕ) : Mat α := fun c e =>
  ∑ k in range n, d k * W k c * W k e * decay P k n c * decay P k n e

/-- The pivot of row `n` once the row recursion has visited it. -/
def rowD (U P : Mat α) (J : ℕ) (a : Vec α) (V : Mat α) (n : ℕ) : α :=
  (rowState U P J a V n).d n

/-- The row `n` of `W` once the row recursion has visited it. -/
def rowW (U P : Mat α) (J : ℕ) (a : Vec α) (V : Mat α) (n : ℕ) (c : ℕ) : α :=
  (rowState U P J a V n).W n c

end

section
variable {α : Type} [Field α]

/-- The invariant of the forward sweep of `solve` after the passes at rows `1..k`: the rows
above `k` still hold `Y`, `F` is the decayed sum of `W_j^T Z_j` over `j < k`, and the rows up
to `k` solve the unit lower triangular system `L Z = Y`. -/
def FwdInv (U P W : Mat α) (J : ℕ) (Y : Mat α) (k : ℕ) (t : SolveBuf α) : Prop :=
  (∀ i r, k < i → t.Z i r = Y i r) ∧
  (∀ c r, t.F c r = ∑ j in range k, decay P j k c * W j c * t.Z j r) ∧
  (∀ i r, i ≤ k → Y i r = ∑ j in range (i + 1), denseL U W P J i j * t.Z j r)

/-- The invariant of the backward sweep of `solve` before the passes at rows `k-1..0`: the
rows below `k` still hold the scaled rows `Zs`, `G` is the decayed sum of `U_j^T Z_j` over
`j > k`, and the rows from `k` on solve the unit upper triangular system `L^T Z = Zs`. -/
def BwdInv (U P W : Mat α) (J N : ℕ) (Zs : Mat α) (k : ℕ) (t : SolveBuf α) : Prop :=
  (∀ i r, i < k → t.Z i r = Zs i r) ∧
  (∀ c r, t.G c r = ∑ j in Ico (k + 1) N, decay P k j c * U j c * t.Z j r) ∧
  (∀ i r, k ≤ i → i < N → Zs i r = ∑ j in Ico i N, denseL U W P J j i * t.Z j r)

end

section
variable {α : Type} [Field α]

/-- The leading `R x C` block of a buffer as a matrix. -/
def toRect (R C : ℕ) (M : Mat α) : Matrix (Fin R) (Fin C) α := Matrix.of fun i j => M i j

end

/-! ## Derivatives of the kernels in a direction -/

section
variable {α : Type} [Field α]

/-- The derivative of `factorInit` in the direction `(da, dV)`, by the quotient rule. -/
def factorInitTan (a : Vec α) (V : Mat α) (da : Vec α) (dV : Mat α) : FactorBuf α where
  d := da
  W := fun i c => if i = 0 then (dV 0 c * a 0 - V 0 c * da 0) / a 0 ^ 2 else dV i c
  S := fun _ _ => 0

/-- The derivative of `factorPivot` at the buffers `st` in the direction `(dU, dP, st')`, by
the sum and product rules. -/
def factorPivotTan (U P dU dP : Mat α) (J n : ℕ) (st st' : FactorBuf α) : FactorBuf α :=
  let S1 : Mat α := fun c e => st.S c e + st.d (n - 1) * st.W (n - 1) c * st.W (n - 1) e
  let S1' : Mat α := fun c e =>
    st'.S c e + ((st'.d (n - 1) * st.W (n - 1) c + st.d (n - 1) * st'.W (n - 1) c) *
      st.W (n - 1) e + st.d (n - 1) * st.W (n - 1) c * st'.W (n - 1) e)
  let S2 : Mat α := fun c e => S1 c e * (P (n - 1) c * P (n - 1) e)
  let S2' : Mat α := fun c e =>
    S1' c e * (P (n - 1) c * P (n - 1) e) +
      S1 c e * (dP (n - 1) c * P (n - 1) e + P (n - 1) c * dP (n - 1) e)
  let tmp := rowTimes U J n S2
  let tmp' : Vec α := fun e => ∑ c in range J, (dU n c * S2 c e + U n c * S2' c e)
  { d := fun i =>
      if i = n then st'.d n - ∑ e in range J, (tmp' e * U n e + tmp e * dU n e) else st'.d i
    W := st'.W
    S := S2' }

/-- The derivative of `factorRowW` at the buffers `st` in the direction `(dU, st')`, by the
sum, product and quotient rules. -/
def factorRowWTan (U dU : Mat α) (J n : ℕ) (st st' : FactorBuf α) : FactorBuf α :=
  let tmp := rowTimes U J n st.S
  let tmp' : Vec α := fun c => ∑ e in range J, (dU n e * st.S e c + U n e * st'.S e c)
  { d := st'.d
    W := fun i c =>
      if i = n then
        ((st'.W n c - tmp' c) * st.d n - (st.W n c - tmp c) * st'.d n) / st.d n ^ 2
      else st'.W i c
    S := st'.S }

/-- The derivative of the row recursion in the direction `(dU, dP, da, dV)`. -/
def rowTangent (U P : Mat α) (J : ℕ) (a : Vec α) (V : Mat α) (dU dP : Mat α) (da : Vec α)
    (dV : Mat α) : ℕ → FactorBuf α
  | 0 => factorInitTan a V da dV
  | m + 1 =>
    factorRowWTan U dU J (m + 1) (factorPivot U P J (m + 1) (rowState U P J a V m))
      (factorPivotTan U P dU dP J (m + 1) (rowState U P J a V m)
        (rowTangent U P J a V dU dP da dV m))

end

section

/-- A curve of buffers has, at parameter 0, the derivative `st'` on the entries of a run with
`N` rows and `J` columns. -/
def FactorBufDeriv (J N : ℕ) (st : ℝ → FactorBuf ℝ) (st' : FactorBuf ℝ) : Prop :=
  (∀ i, i < N → HasDerivAt (fun t => (st t).d i) (st'.d i) 0) ∧
  (∀ i c, i < N → c < J → HasDerivAt (fun t => (st t).W i c) (st'.W i c) 0) ∧
  (∀ c e, c < J → e < J → HasDerivAt (fun t => (st t).S c e) (st'.S c e) 0)

end

section
variable {α : Type} [Field α]

/-- The derivative of the pivot of row `n`. -/
def rowDT (U P : Mat α) (J : ℕ) (a : Vec α) (V : Mat α) (dU dP : Mat α) (da : Vec α)
    (dV : Mat α) (n : ℕ) : α :=
  (rowTangent U P J a V dU dP da dV n).d n

/-- The derivative of the row `n` of `W`. -/
def rowWT (U P : Mat α) (J : ℕ) (a : Vec α) (V : Mat α) (dU dP : Mat α) (da : Vec α)
    (dV : Mat α) (n : ℕ) (c : ℕ) : α :=
  (rowTangent U P J a V dU dP da dV n).W n c

end

section
variable {α : Type} [Field α]

/-- The invariant of the reverse loop of `factor_grad` before the pass at row `n`: the local
`S_` is the running state of row `n`, and the derivative `T` of the loss is the pairing of the
adjoints of the rows below `n`, of the local adjoints with the derivatives of row `n`, and of
the output buffers with the direction `(da, dU, dV, dP)`. -/
def FactorGradInv (U P : Mat α) (J N : ℕ) (a : Vec α) (V : Mat α) (dU dP : Mat α) (da : Vec α)
    (dV : Mat α) (bd : Vec α) (bW : Mat α) (T : α) (n : ℕ) (s : FactorGradState α) : Prop :=
  (∀ c e, c < J → e < J → s.S_ c e = (rowState U P J a V n).S c e) ∧
  T = ∑ i in range n, (bd i * rowDT U P J a V dU dP da dV i +
        ∑ c in range J, bW i c * rowWT U P J a V dU dP da dV i c) +
      s.bd_ * rowDT U P J a V dU dP da dV n +
      rowD U P J a V n * ∑ c in range J, s.bW_ c * rowWT U P J a V dU dP da dV n c +
      ∑ c in range J, ∑ e in range J, s.bS_ c e * (rowTangent U P J a V dU dP da dV n).S c e +
      dotV N s.ba da + dotM N J s.bU dU + dotM N J s.bV dV + dotM (N - 1) J s.bP dP

end

section
variable {α : Type} [Field α]

/-- The scalar `<bd, d> + <bW, W> + <bS, S>` of the buffers of `factor`. -/
def factorLoss (J N : ℕ) (bd : Vec α) (bW bS : Mat α) (out : FactorBuf α) : α :=
  dotV N bd out.d + dotM N J bW out.W + dotM J J bS out.S

end

section
variable {α : Type} [Field α]

/-- The derivative of `solveFwd` at the buffers `s` in the direction `(dU, dP, dW, s')`. -/
def solveFwdTan (U P W dU dP dW : Mat α) (J : ℕ) (n : ℕ) (s s' : SolveBuf α) : SolveBuf α :=
  let F1 : Mat α := fun c r => s.F c r + W (n - 1) c * s.Z (n - 1) r
  let F1' : Mat α := fun c r =>
    s'.F c r + (dW (n - 1) c * s.Z (n - 1) r + W (n - 1) c * s'.Z (n - 1) r)
  let F2 : Mat α := fun c r => P (n - 1) c * F1 c r
  let F2' : Mat α := fun c r => dP (n - 1) c * F1 c r + P (n - 1) c * F1' c r
  { Z := fun i r =>
      if i = n then s'.Z n r - ∑ c in range J, (dU n c * F2 c r + U n c * F2' c r)
      else s'.Z i r
    F := F2'
    G := s'.G }

/-- The derivative of `solveScale` at the buffers `s` in the direction `(dd, s')`. -/
def solveScaleTan (d dd : Vec α) (s s' : SolveBuf α) : SolveBuf α :=
  { s' with Z := fun i r => (s'.Z i r * d i - s.Z i r * dd i) / d i ^ 2 }

/-- The derivative of `solveBwd` at the buffers `s` in the direction `(dU, dP, dW, s')`. -/
def solveBwdTan (U P W dU dP dW : Mat α) (J : ℕ) (n : ℕ) (s s' : SolveBuf α) : SolveBuf α :=
  let G1 : Mat α := fun c r => s.G c r + U (n + 1) c * s.Z (n + 1) r
  let G1' : Mat α := fun c r =>
    s'.G c r + (dU (n + 1) c * s.Z (n + 1) r + U (n + 1) c * s'.Z (n + 1) r)
  let G2 : Mat α := fun c r => P n c * G1 c r
  let G2' : Mat α := fun c r => dP n c * G1 c r + P n c * G1' c r
  { Z := fun i r =>
      if i = n then s'.Z n r - ∑ c in range J, (dW n c * G2 c r + W n c * G2' c r)
      else s'.Z i r
    F := s'.F
    G := G2' }

/-- One pass of the forward sweep on the buffers together with their derivative. -/
def solveFwdPair (U P W dU dP dW : Mat α) (J : ℕ) (n : ℕ) (p : SolveBuf α × SolveBuf α) :
    SolveBuf α × SolveBuf α :=
  (solveFwd U P W J n p.1, solveFwdTan U P W dU dP dW J n p.1 p.2)

/-- One pass of the backward sweep on the buffers together with their derivative. -/
def solveBwdPair (U P W dU dP dW : Mat α) (J : ℕ) (n : ℕ) (p : SolveBuf α × SolveBuf α) :
    SolveBuf α × SolveBuf α :=
  (solveBwd U P W J n p.1, solveBwdTan U P W dU dP dW J n p.1 p.2)

/-- The buffers of `solve` after the forward sweep, with their derivative in the direction
`(dU, dP, dW, dY)`. -/
def solveStage1 (U P W dU dP dW : Mat α) (J N : ℕ) (Y dY : Mat α) :
    SolveBuf α × SolveBuf α :=
  loopUp (solveFwdPair U P W dU dP dW J) 1 (N - 1)
    ({ Z := Y, F := fun _ _ => 0, G := fun _ _ => 0 },
      { Z := dY, F := fun _ _ => 0, G := fun _ _ => 0 })

/-- The buffers of `solve` after the division by the pivots, with their derivative in the
direction `(dU, dP, dd, dW, dY)`. -/
def solveStage2 (U P : Mat α) (d : Vec α) (W dU dP : Mat α) (dd : Vec α) (dW : Mat α)
    (J N : ℕ) (Y dY : Mat α) : SolveBuf α × SolveBuf α :=
  (solveScale d (solveStage1 U P W dU dP dW J N Y dY).1,
    solveScaleTan d dd (solveStage1 U P W dU dP dW J N Y dY).1
      (solveStage1 U P W dU dP dW J N Y dY).2)

/-- The buffers of `solve` on return, with their derivative in the direction
`(dU, dP, dd, dW, dY)`. -/
def solveStage3 (U P : Mat α) (d : Vec α) (W dU dP : Mat α) (dd : Vec α) (dW : Mat α)
    (J N : ℕ) (Y dY : Mat α) : SolveBuf α × SolveBuf α :=
  loopDown (solveBwdPair U P W dU dP dW J) 0 (N - 1) (solveStage2 U P d W dU dP dd dW J N Y dY)

/-- The scalar `<bZ, Z> + <bF, F> + <bG, G>` of the buffers of `solve`. -/
def solveLoss (J N Nrhs : ℕ) (bZ bF bG : Mat α) (out : SolveBuf α) : α :=
  dotM N Nrhs bZ out.Z + dotM J Nrhs bF out.F + dotM J Nrhs bG out.G

end

section

/-- A curve of buffers has, at parameter 0, the derivative `st'` on the entries of a run with
`N` rows, `J` columns and `Nrhs` right-hand sides. -/
def SolveBufDeriv (J N Nrhs : ℕ) (st : ℝ → SolveBuf ℝ) (st' : SolveBuf ℝ) : Prop :=
  (∀ i r, i < N → r < Nrhs → HasDerivAt (fun t => (st t).Z i r) (st'.Z i r) 0) ∧
  (∀ c r, c < J → r < Nrhs → HasDerivAt (fun t => (st t).F c r) (st'.F c r) 0) ∧
  (∀ c r, c < J → r < Nrhs → HasDerivAt (fun t => (st t).G c r) (st'.G c r) 0)

end

section
variable {α : Type} [Field α]

/-- The pairing of the running adjoints of `solve_grad` with a derivative `t'` of the buffers
of `solve`, plus the pairing of the output buffers with the direction `(dU, dP, dd, dW)`. -/
def solveGradPairing (J N Nrhs : ℕ) (dU dP : Mat α) (dd : Vec α) (dW : Mat α)
    (s : SolveGradState α) (t' : SolveBuf α) : α :=
  solvePairing J N Nrhs s t' + dotM N J s.bU dU + dotM (N - 1) J s.bP dP + dotV N s.bd dd +
    dotM N J s.bW dW

end

section
variable {α : Type} [Field α]

/-- Two states of `solve_grad` with the same locals and the same `bY` whose other buffers
differ by the offsets `oU`, `oP`, `od`, `oW`. -/
def SolveGradShift (oU oP : Mat α) (od : Vec α) (oW : Mat α) (s t : SolveGradState α) : Prop :=
  s.bF_ = t.bF_ ∧ s.F_ = t.F_ ∧ s.bG_ = t.bG_ ∧ s.G_ = t.G_ ∧ s.Z_ = t.Z_ ∧ s.bY = t.bY ∧
    (∀ i c, s.bU i c = oU i c + t.bU i c) ∧ (∀ i c, s.bP i c = oP i c + t.bP i c) ∧
    (∀ i, s.bd i = od i + t.bd i) ∧ (∀ i c, s.bW i c = oW i c + t.bW i c)

/-- Two states of `solve_grad` with the same running Y-gradient and adjoint accumulators. -/
def SolveGradSameY (s t : SolveGradState α) : Prop :=
  s.bY = t.bY ∧ s.bG_ = t.bG_ ∧ s.bF_ = t.bF_

end
/-- The zero matrix over `ℚ`. -/
def exZeroMat : Mat ℚ := fun _ _ => 0

/-- The zero vector over `ℚ`. -/
def exZeroVec : Vec ℚ := fun _ => 0

/-- The output of `solve` for `N = 2`, `J = 1`, one right-hand side `Y = [1, 1]`, with
`U = W = [1, 1]`, `P = [1]` and `d = [2, 2]`. -/
def exSolveOut : SolveBuf ℚ := solve exOnes exOnes exTwoVec exOnes 1 2 exOnes exZeroMat exZeroMat

/-- The column `[1, 1/2, 1/2, ...]` over `ℚ` (every column the same). -/
def exHalfU : Mat ℚ := fun i _ => if i = 0 then 1 else 1 / 2

/-- The decay matrix over `ℚ` with every entry `9/10`. -/
def exDecay : Mat ℚ := fun _ _ => 9 / 10

/-- The column `[5, 1, 1, ...]` over `ℚ`: `exOnes` with another row 0. -/
def exRowZeroU : Mat ℚ := fun i _ => if i = 0 then 5 else 1

/-- The column `[1, 7, 1, ...]` over `ℚ`: `exOnes` with another row 1. -/
def exRowOneW : Mat ℚ := fun i _ => if i = 1 then 7 else 1

section
variable {α : Type} [Field α]

/-- The state of `factor_grad` at the start of the pass of its reverse loop at row `n`, when
the passes at rows `N - 1`, ..., `n + 1` are done. -/
def factorGradAt (U P : Mat α) (d : Vec α) (W S : Mat α) (bd : Vec α) (bW bS : Mat α)
    (J N : ℕ) (ba : Vec α) (bU bV bP : Mat α) (n : ℕ) : FactorGradState α :=
  loopDown (factorGradBody U P d W bd bW J) (n + 1) (N - 1 - n)
    (factorGradInit N d S bd bW bS ba bU bV bP)

end

/-! ## The code of `factor` over any scalar arithmetic -/

section Generic

variable {α : Type}

/-- The scalar arithmetic the templates of `celerite.h` are instantiated with: the zero of
`setZero`, the four operations, the two products whose reductions are Eigen's and not part of
the source file (`vecMat J u S` for the row `u * S` of `U.row(n) * S`, `dot J t u` for the
scalar `t * u^T` of `tmp * U.row(n).transpose()`, both over `J` terms), the test `x <= 0.0` of
line 30 and, for the statements only, the test `x > 0`. No law is assumed of them: IEEE
doubles with rounding, overflow and NaN are one such arithmetic, an ordered field is
another. -/
structure Arith (α : Type) where
  zero : α
  add : α → α → α
  sub : α → α → α
  mul : α → α → α
  div : α → α → α
  vecMat : ℕ → Vec α → Mat α → Vec α
  dot : ℕ → Vec α → Vec α → α
  nonpos : α → Bool
  pos : α → Bool

/-- Lines 18-19 of `factor`: `S.setZero(); W.row(0) /= d(0);` with `d` holding `a` and `W`
holding `V`. -/
def Arith.factorInit (A : Arith α) (a : Vec α) (V : Mat α) : FactorBuf α where
  d := a
  W := fun i c => if i = 0 then A.div (V 0 c) (a 0) else V i c
  S := fun _ _ => A.zero

/-- Lines 24-29 of `factor` for row `n`: the update of `S`, `tmp = U.row(n) * S` and the update
of the pivot `d(n)`. -/
def Arith.factorPivot (A : Arith α) (U P : Mat α) (J n : ℕ) (st : FactorBuf α) : FactorBuf α :=
  let S1 : Mat α := fun c e =>
    A.add (st.S c e) (A.mul (A.mul (st.d (n - 1)) (st.W (n - 1) c)) (st.W (n - 1) e))
  let S2 : Mat α := fun c e => A.mul (S1 c e) (A.mul (P (n - 1) c) (P (n - 1) e))
  let tmp : Vec α := A.vecMat J (U n) S2
  { d := fun i => if i = n then A.sub (st.d n) (A.dot J tmp (U n)) else st.d i
    W := st.W
    S := S2 }

/-- Lines 33-34 of `factor` for row `n`: `W.row(n) -= tmp; W.row(n) /= d(n);`. -/
def Arith.factorRowW (A : Arith α) (U : Mat α) (J n : ℕ) (st : FactorBuf α) : FactorBuf α :=
  let tmp : Vec α := A.vecMat J (U n) st.S
  { d := st.d
    W := fun i c => if i = n then A.div (A.sub (st.W n c) (tmp c)) (st.d n) else st.W i c
    S := st.S }

/-- The row loop of `factor` (lines 22-37) with `k` rows left, the next one being `n`: the
result is the returned status and the buffers at that moment. The loop goes on when the test
`d(n) <= 0.0` is false. -/
def Arith.factorLoop (A : Arith α) (U P : Mat α) (J : ℕ) :
    ℕ → ℕ → FactorBuf α → ℕ × FactorBuf α
  | 0, _, st => (0, st)
  | k + 1, n, st =>
    if A.nonpos ((A.factorPivot U P J n st).d n) = true then (n, A.factorPivot U P J n st)
    else Arith.factorLoop A U P J k (n + 1) (A.factorRowW U J n (A.factorPivot U P J n st))

/-- The function `factor` over the arithmetic `A`: `U` is (N, J), `P` is (N-1, J), `a` is the
initial content of `d`, `V` the initial content of `W`, `S0` the initial content of `S`. -/
def Arith.factor (A : Arith α) (U P : Mat α) (J N : ℕ) (a : Vec α) (V : Mat α) (_S0 : Mat α) :
    ℕ × FactorBuf α :=
  A.factorLoop U P J (N - 1) 1 (A.factorInit a V)

/-- Follows the spec's words (section 4.1, algorithm), row by row and with no buffers: row 0
has `S_0 = 0`, `d(0) = a(0)`, `W_0 = V_0 / d(0)`; row `n + 1` has
`S = (S_n + d(n) W_n^T W_n) .* (P_n^T P_n)`, `t = U_{n+1} S`, `d(n+1) = a(n+1) - t U_{n+1}^T`
and `W_{n+1} = (V_{n+1} - t) / d(n+1)`. The value is `(d(n), W_n, S_n)`. -/
def Arith.specRows (A : Arith α) (U P : Mat α) (J : ℕ) (a : Vec α) (V : Mat α) :
    ℕ → α × Vec α × Mat α
  | 0 => (a 0, fun c => A.div (V 0 c) (a 0), fun _ _ => A.zero)
  | n + 1 =>
    let S : Mat α := fun c e =>
      A.mul (A.add ((Arith.specRows A U P J a V n).2.2 c e)
        (A.mul (A.mul (Arith.specRows A U P J a V n).1 ((Arith.specRows A U P J a V n).2.1 c))
          ((Arith.specRows A U P J a V n).2.1 e))) (A.mul (P n c) (P n e))
    let t : Vec α := A.vecMat J (U (n + 1)) S
    let d : α := A.sub (a (n + 1)) (A.dot J t (U (n + 1)))
    (d, fun c => A.div (A.sub (V (n + 1) c) (t c)) d, S)

/-- Follows the spec's words: the updated pivot `d(n) = a(n) - U_n S_n U_n^T` of row `n`. -/
def Arith.specPivot (A : Arith α) (U P : Mat α) (J : ℕ) (a : Vec α) (V : Mat α) (n : ℕ) : α :=
  (A.specRows U P J a V n).1

/-- The buffers of `factor` after the rows `0..m`, in terms of the row recursion of the
spec: the rows up to `m` of `d` and `W` and the buffer `S` hold its values, the rows above
`m` still hold the inputs. -/
def Arith.RowInv (A : Arith α) (U P : Mat α) (J : ℕ) (a : Vec α) (V : Mat α) (m : ℕ)
    (st : FactorBuf α) : Prop :=
  (∀ i, i ≤ m → st.d i = A.specPivot U P J a V i) ∧
  (∀ i c, i ≤ m → st.W i c = (A.specRows U P J a V i).2.1 c) ∧
  st.S = (A.specRows U P J a V m).2.2 ∧
  (∀ i, m < i → st.d i = a i) ∧ (∀ i c, m < i → st.W i c = V i c)

end Generic

/-! ## Two scalar arithmetics: an ordered field, and the rationals with the IEEE special
values -/

section
variable {α β : Type}

/-- The exact arithmetic of an ordered field, with `x / 0 = 0`: the arithmetic of the
definitions `factor`, `factor_grad`, `solve` and `solve_grad` above. -/
def exactArith (α : Type) [LinearOrderedField α] : Arith α where
  zero := 0
  add := fun x y => x + y
  sub := fun x y => x - y
  mul := fun x y => x * y
  div := fun x y => x / y
  vecMat := fun J u S e => ∑ c in range J, u c * S c e
  dot := fun J x y => ∑ c in range J, x c * y c
  nonpos := fun x => decide (x ≤ 0)
  pos := fun x => decide (0 < x)

/-- The matrix of the images of the entries of `M`. -/
def liftMat (e : α → β) (M : Mat α) : Mat β := fun i c => e (M i c)

/-- The vector of the images of the entries of `v`. -/
def liftVec (e : α → β) (v : Vec α) : Vec β := fun i => e (v i)

end

/-- The values of IEEE arithmetic with rounding left out: the rationals, the two infinities
and NaN. A finite result is exact unless it overflows, and zero has no sign; the operations
follow IEEE 754 on the infinities, on NaN and at a division by zero. -/
inductive Ext where
  | fin (q : ℚ)
  | pinf
  | ninf
  | nan

/-- The bound `2 ^ 1024` from which on a double overflows. -/
def Ext.huge : ℚ := 2 ^ 1024

/-- The result of an operation whose exact value is `q`: a value of magnitude at least
`2 ^ 1024` overflows to the infinity of its sign, as it does for a double. -/
def Ext.ofRat (q : ℚ) : Ext :=
  if Ext.huge ≤ q then Ext.pinf else if q ≤ -Ext.huge then Ext.ninf else Ext.fin q

/-- The infinity of the sign of `q`, NaN for `q = 0`: the value of `q * inf` and of `q / 0`. -/
def Ext.infOf (q : ℚ) : Ext :=
  if q = 0 then Ext.nan else if 0 < q then Ext.pinf else Ext.ninf

/-- IEEE negation. -/
def Ext.neg : Ext → Ext
  | Ext.fin q => Ext.fin (-q)
  | Ext.pinf => Ext.ninf
  | Ext.ninf => Ext.pinf
  | Ext.nan => Ext.nan

/-- IEEE addition: `inf + (-inf)` and every sum with NaN are NaN. -/
def Ext.add : Ext → Ext → Ext
  | Ext.fin x, Ext.fin y => Ext.ofRat (x + y)
  | Ext.fin _, Ext.pinf => Ext.pinf
  | Ext.fin _, Ext.ninf => Ext.ninf
  | Ext.pinf, Ext.fin _ => Ext.pinf
  | Ext.ninf, Ext.fin _ => Ext.ninf
  | Ext.pinf, Ext.pinf => Ext.pinf
  | Ext.ninf, Ext.ninf => Ext.ninf
  | Ext.pinf, Ext.ninf => Ext.nan
  | Ext.ninf, Ext.pinf => Ext.nan
  | Ext.nan, _ => Ext.nan
  | _, Ext.nan => Ext.nan

/-- IEEE subtraction. -/
def Ext.sub (x y : Ext) : Ext := Ext.add x (Ext.neg y)

/-- IEEE multiplication: `0 * inf` and every product with NaN are NaN. -/
def Ext.mul : Ext → Ext → Ext
  | Ext.fin x, Ext.fin y => Ext.ofRat (x * y)
  | Ext.fin x, Ext.pinf => Ext.infOf x
  | Ext.fin x, Ext.ninf => Ext.infOf (-x)
  | Ext.pinf, Ext.fin y => Ext.infOf y
  | Ext.ninf, Ext.fin y => Ext.infOf (-y)
  | Ext.pinf, Ext.pinf => Ext.pinf
  | Ext.ninf, Ext.ninf => Ext.pinf
  | Ext.pinf, Ext.ninf => Ext.ninf
  | Ext.ninf, Ext.pinf => Ext.ninf
  | Ext.nan, _ => Ext.nan
  | _, Ext.nan => Ext.nan

/-- IEEE division: `x / 0` is the infinity of the sign of `x` and `0 / 0` is NaN, a number
divided by an infinity is 0, `inf / inf` and every quotient with NaN are NaN. -/
def Ext.div : Ext → Ext → Ext
  | Ext.fin x, Ext.fin y => if y = 0 then Ext.infOf x else Ext.ofRat (x / y)
  | Ext.fin _, Ext.pinf => Ext.fin 0
  | Ext.fin _, Ext.ninf => Ext.fin 0
  | Ext.pinf, Ext.fin y => if 0 ≤ y then Ext.pinf else Ext.ninf
  | Ext.ninf, Ext.fin y => if 0 ≤ y then Ext.ninf else Ext.pinf
  | Ext.pinf, Ext.pinf => Ext.nan
  | Ext.ninf, Ext.ninf => Ext.nan
  | Ext.pinf, Ext.ninf => Ext.nan
  | Ext.ninf, Ext.pinf => Ext.nan
  | Ext.nan, _ => Ext.nan
  | _, Ext.nan => Ext.nan

/-- The test `x <= 0.0`: false of NaN. -/
def Ext.nonpos : Ext → Bool
  | Ext.fin x => decide (x ≤ 0)
  | Ext.pinf => false
  | Ext.ninf => true
  | Ext.nan => false

/-- The test `x > 0.0`: false of NaN. -/
def Ext.pos : Ext → Bool
  | Ext.fin x => decide (0 < x)
  | Ext.pinf => true
  | Ext.ninf => false
  | Ext.nan => false

/-- The arithmetic of `Ext`, with the two products summed from the left. -/
def extArith : Arith Ext where
  zero := Ext.fin 0
  add := Ext.add
  sub := Ext.sub
  mul := Ext.mul
  div := Ext.div
  vecMat := fun J u S e =>
    (List.range J).foldl (fun acc c => Ext.add acc (Ext.mul (u c) (S c e))) (Ext.fin 0)
  dot := fun J x y => (List.range J).foldl (fun acc c => Ext.add acc (Ext.mul (x c) (y c)))
    (Ext.fin 0)
  nonpos := Ext.nonpos
  pos := Ext.pos

/-- The vector `[0, -1, -1, ...]` over `ℚ`. -/
def exZeroThenNeg : Vec ℚ := fun i => if i = 0 then 0 else -1

/-- The vector `[0, 1, 1, ...]` over `ℚ`. -/
def exZeroThenOne : Vec ℚ := fun i => if i = 0 then 0 else 1

/-- The number `2 ^ 600`, a double whose square overflows. -/
def Ext.big : ℚ := 2 ^ 600

section
variable {α : Type} [Field α]

@[simp] theorem factorPivot_W (U P : Mat α) (J n : ℕ) (st : FactorBuf α) :
    (factorPivot U P J n st).W = st.W := rfl

@[simp] theorem factorRowW_d (U : Mat α) (J n : ℕ) (st : FactorBuf α) :
    (factorRowW U J n st).d = st.d := rfl

@[simp] theorem factorRowW_S (U : Mat α) (J n : ℕ) (st : FactorBuf α) :
    (factorRowW U J n st).S = st.S := rfl

theorem factorPivot_d_of_ne (U P : Mat α) (J n i : ℕ) (st : FactorBuf α) (h : i ≠ n) :
    (factorPivot U P J n st).d i = st.d i := by
  simp [factorPivot, h]

theorem factorRowW_W_of_ne (U : Mat α) (J n i : ℕ) (st : FactorBuf α) (h : i ≠ n) (c : ℕ) :
    (factorRowW U J n st).W i c = st.W i c := by
  simp [factorRowW, h]

/-- Rows above the ones visited still hold their input pivot. -/
theorem rowState_d_of_lt (U P : Mat α) (J : ℕ) (a : Vec α) (V : Mat α) (m i : ℕ) (h : m < i) :
    (rowState U P J a V m).d i = a i := by
  induction m with
  | zero => rfl
  | succ m ih =>
    rw [rowState, factorRowW_d, factorPivot_d_of_ne _ _ _ _ _ _ (by omega), ih (by omega)]

/-- Rows above the ones visited still hold their input row of `V`. -/
theorem rowState_W_of_lt (U P : Mat α) (J : ℕ) (a : Vec α) (V : Mat α) (m i : ℕ) (h : m < i)
    (c : ℕ) : (rowState U P J a V m).W i c = V i c := by
  induction m with
  | zero => simp [rowState, factorInit, Nat.pos_iff_ne_zero.mp h]
  | succ m ih =>
    rw [rowState, factorRowW_W_of_ne _ _ _ _ _ (by omega), factorPivot_W, ih (by omega)]

/-- Rows already visited keep their pivot. -/
theorem rowState_d_of_le (U P : Mat α) (J : ℕ) (a : Vec α) (V : Mat α) (m k i : ℕ)
    (h : i ≤ m) : (rowState U P J a V (m + k)).d i = (rowState U P J a V m).d i := by
  induction k with
  | zero => rfl
  | succ k ih =>
    rw [← Nat.add_assoc, rowState, factorRowW_d, factorPivot_d_of_ne _ _ _ _ _ _ (by omega), ih]

/-- Rows already visited keep their row of `W`. -/
theorem rowState_W_of_le (U P : Mat α) (J : ℕ) (a : Vec α) (V : Mat α) (m k i : ℕ)
    (h : i ≤ m) (c : ℕ) :
    (rowState U P J a V (m + k)).W i c = (rowState U P J a V m).W i c := by
  induction k with
  | zero => rfl
  | succ k ih =>
    rw [← Nat.add_assoc, rowState, factorRowW_W_of_ne _ _ _ _ _ (by omega), factorPivot_W, ih]

theorem rowState_succ_S (U P : Mat α) (J : ℕ) (a : Vec α) (V : Mat α) (m : ℕ) :
    (rowState U P J a V (m + 1)).S = (factorPivot U P J (m + 1) (rowState U P J a V m)).S := rfl

/-- The pivot the loop tests at row `m + 1` is the updated pivot of the row recursion. -/
theorem factorPivot_d_eq_pivot (U P : Mat α) (J : ℕ) (a : Vec α) (V : Mat α) (m : ℕ) :
    (factorPivot U P J (m + 1) (rowState U P J a V m)).d (m + 1) = pivot U P J a V (m + 1) := by
  have h := rowState_d_of_lt U P J a V m (m + 1) (by omega)
  simp only [pivot, rowState_succ_S]
  simp [factorPivot, rowTimes, h]

theorem rowState_d_eq_pivot (U P : Mat α) (J : ℕ) (a : Vec α) (V : Mat α) (m : ℕ) :
    (rowState U P J a V (m + 1)).d (m + 1) = pivot U P J a V (m + 1) := by
  rw [rowState, factorRowW_d, factorPivot_d_eq_pivot]

end

section
variable {α : Type} [LinearOrderedField α]

/-- With every remaining pivot positive the loop runs to its end and returns 0. -/
theorem factorLoop_pos (U P : Mat α) (J : ℕ) (a : Vec α) (V : Mat α) (k m : ℕ)
    (h : ∀ i, i < k → 0 < pivot U P J a V (m + 1 + i)) :
    factorLoop U P J k (m + 1) (rowState U P J a V m) = (0, rowState U P J a V (m + k)) := by
  induction k generalizing m with
  | zero => rfl
  | succ k ih =>
    have h0 := h 0 (by omega)
    rw [Nat.add_zero, ← factorPivot_d_eq_pivot] at h0
    rw [factorLoop]
    simp only [not_le.mpr h0, if_false]
    have := ih (m + 1) (fun i hi => by
      have := h (i + 1) (by omega)
      rwa [show m + 1 + (i + 1) = m + 1 + 1 + i by omega] at this)
    rw [show m + (k + 1) = m + 1 + k by omega, ← this]
    rfl

/-- The loop returns at the first row whose updated pivot is not positive. -/
theorem factorLoop_fail (U P : Mat α) (J : ℕ) (a : Vec α) (V : Mat α) (k m i : ℕ) (hi : i < k)
    (hpos : ∀ j, j < i → 0 < pivot U P J a V (m + 1 + j))
    (hneg : pivot U P J a V (m + 1 + i) ≤ 0) :
    factorLoop U P J k (m + 1) (rowState U P J a V m) =
      (m + 1 + i, factorPivot U P J (m + 1 + i) (rowState U P J a V (m + i))) := by
  induction k generalizing m i with
  | zero => omega
  | succ k ih =>
    rw [factorLoop]
    rcases Nat.eq_zero_or_pos i with rfl | hi0
    · rw [Nat.add_zero, ← factorPivot_d_eq_pivot] at hneg
      simp only [hneg, if_true, Nat.add_zero]
    · have h0 := hpos 0 hi0
      rw [Nat.add_zero, ← factorPivot_d_eq_pivot] at h0
      simp only [not_le.mpr h0, if_false]
      obtain ⟨i, rfl⟩ : ∃ i', i = i' + 1 := ⟨i - 1, by omega⟩
      have := ih (m + 1) i (by omega) (fun j hj => by
        have := hpos (j + 1) (by omega)
        rwa [show m + 1 + (j + 1) = m + 1 + 1 + j by omega] at this)
        (by rwa [show m + 1 + (i + 1) = m + 1 + 1 + i by omega] at hneg)
      rw [show m + 1 + (i + 1) = m + 1 + 1 + i by omega, show m + (i + 1) = m + 1 + i by omega,
        ← this]
      rfl

/-- Either every updated pivot of rows `1..N-1` is positive, or there is a first row whose
updated pivot is not. -/
theorem first_bad_pivot (U P : Mat α) (J : ℕ) (a : Vec α) (V : Mat α) (N : ℕ) :
    (∀ m, 1 ≤ m → m < N → 0 < pivot U P J a V m) ∨
    ∃ n, 1 ≤ n ∧ n < N ∧ pivot U P J a V n ≤ 0 ∧ ∀ m, 1 ≤ m → m < n → 0 < pivot U P J a V m := by
  by_cases h : ∀ m, 1 ≤ m → m < N → 0 < pivot U P J a V m
  · exact Or.inl h
  · right
    push_neg at h
    have hex : ∃ n, 1 ≤ n ∧ n < N ∧ pivot U P J a V n ≤ 0 := h
    classical
    refine ⟨Nat.find hex, (Nat.find_spec hex).1, (Nat.find_spec hex).2.1,
      (Nat.find_spec hex).2.2, fun m h1 hm => ?_⟩
    by_contra hc
    exact Nat.find_min hex hm ⟨h1, by have := (Nat.find_spec hex).2.1; omega, not_lt.mp hc⟩

theorem factor_of_pos (U P : Mat α) (J N : ℕ) (a : Vec α) (V S0 : Mat α)
    (h : ∀ m, 1 ≤ m → m < N → 0 < pivot U P J a V m) :
    factor U P J N a V S0 = (0, rowState U P J a V (N - 1)) := by
  have := factorLoop_pos U P J a V (N - 1) 0 (fun i hi => h _ (by omega) (by omega))
  simpa [factor, rowState] using this

theorem factor_of_bad (U P : Mat α) (J N : ℕ) (a : Vec α) (V S0 : Mat α) (n : ℕ)
    (h1 : 1 ≤ n) (hn : n < N) (hneg : pivot U P J a V n ≤ 0)
    (hpos : ∀ m, 1 ≤ m → m < n → 0 < pivot U P J a V m) :
    factor U P J N a V S0 = (n, factorPivot U P J n (rowState U P J a V (n - 1))) := by
  have := factorLoop_fail U P J a V (N - 1) 0 (n - 1) (by omega)
    (fun j hj => hpos _ (by omega) (by omega))
    (by rwa [show 0 + 1 + (n - 1) = n by omega])
  rw [show 0 + 1 + (n - 1) = n by omega, Nat.zero_add] at this
  simpa [factor, rowState] using this

end

section
variable {α : Type} [Field α]

/-- In the state after rows `0..m` the pivot of a visited row `n >= 1` is its updated pivot. -/
theorem rowState_d_visited (U P : Mat α) (J : ℕ) (a : Vec α) (V : Mat α) (m n : ℕ)
    (h1 : 1 ≤ n) (hn : n ≤ m) : (rowState U P J a V m).d n = pivot U P J a V n := by
  obtain ⟨k, rfl⟩ : ∃ k, m = n + k := ⟨m - n, by omega⟩
  obtain ⟨n, rfl⟩ : ∃ n', n = n' + 1 := ⟨n - 1, by omega⟩
  rw [rowState_d_of_le _ _ _ _ _ _ _ _ le_rfl, rowState_d_eq_pivot]

/-- The pivot of row 0 is never changed. -/
theorem rowState_d_zero (U P : Mat α) (J : ℕ) (a : Vec α) (V : Mat α) (m : ℕ) :
    (rowState U P J a V m).d 0 = a 0 := by
  have := rowState_d_of_le U P J a V 0 m 0 le_rfl
  rw [Nat.zero_add] at this
  rw [this]; rfl
end
section
variable {α : Type} [LinearOrderedField α]

/-- A run of `factor` that returns 0 went through every row with a positive updated pivot and
leaves the buffers of the row recursion. -/
theorem factor_success (U P : Mat α) (J N : ℕ) (a : Vec α) (V S0 : Mat α)
    (h : (factor U P J N a V S0).1 = 0) :
    (∀ m, 1 ≤ m → m < N → 0 < pivot U P J a V m) ∧
      factor U P J N a V S0 = (0, rowState U P J a V (N - 1)) := by
  rcases first_bad_pivot U P J a V N with hall | ⟨n0, h1, hlt, hneg, hpos⟩
  · exact ⟨hall, factor_of_pos U P J N a V S0 hall⟩
  · rw [factor_of_bad U P J N a V S0 n0 h1 hlt hneg hpos] at h
    have h' : n0 = 0 := h
    omega

/-- C5 (counterexample): with `a = [-1, 1]`, `U = V = [1, 1]`, `P = [1]` the call returns 0 and
leaves the negative pivot `d(0) = -1`. -/
theorem factor_accepts_negative_first_pivot :
    (factor exOnes exOnes 1 2 exNegFirst exOnes exOnes).1 = 0 ∧
      ¬ (∀ n, n < 2 → 0 < (factor exOnes exOnes 1 2 exNegFirst exOnes exOnes).2.d n) := by
  have h : (factor exOnes exOnes 1 2 exNegFirst exOnes exOnes).1 = 0 := by
    norm_num [factor, factorLoop, factorPivot, factorRowW, factorInit, rowTimes, exOnes,
      exNegFirst]
  have h0 : (factor exOnes exOnes 1 2 exNegFirst exOnes exOnes).2.d 0 = -1 := by
    norm_num [factor, factorLoop, factorPivot, factorRowW, factorInit, rowTimes, exOnes,
      exNegFirst]
  refine ⟨h, fun hall => ?_⟩
  have := hall 0 (by decide)
  rw [h0] at this
  norm_num at this

end

/-! ## Loop combinators -/

section
variable {σ τ : Type}

theorem loopUp_succ (body : ℕ → σ → σ) (lo k : ℕ) (s : σ) :
    loopUp body lo (k + 1) s = body (lo + k) (loopUp body lo k s) := rfl

theorem loopDown_succ (body : ℕ → σ → σ) (lo k : ℕ) (s : σ) :
    loopDown body lo (k + 1) s = loopDown body lo k (body (lo + k) s) := rfl

/-- A relation kept by every pair of matching passes of two ascending loops holds after
them. -/
theorem loopUp_rel (R : σ → τ → Prop) (f : ℕ → σ → σ) (g : ℕ → τ → τ) (lo lo2 : ℕ)
    (h : ∀ n s t, R s t → R (f (lo + n) s) (g (lo2 + n) t)) (k : ℕ) (s : σ) (t : τ)
    (hst : R s t) : R (loopUp f lo k s) (loopUp g lo2 k t) := by
  induction k with
  | zero => exact hst
  | succ k ih => exact h _ _ _ ih

/-- A relation kept by every pair of matching passes of two descending loops holds after
them. -/
theorem loopDown_rel (R : σ → τ → Prop) (f : ℕ → σ → σ) (g : ℕ → τ → τ) (lo lo2 : ℕ)
    (h : ∀ n s t, R s t → R (f (lo + n) s) (g (lo2 + n) t)) (k : ℕ) (s : σ) (t : τ)
    (hst : R s t) : R (loopDown f lo k s) (loopDown g lo2 k t) := by
  induction k generalizing s t with
  | zero => exact hst
  | succ k ih => exact ih _ _ (h _ _ _ hst)

end

/-! ## `factor_grad` adds to its output buffers -/

section
variable {α : Type} [Field α]

theorem factorGradBody_shift (U P : Mat α) (d : Vec α) (W : Mat α) (bd : Vec α) (bW : Mat α)
    (J : ℕ) (ba0 : Vec α) (bU0 bV0 bP0 : Mat α) (n : ℕ) (s t : FactorGradState α)
    (h : FactorGradShift ba0 bU0 bV0 bP0 s t) :
    FactorGradShift ba0 bU0 bV0 bP0 (factorGradBody U P d W bd bW J n s)
      (factorGradBody U P d W bd bW J n t) := by
  obtain ⟨h1, h2, h3, h4, h5, h6, h7, h8⟩ := h
  refine ⟨?_, ?_, ?_, ?_, ?_, ?_, ?_, ?_⟩
  · simp only [factorGradBody, h1, h2, h3, h4]
  · simp only [factorGradBody, h1, h2, h3, h4]
  · simp only [factorGradBody, h1, h2, h3, h4]
  · simp only [factorGradBody, h1, h2, h3, h4]
  · intro i
    simp only [factorGradBody, h1, h2, h3, h4, h5]
    split_ifs with hi
    · subst hi; ring
    · ring
  · intro i c
    simp only [factorGradBody, h1, h2, h3, h4, h6]
    split_ifs with hi
    · subst hi; ring
    · ring
  · intro i c
    simp only [factorGradBody, h1, h2, h3, h4, h7]
    split_ifs with hi
    · subst hi; ring
    · ring
  · intro i c
    simp only [factorGradBody, h1, h2, h3, h4, h8]
    split_ifs with hi
    · subst hi; ring
    · ring

theorem factorGradLast_shift (W : Mat α) (J : ℕ) (ba0 : Vec α) (bU0 bV0 bP0 : Mat α)
    (s t : FactorGradState α) (h : FactorGradShift ba0 bU0 bV0 bP0 s t) :
    FactorGradShift ba0 bU0 bV0 bP0 (factorGradLast W J s) (factorGradLast W J t) := by
  obtain ⟨h1, h2, h3, h4, h5, h6, h7, h8⟩ := h
  refine ⟨?_, h2, h3, h4, ?_, h6, ?_, h8⟩
  · simp only [factorGradLast, h1, h2]
  · intro i
    simp only [factorGradLast, h1, h2, h5]
    split_ifs with hi
    · subst hi; ring
    · ring
  · intro i c
    simp only [factorGradLast, h2, h7]
    split_ifs with hi
    · subst hi; ring
    · ring

/-- C10: whatever the output buffers `ba`, `bU`, `bV`, `bP` hold on entry, after `factor_grad`
they hold that content plus increments that are the result of the same call on zero buffers,
a function of `(U, P, d, W, S, bd, bW, bS)` alone. -/
theorem factor_grad_accumulates (U P : Mat α) (d : Vec α) (W S : Mat α) (bd : Vec α)
    (bW bS : Mat α) (J N : ℕ) (ba0 : Vec α) (bU0 bV0 bP0 : Mat α) :
    (∀ i, (factor_grad U P d W S bd bW bS J N ba0 bU0 bV0 bP0).ba i =
      ba0 i + (factor_grad U P d W S bd bW bS J N (fun _ => 0) (fun _ _ => 0) (fun _ _ => 0)
        (fun _ _ => 0)).ba i) ∧
    (∀ i c, (factor_grad U P d W S bd bW bS J N ba0 bU0 bV0 bP0).bU i c =
      bU0 i c + (factor_grad U P d W S bd bW bS J N (fun _ => 0) (fun _ _ => 0) (fun _ _ => 0)
        (fun _ _ => 0)).bU i c) ∧
    (∀ i c, (factor_grad U P d W S bd bW bS J N ba0 bU0 bV0 bP0).bV i c =
      bV0 i c + (factor_grad U P d W S bd bW bS J N (fun _ => 0) (fun _ _ => 0) (fun _ _ => 0)
        (fun _ _ => 0)).bV i c) ∧
    (∀ i c, (factor_grad U P d W S bd bW bS J N ba0 bU0 bV0 bP0).bP i c =
      bP0 i c + (factor_grad U P d W S bd bW bS J N (fun _ => 0) (fun _ _ => 0) (fun _ _ => 0)
        (fun _ _ => 0)).bP i c) := by
  have h0 : FactorGradShift ba0 bU0 bV0 bP0 (factorGradInit N d S bd bW bS ba0 bU0 bV0 bP0)
      (factorGradInit N d S bd bW bS (fun _ => 0) (fun _ _ => 0) (fun _ _ => 0)
        (fun _ _ => 0)) := by
    refine ⟨rfl, rfl, rfl, rfl, ?_, ?_, ?_, ?_⟩ <;> intros <;> simp [factorGradInit]
  have h1 := loopDown_rel (FactorGradShift ba0 bU0 bV0 bP0) _ _ 1 1
    (fun n => factorGradBody_shift U P d W bd bW J ba0 bU0 bV0 bP0 (1 + n)) (N - 1) _ _ h0
  have h2 := factorGradLast_shift W J ba0 bU0 bV0 bP0 _ _ h1
  exact ⟨h2.2.2.2.2.1, h2.2.2.2.2.2.1, h2.2.2.2.2.2.2.1, h2.2.2.2.2.2.2.2⟩

end

/-! ## The Y-gradient of `solve_grad` is a `solve` -/

section
variable {α : Type} [Field α]

theorem solveGradBody1_mirror (U P W : Mat α) (J Nrhs n : ℕ) (s : SolveGradState α)
    (t : SolveBuf α) (h : SolveMirror s t) :
    SolveMirror (solveGradBody1 U P W J Nrhs (0 + n) s) (solveFwd U P W J (1 + n) t) := by
  obtain ⟨h1, h2, h3⟩ := h
  rw [Nat.zero_add, Nat.add_comm 1 n]
  refine ⟨fun i r => ?_, fun c r => ?_, fun c r => ?_⟩
  · simp only [solveGradBody1, solveFwd, h1, h2, Nat.add_sub_cancel]
    split_ifs with hi
    · rw [sub_eq_add_neg, ← sum_neg_distrib]
      congr 1
      refine sum_congr rfl fun c _ => ?_
      ring
    · rfl
  · simp only [solveGradBody1, solveFwd, h1, h2, Nat.add_sub_cancel]
    ring
  · simp only [solveGradBody1, solveFwd, h3]

theorem solveGradMid_mirror (d : Vec α) (N Nrhs : ℕ) (s : SolveGradState α) (t : SolveBuf α)
    (h : SolveMirror s t) : SolveMirror (solveGradMid d N Nrhs s) (solveScale d t) := by
  obtain ⟨h1, h2, h3⟩ := h
  exact ⟨fun i r => by simp only [solveGradMid, solveScale, h1], h2, h3⟩

theorem solveGradBody2_mirror (U P W : Mat α) (J Nrhs n : ℕ) (s : SolveGradState α)
    (t : SolveBuf α) (h : SolveMirror s t) :
    SolveMirror (solveGradBody2 U P W J Nrhs (1 + n) s) (solveBwd U P W J (0 + n) t) := by
  obtain ⟨h1, h2, h3⟩ := h
  rw [Nat.zero_add, Nat.add_comm 1 n]
  refine ⟨fun i r => ?_, fun c r => ?_, fun c r => ?_⟩
  · simp only [solveGradBody2, solveBwd, h1, h3, Nat.add_sub_cancel]
    split_ifs with hi
    · rw [sub_eq_add_neg, ← sum_neg_distrib]
      congr 1
      refine sum_congr rfl fun c _ => ?_
      ring
    · rfl
  · simp only [solveGradBody2, solveBwd, h2]
  · simp only [solveGradBody2, solveBwd, h1, h3, Nat.add_sub_cancel]
    ring

/-- C9: with `bF = bG = 0`, for every `(U, P, d, W)`, every `bZ`, any `Z`, `F`, `G` and any
initial content of the buffers, the Y-gradient `bY` written by `solve_grad` is the buffer `Z`
that `solve` produces from the right-hand side `bZ` on the same factorisation. -/
theorem solve_grad_bY_eq_solve (U P : Mat α) (d : Vec α) (W : Mat α) (Z F G bZ : Mat α)
    (J N Nrhs : ℕ) (bU bP : Mat α) (bd : Vec α) (bW bY F0 G0 : Mat α) (i r : ℕ) :
    (solve_grad U P d W Z F G bZ (fun _ _ => 0) (fun _ _ => 0) J N Nrhs bU bP bd bW bY).bY i r =
      (solve U P d W J N bZ F0 G0).Z i r := by
  have h0 : SolveMirror (solveGradInit Z F G bZ (fun _ _ => 0) (fun _ _ => 0) bU bP bd bW)
      ({ Z := bZ, F := fun _ _ => 0, G := fun _ _ => 0 } : SolveBuf α) :=
    ⟨fun _ _ => rfl, fun _ _ => neg_zero.symm, fun _ _ => neg_zero.symm⟩
  have h1 := loopUp_rel SolveMirror _ _ 0 1
    (fun n => solveGradBody1_mirror U P W J Nrhs n) (N - 1) _ _ h0
  have h2 := solveGradMid_mirror d N Nrhs _ _ h1
  have h3 := loopDown_rel SolveMirror _ _ 1 0
    (fun n => solveGradBody2_mirror U P W J Nrhs n) (N - 1) _ _ h2
  exact h3.1 i r

end

/-! ## Inner products of buffers -/

section
variable {α : Type} [Field α]

theorem dotM_comm (R C : ℕ) (A B : Mat α) : dotM R C A B = dotM R C B A := by
  unfold dotM
  exact sum_congr rfl fun i _ => sum_congr rfl fun c _ => mul_comm _ _

/-- Replacing row `n` of the right factor of an inner product. -/
theorem dotM_row_set_right (R C n : ℕ) (hn : n < R) (A B : Mat α) (X : Vec α) :
    dotM R C A (fun i c => if i = n then X c else B i c) =
      dotM R C A B + ∑ c in range C, A n c * (X c - B n c) := by
  unfold dotM
  have h : ∀ i, ∑ c in range C, A i c * (if i = n then X c else B i c) =
      ∑ c in range C, A i c * B i c +
        if i = n then ∑ c in range C, A n c * (X c - B n c) else 0 := by
    intro i
    split_ifs with hi
    · subst hi
      rw [← sum_add_distrib]
      exact sum_congr rfl fun c _ => by ring
    · rw [add_zero]
  rw [sum_congr rfl fun i _ => h i, sum_add_distrib, sum_ite_eq' (range R) n]
  simp [hn]

/-- Replacing row `n` of the left factor of an inner product. -/
theorem dotM_row_set_left (R C n : ℕ) (hn : n < R) (A B : Mat α) (X : Vec α) :
    dotM R C (fun i c => if i = n then X c else A i c) B =
      dotM R C A B + ∑ c in range C, (X c - A n c) * B n c := by
  rw [dotM_comm, dotM_row_set_right R C n hn B A X, dotM_comm]
  congr 1
  exact sum_congr rfl fun c _ => mul_comm _ _

/-- A contraction against a row, with the order of the two sums exchanged. -/
theorem sum_sum_mul_row (R C : ℕ) (f : ℕ → ℕ → α) (z : Vec α) :
    ∑ r in range R, (∑ c in range C, f c r) * z r = ∑ c in range C, ∑ r in range R, f c r * z r := by
  simp only [sum_mul]
  exact sum_comm

/-- A contraction against a row, with the order of the two sums exchanged. -/
theorem sum_row_mul_sum (R C : ℕ) (f : ℕ → ℕ → α) (z : Vec α) :
    ∑ r in range R, z r * (∑ c in range C, f c r) = ∑ c in range C, ∑ r in range R, z r * f c r := by
  simp only [mul_sum]
  exact sum_comm

end

/-! ## `solve_grad` transposes `solve` -/

section
variable {α : Type} [Field α]

/-- One pass of the first loop of `solve_grad` is the transpose of one pass of the backward
sweep of `solve`. -/
theorem solvePairing_bwd (U P W : Mat α) (J N Nrhs n : ℕ) (hn : n + 1 < N)
    (s : SolveGradState α) (t : SolveBuf α) :
    solvePairing J N Nrhs (solveGradBody1 U P W J Nrhs n s) t =
      solvePairing J N Nrhs s (solveBwd U P W J n t) := by
  simp only [solvePairing, solveGradBody1, solveBwd]
  rw [dotM_row_set_left N Nrhs (n + 1) hn, dotM_row_set_right N Nrhs n (by omega)]
  simp only [add_sub_cancel_left, sub_sub_cancel_left, sum_sum_mul_row, mul_neg, sum_neg_distrib,
    sum_row_mul_sum, dotM]
  have key : ∑ c in range J, ∑ r in range Nrhs,
        U (n + 1) c * (P n c * (s.bG_ c r - W n c * s.bY n r)) * t.Z (n + 1) r +
      ∑ c in range J, ∑ r in range Nrhs, P n c * (s.bG_ c r - W n c * s.bY n r) * t.G c r =
      -∑ c in range J, ∑ r in range Nrhs,
        s.bY n r * (W n c * (P n c * (t.G c r + U (n + 1) c * t.Z (n + 1) r))) +
      ∑ c in range J, ∑ r in range Nrhs,
        s.bG_ c r * (P n c * (t.G c r + U (n + 1) c * t.Z (n + 1) r)) := by
    rw [← sum_neg_distrib, ← sum_add_distrib, ← sum_add_distrib]
    refine sum_congr rfl fun c _ => ?_
    rw [← sum_neg_distrib, ← sum_add_distrib, ← sum_add_distrib]
    exact sum_congr rfl fun r _ => by ring
  linear_combination key

/-- One pass of the second loop of `solve_grad` is the transpose of one pass of the forward
sweep of `solve`. -/
theorem solvePairing_fwd (U P W : Mat α) (J N Nrhs n : ℕ) (hn : n + 1 < N)
    (s : SolveGradState α) (t : SolveBuf α) :
    solvePairing J N Nrhs (solveGradBody2 U P W J Nrhs (n + 1) s) t =
      solvePairing J N Nrhs s (solveFwd U P W J (n + 1) t) := by
  simp only [solvePairing, solveGradBody2, solveFwd, Nat.add_sub_cancel]
  rw [dotM_row_set_left N Nrhs n (by omega), dotM_row_set_right N Nrhs (n + 1) hn]
  simp only [add_sub_cancel_left, sub_sub_cancel_left, sum_sum_mul_row, mul_neg, sum_neg_distrib,
    sum_row_mul_sum, dotM]
  have key : ∑ c in range J, ∑ r in range Nrhs,
        W n c * (P n c * (s.bF_ c r - U (n + 1) c * s.bY (n + 1) r)) * t.Z n r +
      ∑ c in range J, ∑ r in range Nrhs,
        P n c * (s.bF_ c r - U (n + 1) c * s.bY (n + 1) r) * t.F c r =
      -∑ c in range J, ∑ r in range Nrhs,
        s.bY (n + 1) r * (U (n + 1) c * (P n c * (t.F c r + W n c * t.Z n r))) +
      ∑ c in range J, ∑ r in range Nrhs,
        s.bF_ c r * (P n c * (t.F c r + W n c * t.Z n r)) := by
    rw [← sum_neg_distrib, ← sum_add_distrib, ← sum_add_distrib]
    refine sum_congr rfl fun c _ => ?_
    rw [← sum_neg_distrib, ← sum_add_distrib, ← sum_add_distrib]
    exact sum_congr rfl fun r _ => by ring
  linear_combination key

/-- The division by the pivots is its own transpose. -/
theorem solvePairing_scale (d : Vec α) (J N Nrhs : ℕ) (s : SolveGradState α) (t : SolveBuf α) :
    solvePairing J N Nrhs (solveGradMid d N Nrhs s) t =
      solvePairing J N Nrhs s (solveScale d t) := by
  simp only [solvePairing, solveGradMid, solveScale, dotM]
  congr 2
  exact sum_congr rfl fun i _ => sum_congr rfl fun r _ => by ring

/-- The first loop of `solve_grad` is the transpose of the backward sweep of `solve`. -/
theorem solvePairing_loop1 (U P W : Mat α) (J N Nrhs k : ℕ) (hk : k ≤ N - 1)
    (s : SolveGradState α) (t : SolveBuf α) :
    solvePairing J N Nrhs (loopUp (solveGradBody1 U P W J Nrhs) 0 k s) t =
      solvePairing J N Nrhs s (loopDown (solveBwd U P W J) 0 k t) := by
  induction k generalizing t with
  | zero => rfl
  | succ k ih =>
    rw [loopUp_succ, loopDown_succ, Nat.zero_add,
      solvePairing_bwd U P W J N Nrhs k (by omega), ih (by omega)]

/-- The second loop of `solve_grad` is the transpose of the forward sweep of `solve`. -/
theorem solvePairing_loop2 (U P W : Mat α) (J N Nrhs k : ℕ) (hk : k ≤ N - 1)
    (s : SolveGradState α) (t : SolveBuf α) :
    solvePairing J N Nrhs (loopDown (solveGradBody2 U P W J Nrhs) 1 k s) t =
      solvePairing J N Nrhs s (loopUp (solveFwd U P W J) 1 k t) := by
  induction k generalizing s with
  | zero => rfl
  | succ k ih =>
    rw [loopUp_succ, loopDown_succ, ih (by omega), Nat.add_comm 1 k,
      solvePairing_fwd U P W J N Nrhs k (by omega)]

/-- The adjoints a full run of `solve_grad` is left with, paired with the right-hand side,
give the pairing of the initial adjoints with the result of `solve`. -/
theorem solvePairing_solve (U P : Mat α) (d : Vec α) (W : Mat α) (J N Nrhs : ℕ)
    (s : SolveGradState α) (t : SolveBuf α) :
    solvePairing J N Nrhs
        (loopDown (solveGradBody2 U P W J Nrhs) 1 (N - 1)
          (solveGradMid d N Nrhs (loopUp (solveGradBody1 U P W J Nrhs) 0 (N - 1) s))) t =
      solvePairing J N Nrhs s
        (loopDown (solveBwd U P W J) 0 (N - 1)
          (solveScale d (loopUp (solveFwd U P W J) 1 (N - 1) t))) := by
  rw [solvePairing_loop2 U P W J N Nrhs (N - 1) le_rfl, solvePairing_scale,
    solvePairing_loop1 U P W J N Nrhs (N - 1) le_rfl]

theorem solveFwd_comb (U P W : Mat α) (J n : ℕ) (k : α) (t1 t2 : SolveBuf α) :
    solveFwd U P W J n (SolveBuf.comb k t1 t2) =
      SolveBuf.comb k (solveFwd U P W J n t1) (solveFwd U P W J n t2) := by
  simp only [solveFwd, SolveBuf.comb, SolveBuf.mk.injEq]
  refine ⟨?_, ?_, trivial⟩
  · funext i r
    split_ifs with hi
    · rw [mul_sub, mul_sum, sub_add_sub_comm, ← sum_add_distrib]
      congr 1
      exact sum_congr rfl fun c _ => by ring
    · rfl
  · funext c r
    ring

theorem solveBwd_comb (U P W : Mat α) (J n : ℕ) (k : α) (t1 t2 : SolveBuf α) :
    solveBwd U P W J n (SolveBuf.comb k t1 t2) =
      SolveBuf.comb k (solveBwd U P W J n t1) (solveBwd U P W J n t2) := by
  simp only [solveBwd, SolveBuf.comb, SolveBuf.mk.injEq]
  refine ⟨?_, trivial, ?_⟩
  · funext i r
    split_ifs with hi
    · rw [mul_sub, mul_sum, sub_add_sub_comm, ← sum_add_distrib]
      congr 1
      exact sum_congr rfl fun c _ => by ring
    · rfl
  · funext c r
    ring

theorem solveScale_comb (d : Vec α) (k : α) (t1 t2 : SolveBuf α) :
    solveScale d (SolveBuf.comb k t1 t2) =
      SolveBuf.comb k (solveScale d t1) (solveScale d t2) := by
  simp only [solveScale, SolveBuf.comb, SolveBuf.mk.injEq]
  refine ⟨?_, trivial, trivial⟩
  funext i r
  ring

/-- The function `solve` maps a linear combination of right-hand sides to the same
combination of the results. -/
theorem solve_comb (U P : Mat α) (d : Vec α) (W : Mat α) (J N : ℕ) (k : α)
    (Y1 Y2 F0 G0 : Mat α) :
    solve U P d W J N (fun i r => Y1 i r + k * Y2 i r) F0 G0 =
      SolveBuf.comb k (solve U P d W J N Y1 F0 G0) (solve U P d W J N Y2 F0 G0) := by
  have up : ∀ m (t1 t2 : SolveBuf α), loopUp (solveFwd U P W J) 1 m (SolveBuf.comb k t1 t2) =
      SolveBuf.comb k (loopUp (solveFwd U P W J) 1 m t1) (loopUp (solveFwd U P W J) 1 m t2) := by
    intro m t1 t2
    induction m with
    | zero => rfl
    | succ m ih => rw [loopUp_succ, loopUp_succ, loopUp_succ, ih, solveFwd_comb]
  have down : ∀ m (t1 t2 : SolveBuf α),
      loopDown (solveBwd U P W J) 0 m (SolveBuf.comb k t1 t2) =
        SolveBuf.comb k (loopDown (solveBwd U P W J) 0 m t1)
          (loopDown (solveBwd U P W J) 0 m t2) := by
    intro m
    induction m with
    | zero => intro t1 t2; rfl
    | succ m ih =>
      intro t1 t2
      rw [loopDown_succ, loopDown_succ, loopDown_succ, solveBwd_comb, ih]
  have h0 : ({ Z := fun i r => Y1 i r + k * Y2 i r, F := fun _ _ => 0, G := fun _ _ => 0 } :
      SolveBuf α) =
      SolveBuf.comb k { Z := Y1, F := fun _ _ => 0, G := fun _ _ => 0 }
        { Z := Y2, F := fun _ _ => 0, G := fun _ _ => 0 } := by
    simp [SolveBuf.comb]
  simp only [solve]
  rw [h0, up, solveScale_comb, down]

/-- C8: `solve` is linear in `Y`, and for every `(U, P, d, W)` with non-zero `d`, every `Y` and
every `(bZ, bF, bG)`, with `(Z, F, G)` the outputs of `solve` on `Y` and `bY` the Y-gradient
written by `solve_grad`: `sum(bZ .* Z) + sum(bF .* F) + sum(bG .* G) = sum(bY .* Y)`. -/
theorem solve_grad_adjoint_rhs (U P : Mat α) (d : Vec α) (W : Mat α) (J N Nrhs : ℕ)
    (Y F0 G0 bZ bF bG : Mat α) (bU bP : Mat α) (bd : Vec α) (bW bY0 : Mat α)
    (_hd : ∀ i, i < N → d i ≠ 0) :
    (∀ (k : α) (Y1 Y2 : Mat α),
      (∀ i r, (solve U P d W J N (fun i r => Y1 i r + k * Y2 i r) F0 G0).Z i r =
        (solve U P d W J N Y1 F0 G0).Z i r + k * (solve U P d W J N Y2 F0 G0).Z i r) ∧
      (∀ c r, (solve U P d W J N (fun i r => Y1 i r + k * Y2 i r) F0 G0).F c r =
        (solve U P d W J N Y1 F0 G0).F c r + k * (solve U P d W J N Y2 F0 G0).F c r) ∧
      (∀ c r, (solve U P d W J N (fun i r => Y1 i r + k * Y2 i r) F0 G0).G c r =
        (solve U P d W J N Y1 F0 G0).G c r + k * (solve U P d W J N Y2 F0 G0).G c r)) ∧
    dotM N Nrhs bZ (solve U P d W J N Y F0 G0).Z + dotM J Nrhs bF (solve U P d W J N Y F0 G0).F +
        dotM J Nrhs bG (solve U P d W J N Y F0 G0).G =
      dotM N Nrhs
        (solve_grad U P d W (solve U P d W J N Y F0 G0).Z (solve U P d W J N Y F0 G0).F
          (solve U P d W J N Y F0 G0).G bZ bF bG J N Nrhs bU bP bd bW bY0).bY Y := by
  refine ⟨fun k Y1 Y2 => ?_, ?_⟩
  · rw [solve_comb]
    exact ⟨fun _ _ => rfl, fun _ _ => rfl, fun _ _ => rfl⟩
  · have h := solvePairing_solve U P d W J N Nrhs
      (solveGradInit (solve U P d W J N Y F0 G0).Z (solve U P d W J N Y F0 G0).F
        (solve U P d W J N Y F0 G0).G bZ bF bG bU bP bd bW)
      { Z := Y, F := fun _ _ => 0, G := fun _ _ => 0 }
    have e : solvePairing J N Nrhs
        (solveGradInit (solve U P d W J N Y F0 G0).Z (solve U P d W J N Y F0 G0).F
          (solve U P d W J N Y F0 G0).G bZ bF bG bU bP bd bW) (solve U P d W J N Y F0 G0) =
        dotM N Nrhs bZ (solve U P d W J N Y F0 G0).Z +
          dotM J Nrhs bF (solve U P d W J N Y F0 G0).F +
          dotM J Nrhs bG (solve U P d W J N Y F0 G0).G := rfl
    rw [← e]
    have e2 : solve U P d W J N Y F0 G0 = loopDown (solveBwd U P W J) 0 (N - 1)
        (solveScale d (loopUp (solveFwd U P W J) 1 (N - 1)
          { Z := Y, F := fun _ _ => 0, G := fun _ _ => 0 })) := rfl
    rw [e2] at h ⊢
    rw [← h]
    simp [solvePairing, solve_grad, dotM]

/-- The adjoint identity applied to a run with two rows, `J = 1` and one right-hand side. -/
theorem solve_grad_adjoint_rhs_witness :
    (∀ i, i < 2 → exOneVec i ≠ 0) ∧
    dotM 2 1 exOnes (solve exOnes exOnes exOneVec exOnes 1 2 exOnes exOnes exOnes).Z +
        dotM 1 1 exOnes (solve exOnes exOnes exOneVec exOnes 1 2 exOnes exOnes exOnes).F +
        dotM 1 1 exOnes (solve exOnes exOnes exOneVec exOnes 1 2 exOnes exOnes exOnes).G =
      dotM 2 1
        (solve_grad exOnes exOnes exOneVec exOnes
          (solve exOnes exOnes exOneVec exOnes 1 2 exOnes exOnes exOnes).Z
          (solve exOnes exOnes exOneVec exOnes 1 2 exOnes exOnes exOnes).F
          (solve exOnes exOnes exOneVec exOnes 1 2 exOnes exOnes exOnes).G
          exOnes exOnes exOnes 1 2 1 exOnes exOnes exOneVec exOnes exOnes).bY exOnes :=
  ⟨fun _ _ => by simp [exOneVec],
    (solve_grad_adjoint_rhs exOnes exOnes exOneVec exOnes 1 2 1 exOnes exOnes exOnes exOnes
      exOnes exOnes exOnes exOnes exOneVec exOnes exOnes (fun _ _ => by simp [exOneVec])).2⟩

end

/-! ## The decay products -/

section
variable {α : Type} [Field α]

theorem decay_self (P : Mat α) (n c : ℕ) : decay P n n c = 1 := by
  simp [decay]

theorem decay_succ (P : Mat α) (j n c : ℕ) (h : j ≤ n) :
    decay P j (n + 1) c = decay P j n c * P n c := by
  simp [decay, prod_Ico_succ_top h]

theorem decay_mul (P : Mat α) (k j i c : ℕ) (hkj : k ≤ j) (hji : j ≤ i) :
    decay P k j c * decay P j i c = decay P k i c := by
  simp [decay, prod_Ico_consecutive _ hkj hji]

end

/-! ## The row recursion in closed form -/

section
variable {α : Type} [Field α]

theorem rowState_d_eq_rowD (U P : Mat α) (J : ℕ) (a : Vec α) (V : Mat α) (m n : ℕ)
    (h : n ≤ m) : (rowState U P J a V m).d n = rowD U P J a V n := by
  obtain ⟨k, rfl⟩ : ∃ k, m = n + k := ⟨m - n, by omega⟩
  exact rowState_d_of_le U P J a V n k n le_rfl

theorem rowState_W_eq_rowW (U P : Mat α) (J : ℕ) (a : Vec α) (V : Mat α) (m n : ℕ)
    (h : n ≤ m) (c : ℕ) : (rowState U P J a V m).W n c = rowW U P J a V n c := by
  obtain ⟨k, rfl⟩ : ∃ k, m = n + k := ⟨m - n, by omega⟩
  exact rowState_W_of_le U P J a V n k n le_rfl c

/-- The running state after row `n` is the decayed sum of the rank-one terms of the rows
below. -/
theorem rowState_S (U P : Mat α) (J : ℕ) (a : Vec α) (V : Mat α) (n : ℕ) :
    (rowState U P J a V n).S = stateSum (rowD U P J a V) (rowW U P J a V) P n := by
  induction n with
  | zero => funext c e; simp [rowState, factorInit, stateSum]
  | succ n ih =>
    funext c e
    rw [rowState_succ_S]
    simp only [factorPivot, Nat.add_sub_cancel, ih, stateSum, sum_range_succ, decay_self,
      mul_one]
    rw [add_mul, sum_mul]
    congr 1
    · refine sum_congr rfl fun k hk => ?_
      have hk' : k ≤ n := (mem_range.mp hk).le
      rw [decay_succ P k n c hk', decay_succ P k n e hk']
      ring
    · simp only [rowD, rowW, decay_succ P n n _ le_rfl, decay_self]
      ring

theorem stateSum_symm (d : Vec α) (W P : Mat α) (n c e : ℕ) :
    stateSum d W P n c e = stateSum d W P n e c := by
  simp only [stateSum]
  exact sum_congr rfl fun k _ => by ring

/-- The pivot of a visited row is its updated pivot. -/
theorem rowD_eq_pivot (U P : Mat α) (J : ℕ) (a : Vec α) (V : Mat α) (n : ℕ) (h : 1 ≤ n) :
    rowD U P J a V n = pivot U P J a V n := by
  obtain ⟨n, rfl⟩ : ∃ n', n = n' + 1 := ⟨n - 1, by omega⟩
  exact rowState_d_eq_pivot U P J a V n

theorem rowD_zero (U P : Mat α) (J : ℕ) (a : Vec α) (V : Mat α) : rowD U P J a V 0 = a 0 := rfl

/-- The pivot of every row in terms of the running state: `d(n) = a(n) - U_n S_n U_n^T`. -/
theorem rowD_eq (U P : Mat α) (J : ℕ) (a : Vec α) (V : Mat α) (n : ℕ) :
    rowD U P J a V n = a n - ∑ e in range J, (∑ c in range J,
      U n c * stateSum (rowD U P J a V) (rowW U P J a V) P n c e) * U n e := by
  rcases Nat.eq_zero_or_pos n with rfl | h
  · simp [rowD_zero, stateSum]
  · rw [rowD_eq_pivot U P J a V n h, pivot, rowState_S]

/-- The row of `W` in terms of the running state: `d(n) W_n = V_n - U_n S_n`. -/
theorem rowD_mul_rowW (U P : Mat α) (J : ℕ) (a : Vec α) (V : Mat α) (n c : ℕ)
    (hd : rowD U P J a V n ≠ 0) :
    rowD U P J a V n * rowW U P J a V n c =
      V n c - ∑ e in range J, U n e * stateSum (rowD U P J a V) (rowW U P J a V) P n e c := by
  rcases Nat.eq_zero_or_pos n with rfl | h
  · have ha : a 0 ≠ 0 := hd
    simp only [rowD_zero, rowW, rowState, factorInit, stateSum, range_zero, sum_empty, mul_zero,
      sum_const_zero, sub_zero, if_true]
    field_simp
  · obtain ⟨n, rfl⟩ : ∃ n', n = n' + 1 := ⟨n - 1, by omega⟩
    have hS := rowState_S U P J a V (n + 1)
    rw [rowState_succ_S] at hS
    have hW := rowState_W_of_lt U P J a V n (n + 1) (by omega) c
    have hd' : (factorPivot U P J (n + 1) (rowState U P J a V n)).d (n + 1) ≠ 0 := hd
    have e1 : rowD U P J a V (n + 1) =
        (factorPivot U P J (n + 1) (rowState U P J a V n)).d (n + 1) := rfl
    have e2 : rowW U P J a V (n + 1) c =
        ((factorPivot U P J (n + 1) (rowState U P J a V n)).W (n + 1) c -
          rowTimes U J (n + 1) (factorPivot U P J (n + 1) (rowState U P J a V n)).S c) /
          (factorPivot U P J (n + 1) (rowState U P J a V n)).d (n + 1) := by
      simp [rowW, rowState, factorRowW]
    rw [e2, e1, mul_div_cancel₀ _ hd', factorPivot_W, hW, hS, rowTimes]

end

/-! ## The dense factorisation identity -/

section
variable {α : Type} [Field α]

theorem denseL_self (U W P : Mat α) (J i : ℕ) : denseL U W P J i i = 1 := by
  simp [denseL]

theorem denseL_of_lt (U W P : Mat α) (J i j : ℕ) (h : j < i) :
    denseL U W P J i j = ∑ c in range J, U i c * W j c * decay P j i c := by
  simp [denseL, h, (Nat.ne_of_lt h).symm]

theorem denseL_of_gt (U W P : Mat α) (J i j : ℕ) (h : i < j) : denseL U W P J i j = 0 := by
  simp [denseL, Nat.ne_of_lt h, Nat.not_lt.mpr h.le]

/-- Only the columns up to `j` contribute to the entry `(i, j)` of `L diag(d) L^T`. -/
theorem ldl_sum_trunc (U W P : Mat α) (d : Vec α) (J N i j : ℕ) (hj : j < N) :
    ∑ k in range N, denseL U W P J i k * d k * denseL U W P J j k =
      ∑ k in range j, denseL U W P J i k * d k * denseL U W P J j k +
        denseL U W P J i j * d j := by
  have hsub : range (j + 1) ⊆ range N := range_subset.mpr (by omega)
  rw [← sum_subset hsub, sum_range_succ, denseL_self, mul_one]
  intro k _ hk
  have hk' : j < k := by
    rw [mem_range] at hk
    omega
  rw [denseL_of_gt U W P J j k hk', mul_zero]

/-- The columns below `j` contribute `U_i diag(decay) S_j U_j^T`. -/
theorem ldl_sum_low (U W P : Mat α) (d : Vec α) (J i j : ℕ) (hji : j ≤ i) :
    ∑ k in range j, denseL U W P J i k * d k * denseL U W P J j k =
      ∑ c in range J, ∑ e in range J,
        U i c * decay P j i c * stateSum d W P j c e * U j e := by
  have h1 : ∀ k ∈ range j, denseL U W P J i k * d k * denseL U W P J j k =
      ∑ c in range J, ∑ e in range J, U i c * decay P j i c *
        (d k * W k c * W k e * decay P k j c * decay P k j e) * U j e := by
    intro k hk
    have hkj : k < j := mem_range.mp hk
    rw [denseL_of_lt U W P J i k (by omega), denseL_of_lt U W P J j k hkj, sum_mul, sum_mul]
    refine sum_congr rfl fun c _ => ?_
    rw [mul_sum]
    refine sum_congr rfl fun e _ => ?_
    rw [← decay_mul P k j i c hkj.le hji]
    ring
  rw [sum_congr rfl h1, sum_comm]
  refine sum_congr rfl fun c _ => ?_
  rw [sum_comm]
  refine sum_congr rfl fun e _ => ?_
  simp only [stateSum, mul_sum, sum_mul]

/-- The entries of `L diag(d) L^T` on and below the diagonal are those of `K`. -/
theorem ldl_entry_lower (a : Vec α) (U V P W : Mat α) (d : Vec α) (J N : ℕ)
    (hW : ∀ n, n + 1 < N → ∀ c, d n * W n c =
      V n c - ∑ e in range J, U n e * stateSum d W P n e c)
    (hD : ∀ n, n < N → d n = a n - ∑ e in range J,
      (∑ c in range J, U n c * stateSum d W P n c e) * U n e)
    (i j : ℕ) (hi : i < N) (hji : j ≤ i) :
    denseK a U V P J i j = ∑ k in range N, denseL U W P J i k * d k * denseL U W P J j k := by
  rw [ldl_sum_trunc U W P d J N i j (by omega), ldl_sum_low U W P d J i j hji]
  rcases Nat.eq_or_lt_of_le hji with rfl | hlt
  · rw [denseL_self, one_mul]
    have h := hD j hi
    have e : denseK a U V P J j j = a j := by simp [denseK]
    rw [e]
    have e2 : ∑ c in range J, ∑ e in range J,
        U j c * decay P j j c * stateSum d W P j c e * U j e =
        ∑ e in range J, (∑ c in range J, U j c * stateSum d W P j c e) * U j e := by
      rw [sum_comm]
      refine sum_congr rfl fun e _ => ?_
      rw [sum_mul]
      refine sum_congr rfl fun c _ => ?_
      rw [decay_self]
      ring
    rw [e2, h]
    ring
  · have e : denseK a U V P J i j = ∑ c in range J, U i c * V j c * decay P j i c := by
      simp [denseK, hlt, (Nat.ne_of_lt hlt).symm]
    rw [e, denseL_of_lt U W P J i j hlt, sum_mul, ← sum_add_distrib]
    refine sum_congr rfl fun c _ => ?_
    have h := hW j (by omega) c
    have e3 : ∑ e in range J, U i c * decay P j i c * stateSum d W P j c e * U j e =
        U i c * decay P j i c * ∑ e in range J, U j e * stateSum d W P j e c := by
      rw [mul_sum]
      refine sum_congr rfl fun e _ => ?_
      rw [stateSum_symm d W P j c e]
      ring
    rw [e3]
    linear_combination (-(U i c * decay P j i c)) * h

theorem denseK_symm (a : Vec α) (U V P : Mat α) (J i j : ℕ) :
    denseK a U V P J i j = denseK a U V P J j i := by
  rcases lt_trichotomy i j with h | rfl | h
  · simp [denseK, h, Nat.ne_of_lt h, (Nat.ne_of_lt h).symm, Nat.not_lt.mpr h.le]
  · rfl
  · simp [denseK, h, Nat.ne_of_lt h, (Nat.ne_of_lt h).symm, Nat.not_lt.mpr h.le]

/-- Every entry of the leading block of `L diag(d) L^T` is that of `K`. -/
theorem ldl_entry (a : Vec α) (U V P W : Mat α) (d : Vec α) (J N : ℕ)
    (hW : ∀ n, n + 1 < N → ∀ c, d n * W n c =
      V n c - ∑ e in range J, U n e * stateSum d W P n e c)
    (hD : ∀ n, n < N → d n = a n - ∑ e in range J,
      (∑ c in range J, U n c * stateSum d W P n c e) * U n e)
    (i j : ℕ) (hi : i < N) (hj : j < N) :
    denseK a U V P J i j = ∑ k in range N, denseL U W P J i k * d k * denseL U W P J j k := by
  rcases le_total j i with h | h
  · exact ldl_entry_lower a U V P W d J N hW hD i j hi h
  · rw [denseK_symm, ldl_entry_lower a U V P W d J N hW hD j i hj h]
    exact sum_congr rfl fun k _ => by ring

/-- The matrix form of the entrywise identity. -/
theorem toMatrix_ldl (K L : Mat α) (d : Vec α) (N : ℕ)
    (h : ∀ i j, i < N → j < N → K i j = ∑ k in range N, L i k * d k * L j k) :
    toMatrix N K = toMatrix N L * Matrix.diagonal (toVector N d) * (toMatrix N L).transpose := by
  ext i j
  rw [Matrix.mul_apply]
  simp only [Matrix.mul_diagonal, Matrix.transpose_apply, toMatrix, toVector, Matrix.of_apply]
  rw [h i j i.isLt j.isLt, ← Fin.sum_univ_eq_sum_range (fun k => L i k * d k * L j k) N]

end

section
variable {α : Type} [Field α]

/-- The entries of `L` in the leading `N x N` block only read the rows of `W` below `N`. -/
theorem denseL_congr (U W W2 P : Mat α) (J N : ℕ) (h : ∀ k, k < N → ∀ c, W k c = W2 k c)
    (i k : ℕ) (hi : i < N) : denseL U W P J i k = denseL U W2 P J i k := by
  rcases lt_trichotomy k i with hlt | rfl | hgt
  · rw [denseL_of_lt _ _ _ _ _ _ hlt, denseL_of_lt _ _ _ _ _ _ hlt]
    exact sum_congr rfl fun c _ => by rw [h k (by omega) c]
  · rw [denseL_self, denseL_self]
  · rw [denseL_of_gt _ _ _ _ _ _ hgt, denseL_of_gt _ _ _ _ _ _ hgt]

/-- The factorisation identity for the buffers of the row recursion, all pivots being
non-zero. -/
theorem rowState_ldl (U P : Mat α) (J N : ℕ) (a : Vec α) (V : Mat α) (hN : 1 ≤ N)
    (hd : ∀ n, n < N → rowD U P J a V n ≠ 0) (i j : ℕ) (hi : i < N) (hj : j < N) :
    denseK a U V P J i j =
      ∑ k in range N, denseL U (rowState U P J a V (N - 1)).W P J i k *
        (rowState U P J a V (N - 1)).d k * denseL U (rowState U P J a V (N - 1)).W P J j k := by
  have hW : ∀ k, k < N → ∀ c, (rowState U P J a V (N - 1)).W k c = rowW U P J a V k c :=
    fun k hk c => rowState_W_eq_rowW U P J a V (N - 1) k (by omega) c
  rw [ldl_entry a U V P (rowW U P J a V) (rowD U P J a V) J N
    (fun n hn c => rowD_mul_rowW U P J a V n c (hd n (by omega)))
    (fun n _ => rowD_eq U P J a V n) i j hi hj]
  refine sum_congr rfl fun k hk => ?_
  rw [denseL_congr U _ _ P J N hW i k hi, denseL_congr U _ _ P J N hW j k hj,
    rowState_d_eq_rowD U P J a V (N - 1) k (by have := mem_range.mp hk; omega)]

end

section
variable {α : Type} [LinearOrderedField α]

/-- After a run of `factor` that returns 0 from a non-zero `a(0)` every pivot of the row
recursion is non-zero. -/
theorem rowD_ne_zero_of_success (U P : Mat α) (J N : ℕ) (a : Vec α) (V S0 : Mat α)
    (ha : a 0 ≠ 0) (h0 : (factor U P J N a V S0).1 = 0) (n : ℕ) (hn : n < N) :
    rowD U P J a V n ≠ 0 := by
  rcases Nat.eq_zero_or_pos n with rfl | h
  · exact ha
  · rw [rowD_eq_pivot U P J a V n h]
    exact ((factor_success U P J N a V S0 h0).1 n h hn).ne'

/-- C1: for `N >= 1`, `J >= 1` and `a(0) != 0`, if `factor` returns 0 then the dense matrix
`K` (diagonal `a`, off-diagonal entries `sum_c U[i,c] V[j,c] prod_k P[k,c]`) equals
`L * diag(d) * L^T`, where `d`, `W` are the buffers on return and `L` is the unit lower
triangular matrix with entries `sum_c U[i,c] W[j,c] prod_k P[k,c]` below the diagonal. -/
theorem factor_identity (U P : Mat α) (J N : ℕ) (a : Vec α) (V S0 : Mat α) (hN : 1 ≤ N)
    (_hJ : 1 ≤ J) (ha : a 0 ≠ 0) (h0 : (factor U P J N a V S0).1 = 0) :
    toMatrix N (denseK a U V P J) =
      toMatrix N (denseL U (factor U P J N a V S0).2.W P J) *
        Matrix.diagonal (toVector N (factor U P J N a V S0).2.d) *
        (toMatrix N (denseL U (factor U P J N a V S0).2.W P J)).transpose := by
  rw [(factor_success U P J N a V S0 h0).2]
  exact toMatrix_ldl _ _ _ N
    (rowState_ldl U P J N a V hN (rowD_ne_zero_of_success U P J N a V S0 ha h0))

/-- The factorisation identity applied to a run with two rows and `J = 1`. -/
theorem factor_identity_witness :
    toMatrix 2 (denseK exNegFirst exOnes exOnes exOnes 1) =
      toMatrix 2 (denseL exOnes (factor exOnes exOnes 1 2 exNegFirst exOnes exOnes).2.W
        exOnes 1) *
        Matrix.diagonal (toVector 2 (factor exOnes exOnes 1 2 exNegFirst exOnes exOnes).2.d) *
        (toMatrix 2 (denseL exOnes (factor exOnes exOnes 1 2 exNegFirst exOnes exOnes).2.W
          exOnes 1)).transpose :=
  factor_identity exOnes exOnes 1 2 exNegFirst exOnes exOnes (by decide) (by decide)
    (by norm_num [exNegFirst])
    (by norm_num [factor, factorLoop, factorPivot, factorRowW, factorInit, rowTimes, exOnes,
      exNegFirst])

end

/-! ## The two sweeps of `solve` -/

section
variable {α : Type} [Field α]

theorem fwdInv_zero (U P W : Mat α) (J : ℕ) (Y G0 : Mat α) :
    FwdInv U P W J Y 0 { Z := Y, F := fun _ _ => 0, G := G0 } := by
  refine ⟨fun _ _ _ => rfl, fun _ _ => by simp, fun i r hi => ?_⟩
  obtain rfl : i = 0 := by omega
  simp [denseL_self]

theorem fwdInv_step (U P W : Mat α) (J : ℕ) (Y : Mat α) (k : ℕ) (t : SolveBuf α)
    (h : FwdInv U P W J Y k t) : FwdInv U P W J Y (k + 1) (solveFwd U P W J (k + 1) t) := by
  obtain ⟨hZ, hF, hL⟩ := h
  have hZ' : ∀ i r, i ≠ k + 1 → (solveFwd U P W J (k + 1) t).Z i r = t.Z i r := by
    intro i r hi
    simp [solveFwd, hi]
  have hF' : ∀ c r, (solveFwd U P W J (k + 1) t).F c r =
      ∑ j in range (k + 1), decay P j (k + 1) c * W j c * t.Z j r := by
    intro c r
    simp only [solveFwd, Nat.add_sub_cancel, hF, sum_range_succ, decay_succ P k k c le_rfl,
      decay_self, mul_add, mul_sum]
    congr 1
    · refine sum_congr rfl fun j hj => ?_
      rw [decay_succ P j k c (mem_range.mp hj).le]
      ring
    · ring
  refine ⟨fun i r hi => ?_, fun c r => ?_, fun i r hi => ?_⟩
  · rw [hZ' i r (by omega), hZ i r (by omega)]
  · rw [hF']
    exact sum_congr rfl fun j hj => by rw [hZ' j r (by have := mem_range.mp hj; omega)]
  · rcases Nat.eq_or_lt_of_le hi with rfl | hlt
    · rw [sum_range_succ, denseL_self, one_mul]
      have e : (solveFwd U P W J (k + 1) t).Z (k + 1) r =
          t.Z (k + 1) r - ∑ c in range J, U (k + 1) c * (solveFwd U P W J (k + 1) t).F c r := by
        simp [solveFwd]
      rw [e, hZ (k + 1) r (by omega)]
      have e2 : ∑ j in range (k + 1),
          denseL U W P J (k + 1) j * (solveFwd U P W J (k + 1) t).Z j r =
          ∑ c in range J, U (k + 1) c * (solveFwd U P W J (k + 1) t).F c r := by
        have h1 : ∀ j ∈ range (k + 1),
            denseL U W P J (k + 1) j * (solveFwd U P W J (k + 1) t).Z j r =
            ∑ c in range J, U (k + 1) c * (decay P j (k + 1) c * W j c * t.Z j r) := by
          intro j hj
          have hj' : j < k + 1 := mem_range.mp hj
          rw [hZ' j r (by omega), denseL_of_lt U W P J (k + 1) j hj', sum_mul]
          exact sum_congr rfl fun c _ => by ring
        rw [sum_congr rfl h1, sum_comm]
        exact sum_congr rfl fun c _ => by rw [hF', mul_sum]
      rw [e2]
      ring
    · rw [hL i r (by omega)]
      exact sum_congr rfl fun j hj => by rw [hZ' j r (by have := mem_range.mp hj; omega)]

theorem fwdInv_loop (U P W : Mat α) (J : ℕ) (Y G0 : Mat α) (k : ℕ) :
    FwdInv U P W J Y k
      (loopUp (solveFwd U P W J) 1 k { Z := Y, F := fun _ _ => 0, G := G0 }) := by
  induction k with
  | zero => exact fwdInv_zero U P W J Y G0
  | succ k ih =>
    rw [loopUp_succ, Nat.add_comm 1 k]
    exact fwdInv_step U P W J Y k _ ih

theorem solveFwd_G (U P W : Mat α) (J n : ℕ) (t : SolveBuf α) :
    (solveFwd U P W J n t).G = t.G := rfl

theorem loopUp_solveFwd_G (U P W : Mat α) (J k : ℕ) (t : SolveBuf α) :
    (loopUp (solveFwd U P W J) 1 k t).G = t.G := by
  induction k with
  | zero => rfl
  | succ k ih => rw [loopUp_succ, solveFwd_G, ih]

theorem bwdInv_step (U P W : Mat α) (J N : ℕ) (Zs : Mat α) (k : ℕ) (hk : k + 1 < N)
    (t : SolveBuf α) (h : BwdInv U P W J N Zs (k + 1) t) :
    BwdInv U P W J N Zs k (solveBwd U P W J k t) := by
  obtain ⟨hZ, hG, hL⟩ := h
  have hZ' : ∀ i r, i ≠ k → (solveBwd U P W J k t).Z i r = t.Z i r := by
    intro i r hi
    simp [solveBwd, hi]
  have hG' : ∀ c r, (solveBwd U P W J k t).G c r =
      ∑ j in Ico (k + 1) N, decay P k j c * U j c * t.Z j r := by
    intro c r
    rw [sum_eq_sum_Ico_succ_bot hk]
    simp only [solveBwd, hG, decay_succ P k k c le_rfl, decay_self, mul_add, mul_sum]
    rw [add_comm]
    congr 1
    · ring
    · refine sum_congr rfl fun j hj => ?_
      have hj' := (mem_Ico.mp hj).1
      rw [← decay_mul P k (k + 1) j c (by omega) (by omega), decay_succ P k k c le_rfl,
        decay_self]
      ring
  refine ⟨fun i r hi => ?_, fun c r => ?_, fun i r hi hiN => ?_⟩
  · rw [hZ' i r (by omega), hZ i r (by omega)]
  · rw [hG']
    exact sum_congr rfl fun j hj => by rw [hZ' j r (by have := (mem_Ico.mp hj).1; omega)]
  · rcases Nat.eq_or_lt_of_le hi with rfl | hlt
    · rw [sum_eq_sum_Ico_succ_bot (by omega : k < N), denseL_self, one_mul]
      have e : (solveBwd U P W J k t).Z k r =
          t.Z k r - ∑ c in range J, W k c * (solveBwd U P W J k t).G c r := by
        simp [solveBwd]
      rw [e, hZ k r (by omega)]
      have e2 : ∑ j in Ico (k + 1) N,
          denseL U W P J j k * (solveBwd U P W J k t).Z j r =
          ∑ c in range J, W k c * (solveBwd U P W J k t).G c r := by
        have h1 : ∀ j ∈ Ico (k + 1) N,
            denseL U W P J j k * (solveBwd U P W J k t).Z j r =
            ∑ c in range J, W k c * (decay P k j c * U j c * t.Z j r) := by
          intro j hj
          have hj' := (mem_Ico.mp hj).1
          rw [hZ' j r (by omega), denseL_of_lt U W P J j k (by omega), sum_mul]
          exact sum_congr rfl fun c _ => by ring
        rw [sum_congr rfl h1, sum_comm]
        exact sum_congr rfl fun c _ => by rw [hG', mul_sum]
      rw [e2]
      ring
    · rw [hL i r (by omega) hiN]
      exact sum_congr rfl fun j hj => by rw [hZ' j r (by have := (mem_Ico.mp hj).1; omega)]

theorem bwdInv_loop (U P W : Mat α) (J N : ℕ) (Zs : Mat α) (k : ℕ) (hk : k < N)
    (t : SolveBuf α) (h : BwdInv U P W J N Zs k t) :
    BwdInv U P W J N Zs 0 (loopDown (solveBwd U P W J) 0 k t) := by
  induction k generalizing t with
  | zero => exact h
  | succ k ih =>
    rw [loopDown_succ, Nat.zero_add]
    exact ih (by omega) _ (bwdInv_step U P W J N Zs k hk t h)

end

section
variable {α : Type} [Field α]

/-- The buffer `Z` left by `solve` solves `L diag(d) L^T Z = Y`, all pivots being non-zero. -/
theorem solve_ldl (U P : Mat α) (d : Vec α) (W : Mat α) (J N : ℕ) (Y F0 G0 : Mat α)
    (hN : 1 ≤ N) (hd : ∀ i, i < N → d i ≠ 0) (i r : ℕ) (hi : i < N) :
    ∑ k in range N, denseL U W P J i k * d k *
      ∑ j in range N, denseL U W P J j k * (solve U P d W J N Y F0 G0).Z j r = Y i r := by
  obtain ⟨t1, ht1⟩ : ∃ t1, t1 = loopUp (solveFwd U P W J) 1 (N - 1)
      ({ Z := Y, F := fun _ _ => 0, G := fun _ _ => 0 } : SolveBuf α) := ⟨_, rfl⟩
  have hsol : solve U P d W J N Y F0 G0 =
      loopDown (solveBwd U P W J) 0 (N - 1) (solveScale d t1) := by rw [ht1]; rfl
  have h1 := fwdInv_loop U P W J Y (fun _ _ => 0) (N - 1)
  have hG := loopUp_solveFwd_G U P W J (N - 1) { Z := Y, F := fun _ _ => 0, G := fun _ _ => 0 }
  rw [← ht1] at h1 hG
  have h2 : BwdInv U P W J N (solveScale d t1).Z (N - 1) (solveScale d t1) := by
    refine ⟨fun _ _ _ => rfl, fun c r => ?_, fun i r hi1 hi2 => ?_⟩
    · have : (solveScale d t1).G = fun _ _ => 0 := hG
      rw [this, Nat.sub_add_cancel hN, Ico_self, sum_empty]
    · obtain rfl : i = N - 1 := by omega
      have e : Ico (N - 1) N = {N - 1} := by
        ext x
        simp only [mem_Ico, mem_singleton]
        omega
      rw [e, sum_singleton, denseL_self, one_mul]
  have h3 := bwdInv_loop U P W J N _ (N - 1) (by omega) _ h2
  rw [hsol]
  have hk : ∀ k ∈ range N, denseL U W P J i k * d k *
      ∑ j in range N, denseL U W P J j k *
        (loopDown (solveBwd U P W J) 0 (N - 1) (solveScale d t1)).Z j r =
      denseL U W P J i k * t1.Z k r := by
    intro k hk
    have hkN : k < N := mem_range.mp hk
    have hsub : Ico k N ⊆ range N := fun x hx => mem_range.mpr (mem_Ico.mp hx).2
    rw [← sum_subset hsub, ← h3.2.2 k r (Nat.zero_le k) hkN]
    · simp only [solveScale]
      field_simp [hd k hkN]
      ring
    · intro j _ hj
      have hj' : j < k := by
        rw [mem_Ico] at hj
        rw [mem_range] at *
        omega
      rw [denseL_of_gt U W P J j k hj', zero_mul]
  rw [sum_congr rfl hk, h1.2.2 i r (by omega)]
  have hsub : range (i + 1) ⊆ range N := range_subset.mpr (by omega)
  rw [← sum_subset hsub]
  intro k _ hk
  have hk' : i < k := by
    rw [mem_range] at hk
    omega
  rw [denseL_of_gt U W P J i k hk', zero_mul]

/-- The matrix form of a solved system: if `K = L diag(d) L^T` entrywise and `Z` solves
`L diag(d) L^T Z = Y`, then `K Z = Y`. -/
theorem toMatrix_mul_of_ldl (K L : Mat α) (d : Vec α) (N Nrhs : ℕ) (Z Y : Mat α)
    (hK : ∀ i j, i < N → j < N → K i j = ∑ k in range N, L i k * d k * L j k)
    (hZ : ∀ i r, i < N →
      ∑ k in range N, L i k * d k * ∑ j in range N, L j k * Z j r = Y i r) :
    toMatrix N K * toRect N Nrhs Z = toRect N Nrhs Y := by
  ext i r
  rw [Matrix.mul_apply]
  simp only [toMatrix, toRect, Matrix.of_apply]
  rw [Fin.sum_univ_eq_sum_range (fun j => K i j * Z j r) N, ← hZ i r i.isLt]
  have h1 : ∀ j ∈ range N, K i j * Z j r = ∑ k in range N, L i k * d k * (L j k * Z j r) := by
    intro j hj
    rw [hK i j i.isLt (mem_range.mp hj), sum_mul]
    exact sum_congr rfl fun k _ => by ring
  rw [sum_congr rfl h1, sum_comm]
  exact sum_congr rfl fun k _ => by rw [mul_sum]

end

section
variable {α : Type} [LinearOrderedField α]

/-- C2: for `N >= 1`, `J >= 1`, `Nrhs >= 1` and `a(0) > 0`, if `factor` returns 0 on
`(U, P, a, V)` then for every right-hand side `Y` the buffer `Z` left by `solve` on the `d`,
`W` produced by `factor` satisfies `K * Z = Y` for the dense matrix `K`. -/
theorem factor_solve_round_trip (U P : Mat α) (J N Nrhs : ℕ) (a : Vec α) (V S0 : Mat α)
    (Y F0 G0 : Mat α) (hN : 1 ≤ N) (_hJ : 1 ≤ J) (_hR : 1 ≤ Nrhs) (ha : 0 < a 0)
    (h0 : (factor U P J N a V S0).1 = 0) :
    toMatrix N (denseK a U V P J) *
        toRect N Nrhs
          (solve U P (factor U P J N a V S0).2.d (factor U P J N a V S0).2.W J N Y F0 G0).Z =
      toRect N Nrhs Y := by
  have hd := rowD_ne_zero_of_success U P J N a V S0 ha.ne' h0
  rw [(factor_success U P J N a V S0 h0).2]
  refine toMatrix_mul_of_ldl _ (denseL U (rowState U P J a V (N - 1)).W P J)
    (rowState U P J a V (N - 1)).d N Nrhs _ Y (rowState_ldl U P J N a V hN hd) ?_
  intro i r hi
  refine solve_ldl U P _ _ J N Y F0 G0 hN (fun k hk => ?_) i r hi
  rw [rowState_d_eq_rowD U P J a V (N - 1) k (by omega)]
  exact hd k hk

/-- The round trip applied to a run with two rows, `J = 1` and one right-hand side. -/
theorem factor_solve_round_trip_witness :
    (factor exOnes exOnes 1 2 exTwoVec exOnes exOnes).1 = 0 ∧
    toMatrix 2 (denseK exTwoVec exOnes exOnes exOnes 1) *
        toRect 2 1
          (solve exOnes exOnes (factor exOnes exOnes 1 2 exTwoVec exOnes exOnes).2.d
            (factor exOnes exOnes 1 2 exTwoVec exOnes exOnes).2.W 1 2 exOnes exOnes exOnes).Z =
      toRect 2 1 exOnes :=
  ⟨by norm_num [factor, factorLoop, factorPivot, factorRowW, factorInit, rowTimes, exOnes,
      exTwoVec],
    factor_solve_round_trip exOnes exOnes 1 2 1 exTwoVec exOnes exOnes exOnes exOnes exOnes
      (by decide) (by decide) (by decide) (by norm_num [exTwoVec])
      (by norm_num [factor, factorLoop, factorPivot, factorRowW, factorInit, rowTimes, exOnes,
        exTwoVec])⟩

end

/-! ## Positive definiteness and the pivots -/

section
variable {α : Type} [Field α]

end

section
variable {α : Type} [LinearOrderedField α]

end

section
variable {α : Type} [LinearOrderedField α]

end

/-! ## The derivative of the row recursion -/

section

theorem factorInit_deriv (J N : ℕ) (a : ℝ → Vec ℝ) (V : ℝ → Mat ℝ) (da : Vec ℝ) (dV : Mat ℝ)
    (hN : 1 ≤ N) (ha0 : a 0 0 ≠ 0)
    (ha : ∀ i, i < N → HasDerivAt (fun t => a t i) (da i) 0)
    (hV : ∀ i c, i < N → c < J → HasDerivAt (fun t => V t i c) (dV i c) 0) :
    FactorBufDeriv J N (fun t => factorInit (a t) (V t)) (factorInitTan (a 0) (V 0) da dV) := by
  refine ⟨fun i hi => ha i hi, fun i c hi hc => ?_, fun c e _ _ => ?_⟩
  · simp only [factorInit, factorInitTan]
    split_ifs with h0
    · exact (hV 0 c (by omega) hc).div (ha 0 (by omega)) ha0
    · exact hV i c hi hc
  · simp only [factorInit, factorInitTan]
    exact hasDerivAt_const _ _

theorem factorPivot_deriv (J N n : ℕ) (U P : ℝ → Mat ℝ) (dU dP : Mat ℝ)
    (st : ℝ → FactorBuf ℝ) (st' : FactorBuf ℝ) (hn1 : 1 ≤ n) (hn : n < N)
    (hU : ∀ i c, i < N → c < J → HasDerivAt (fun t => U t i c) (dU i c) 0)
    (hP : ∀ i c, i + 1 < N → c < J → HasDerivAt (fun t => P t i c) (dP i c) 0)
    (h : FactorBufDeriv J N st st') :
    FactorBufDeriv J N (fun t => factorPivot (U t) (P t) J n (st t))
      (factorPivotTan (U 0) (P 0) dU dP J n (st 0) st') := by
  obtain ⟨hd, hW, hS⟩ := h
  have hS2 : ∀ c e, c < J → e < J →
      HasDerivAt (fun t => (factorPivot (U t) (P t) J n (st t)).S c e)
        ((factorPivotTan (U 0) (P 0) dU dP J n (st 0) st').S c e) 0 := by
    intro c e hc he
    simp only [factorPivot, factorPivotTan]
    exact ((hS c e hc he).add
      (((hd (n - 1) (by omega)).mul (hW (n - 1) c (by omega) hc)).mul
        (hW (n - 1) e (by omega) he))).mul
      ((hP (n - 1) c (by omega) hc).mul (hP (n - 1) e (by omega) he))
  refine ⟨fun i hi => ?_, fun i c hi hc => hW i c hi hc, hS2⟩
  simp only [factorPivot, factorPivotTan, rowTimes]
  split_ifs with hin
  · refine (hd n hn).sub (HasDerivAt.sum fun e he => ?_)
    have he' : e < J := mem_range.mp he
    refine HasDerivAt.mul (HasDerivAt.sum fun c hc => ?_) (hU n e hn he')
    have hc' : c < J := mem_range.mp hc
    have := hS2 c e hc' he'
    simp only [factorPivot, factorPivotTan] at this
    exact (hU n c hn hc').mul this
  · exact hd i hi

theorem factorRowW_deriv (J N n : ℕ) (U : ℝ → Mat ℝ) (dU : Mat ℝ)
    (st : ℝ → FactorBuf ℝ) (st' : FactorBuf ℝ) (hn : n < N) (hd0 : (st 0).d n ≠ 0)
    (hU : ∀ i c, i < N → c < J → HasDerivAt (fun t => U t i c) (dU i c) 0)
    (h : FactorBufDeriv J N st st') :
    FactorBufDeriv J N (fun t => factorRowW (U t) J n (st t))
      (factorRowWTan (U 0) dU J n (st 0) st') := by
  obtain ⟨hd, hW, hS⟩ := h
  refine ⟨hd, fun i c hi hc => ?_, hS⟩
  simp only [factorRowW, factorRowWTan, rowTimes]
  split_ifs with hin
  · refine HasDerivAt.div ((hW n c hn hc).sub (HasDerivAt.sum fun e he => ?_)) (hd n hn) hd0
    have he' : e < J := mem_range.mp he
    exact (hU n e hn he').mul (hS e c he' hc)
  · exact hW i c hi hc

/-- Along a differentiable curve of inputs the buffers of the row recursion are differentiable
at parameter 0 as long as the pivots are non-zero there, with derivative `rowTangent`. -/
theorem rowState_deriv (J N : ℕ) (U P : ℝ → Mat ℝ) (a : ℝ → Vec ℝ) (V : ℝ → Mat ℝ)
    (dU dP : Mat ℝ) (da : Vec ℝ) (dV : Mat ℝ) (hN : 1 ≤ N)
    (hU : ∀ i c, i < N → c < J → HasDerivAt (fun t => U t i c) (dU i c) 0)
    (hP : ∀ i c, i + 1 < N → c < J → HasDerivAt (fun t => P t i c) (dP i c) 0)
    (ha : ∀ i, i < N → HasDerivAt (fun t => a t i) (da i) 0)
    (hV : ∀ i c, i < N → c < J → HasDerivAt (fun t => V t i c) (dV i c) 0)
    (hd : ∀ n, n < N → rowD (U 0) (P 0) J (a 0) (V 0) n ≠ 0) (m : ℕ) (hm : m < N) :
    FactorBufDeriv J N (fun t => rowState (U t) (P t) J (a t) (V t) m)
      (rowTangent (U 0) (P 0) J (a 0) (V 0) dU dP da dV m) := by
  induction m with
  | zero => exact factorInit_deriv J N a V da dV hN (hd 0 (by omega)) ha hV
  | succ m ih =>
    have h1 := factorPivot_deriv J N (m + 1) U P dU dP _ _ (by omega) hm hU hP (ih (by omega))
    exact factorRowW_deriv J N (m + 1) U dU _ _ hm (hd (m + 1) hm) hU h1

end

/-! ## Double sums up to an exchange of the two indices -/

section
variable {α : Type} [Field α] [CharZero α]

/-- Two double sums over a square agree when their terms agree after being made symmetric. -/
theorem sum_sum_symm_congr (J : ℕ) (F G : ℕ → ℕ → α)
    (h : ∀ c e, c < J → e < J → F c e + F e c = G c e + G e c) :
    ∑ c in range J, ∑ e in range J, F c e = ∑ c in range J, ∑ e in range J, G c e := by
  have h2 : ∀ H : ℕ → ℕ → α, (2 : α) * ∑ c in range J, ∑ e in range J, H c e =
      ∑ c in range J, ∑ e in range J, (H c e + H e c) := by
    intro H
    have : ∑ c in range J, ∑ e in range J, H e c = ∑ c in range J, ∑ e in range J, H c e :=
      sum_comm
    simp only [sum_add_distrib]
    rw [this]
    ring
  have h3 : (2 : α) * ∑ c in range J, ∑ e in range J, F c e =
      2 * ∑ c in range J, ∑ e in range J, G c e := by
    rw [h2, h2]
    exact sum_congr rfl fun c hc => sum_congr rfl fun e he =>
      h c e (mem_range.mp hc) (mem_range.mp he)
  exact mul_left_cancel₀ two_ne_zero h3

theorem factorGrad_algebra_A (J : ℕ) (u du x v' wn wn' : Vec α) (S S' B : Mat α)
    (dn dn' an' bd_ bd1 : α)
    (hbd1 : bd1 = bd_ - ∑ c in range J, wn c * x c)
    (hSsym : ∀ c e, c < J → e < J → S c e = S e c)
    (T2 : dn' = an' - ∑ e in range J,
      ((∑ c in range J, (du c * S c e + u c * S' c e)) * u e +
        (∑ c in range J, u c * S c e) * du e))
    (T3 : ∀ c, c < J → dn * wn' c + wn c * dn' =
      v' c - ∑ e in range J, (du e * S e c + u e * S' e c)) :
    bd_ * dn' + dn * ∑ c in range J, x c * wn' c + ∑ c in range J, ∑ e in range J, B c e * S' c e =
      ∑ c in range J, ∑ e in range J, (B c e - u c * x e - bd1 * u c * u e) * S' c e +
        bd1 * an' + ∑ c in range J, x c * v' c +
        ∑ c in range J,
          (∑ e in range J, (-x e) * S e c - ∑ e in range J, 2 * bd1 * u e * S e c) * du c := by
  have h3 : dn * ∑ c in range J, x c * wn' c =
      ∑ c in range J, x c * v' c -
        ∑ c in range J, ∑ e in range J, x c * (du e * S e c + u e * S' e c) -
        (∑ c in range J, wn c * x c) * dn' := by
    rw [mul_sum, sum_mul, ← sum_sub_distrib, ← sum_sub_distrib]
    refine sum_congr rfl fun c hc => ?_
    rw [← mul_sum]
    linear_combination x c * T3 c (mem_range.mp hc)
  have key : -(bd1 * ∑ e in range J,
        ((∑ c in range J, (du c * S c e + u c * S' c e)) * u e +
          (∑ c in range J, u c * S c e) * du e)) -
      ∑ c in range J, ∑ e in range J, x c * (du e * S e c + u e * S' e c) +
      ∑ c in range J, ∑ e in range J, B c e * S' c e =
      ∑ c in range J, ∑ e in range J, (B c e - u c * x e - bd1 * u c * u e) * S' c e +
      ∑ c in range J,
        (∑ e in range J, (-x e) * S e c - ∑ e in range J, 2 * bd1 * u e * S e c) * du c := by
    simp only [mul_sum, sum_mul, ← sum_add_distrib, ← sum_sub_distrib, ← sum_neg_distrib]
    refine sum_sum_symm_congr J _ _ fun c e hc he => ?_
    rw [hSsym e c he hc]
    ring
  rw [h3]
  have e1 : bd_ * dn' - (∑ c in range J, wn c * x c) * dn' = bd1 * dn' := by rw [hbd1]; ring
  linear_combination key + e1 + bd1 * T2

theorem factorGrad_algebra_B (J : ℕ) (p dp w w' bWm : Vec α) (S S' Sp Sp' B : Mat α)
    (dm dm' bdm : α) (hp : ∀ c, c < J → p c ≠ 0) (hdm : dm ≠ 0)
    (hS : ∀ c e, c < J → e < J → S c e = (Sp c e + dm * w c * w e) * (p c * p e))
    (hSp : ∀ c e, c < J → e < J → Sp c e = Sp e c)
    (T1 : ∀ c e, c < J → e < J → S' c e =
      (Sp' c e + ((dm' * w c + dm * w' c) * w e + dm * w c * w' e)) * (p c * p e) +
        (Sp c e + dm * w c * w e) * (dp c * p e + p c * dp e)) :
    ∑ c in range J, ∑ e in range J, B c e * S' c e + bdm * dm' +
        ∑ c in range J, bWm c * w' c =
      (bdm + ∑ c in range J, w c * ∑ e in range J, p c * B c e * p e * w e) * dm' +
        dm * ∑ c in range J,
          (bWm c / dm + ∑ e in range J, w e * (p e * B e c * p c + p c * B c e * p e)) * w' c +
        ∑ c in range J, ∑ e in range J, p c * B c e * p e * Sp' c e +
        ∑ c in range J,
          (∑ e in range J, B c e * (S e c * (p c)⁻¹) +
            ∑ e in range J, S e c * (p c)⁻¹ * B e c) * dp c := by
  have hL : ∑ c in range J, ∑ e in range J, B c e * S' c e =
      ∑ c in range J, ∑ e in range J, B c e *
        ((Sp' c e + ((dm' * w c + dm * w' c) * w e + dm * w c * w' e)) * (p c * p e) +
          (Sp c e + dm * w c * w e) * (dp c * p e + p c * dp e)) :=
    sum_congr rfl fun c hc => sum_congr rfl fun e he => by
      rw [T1 c e (mem_range.mp hc) (mem_range.mp he)]
  have hg : ∑ c in range J,
      (∑ e in range J, B c e * (S e c * (p c)⁻¹) +
        ∑ e in range J, S e c * (p c)⁻¹ * B e c) * dp c =
      ∑ c in range J,
        (∑ e in range J, B c e * ((Sp e c + dm * w e * w c) * p e) +
          ∑ e in range J, (Sp e c + dm * w e * w c) * p e * B e c) * dp c := by
    refine sum_congr rfl fun c hc => ?_
    have hc' := mem_range.mp hc
    have h1 : ∀ e ∈ range J, S e c * (p c)⁻¹ = (Sp e c + dm * w e * w c) * p e := by
      intro e he
      rw [hS e c (mem_range.mp he) hc']
      field_simp [hp c hc']
      ring
    have e1 : ∑ e in range J, B c e * (S e c * (p c)⁻¹) =
        ∑ e in range J, B c e * ((Sp e c + dm * w e * w c) * p e) :=
      sum_congr rfl fun e he => by rw [h1 e he]
    have e2 : ∑ e in range J, S e c * (p c)⁻¹ * B e c =
        ∑ e in range J, (Sp e c + dm * w e * w c) * p e * B e c :=
      sum_congr rfl fun e he => by rw [h1 e he]
    rw [e1, e2]
  have hW : dm * ∑ c in range J,
      (bWm c / dm + ∑ e in range J, w e * (p e * B e c * p c + p c * B c e * p e)) * w' c =
      ∑ c in range J, bWm c * w' c +
        dm * ∑ c in range J,
          (∑ e in range J, w e * (p e * B e c * p c + p c * B c e * p e)) * w' c := by
    rw [mul_sum, mul_sum, ← sum_add_distrib]
    refine sum_congr rfl fun c _ => ?_
    field_simp
    ring
  have key : ∑ c in range J, ∑ e in range J, B c e *
        ((Sp' c e + ((dm' * w c + dm * w' c) * w e + dm * w c * w' e)) * (p c * p e) +
          (Sp c e + dm * w c * w e) * (dp c * p e + p c * dp e)) =
      (∑ c in range J, w c * ∑ e in range J, p c * B c e * p e * w e) * dm' +
        dm * ∑ c in range J,
          (∑ e in range J, w e * (p e * B e c * p c + p c * B c e * p e)) * w' c +
        ∑ c in range J, ∑ e in range J, p c * B c e * p e * Sp' c e +
        ∑ c in range J,
          (∑ e in range J, B c e * ((Sp e c + dm * w e * w c) * p e) +
            ∑ e in range J, (Sp e c + dm * w e * w c) * p e * B e c) * dp c := by
    simp only [mul_sum, sum_mul, ← sum_add_distrib]
    refine sum_sum_symm_congr J _ _ fun c e hc he => ?_
    rw [hSp e c he hc]
    ring
  rw [hL, hg, hW, key]
  ring

end

/-! ## The derivative of the row recursion, row by row -/

section
variable {α : Type} [Field α]

@[simp] theorem factorPivotTan_W (U P dU dP : Mat α) (J n : ℕ) (st st' : FactorBuf α) :
    (factorPivotTan U P dU dP J n st st').W = st'.W := rfl

@[simp] theorem factorRowWTan_d (U dU : Mat α) (J n : ℕ) (st st' : FactorBuf α) :
    (factorRowWTan U dU J n st st').d = st'.d := rfl

@[simp] theorem factorRowWTan_S (U dU : Mat α) (J n : ℕ) (st st' : FactorBuf α) :
    (factorRowWTan U dU J n st st').S = st'.S := rfl

theorem factorPivotTan_d_of_ne (U P dU dP : Mat α) (J n i : ℕ) (st st' : FactorBuf α)
    (h : i ≠ n) : (factorPivotTan U P dU dP J n st st').d i = st'.d i := by
  simp [factorPivotTan, h]

theorem factorRowWTan_W_of_ne (U dU : Mat α) (J n i : ℕ) (st st' : FactorBuf α) (h : i ≠ n)
    (c : ℕ) : (factorRowWTan U dU J n st st').W i c = st'.W i c := by
  simp [factorRowWTan, h]

variable (U P : Mat α) (J : ℕ) (a : Vec α) (V : Mat α) (dU dP : Mat α) (da : Vec α) (dV : Mat α)

theorem rowTangent_d_of_lt (m i : ℕ) (h : m < i) :
    (rowTangent U P J a V dU dP da dV m).d i = da i := by
  induction m with
  | zero => rfl
  | succ m ih =>
    rw [rowTangent, factorRowWTan_d, factorPivotTan_d_of_ne _ _ _ _ _ _ _ _ _ (by omega),
      ih (by omega)]

theorem rowTangent_W_of_lt (m i : ℕ) (h : m < i) (c : ℕ) :
    (rowTangent U P J a V dU dP da dV m).W i c = dV i c := by
  induction m with
  | zero => simp [rowTangent, factorInitTan, Nat.pos_iff_ne_zero.mp h]
  | succ m ih =>
    rw [rowTangent, factorRowWTan_W_of_ne _ _ _ _ _ _ _ (by omega), factorPivotTan_W,
      ih (by omega)]

theorem rowTangent_d_eq_rowDT (m n : ℕ) (h : n ≤ m) :
    (rowTangent U P J a V dU dP da dV m).d n = rowDT U P J a V dU dP da dV n := by
  obtain ⟨k, rfl⟩ : ∃ k, m = n + k := ⟨m - n, by omega⟩
  induction k with
  | zero => rfl
  | succ k ih =>
    rw [← Nat.add_assoc, rowTangent, factorRowWTan_d,
      factorPivotTan_d_of_ne _ _ _ _ _ _ _ _ _ (by omega), ih (by omega)]

theorem rowTangent_W_eq_rowWT (m n : ℕ) (h : n ≤ m) (c : ℕ) :
    (rowTangent U P J a V dU dP da dV m).W n c = rowWT U P J a V dU dP da dV n c := by
  obtain ⟨k, rfl⟩ : ∃ k, m = n + k := ⟨m - n, by omega⟩
  induction k with
  | zero => rfl
  | succ k ih =>
    rw [← Nat.add_assoc, rowTangent, factorRowWTan_W_of_ne _ _ _ _ _ _ _ (by omega),
      factorPivotTan_W, ih (by omega)]

theorem rowTangent_succ_S (m : ℕ) :
    (rowTangent U P J a V dU dP da dV (m + 1)).S =
      (factorPivotTan U P dU dP J (m + 1) (rowState U P J a V m)
        (rowTangent U P J a V dU dP da dV m)).S := rfl

/-- The recursion of the running state. -/
theorem rowState_S_succ (m c e : ℕ) :
    (rowState U P J a V (m + 1)).S c e =
      ((rowState U P J a V m).S c e + rowD U P J a V m * rowW U P J a V m c * rowW U P J a V m e) *
        (P m c * P m e) := by
  rw [rowState_succ_S]
  simp [factorPivot, rowD, rowW]

theorem rowState_S_symm (n c e : ℕ) :
    (rowState U P J a V n).S c e = (rowState U P J a V n).S e c := by
  rw [rowState_S, stateSum_symm]

/-- The derivative of the recursion of the running state. -/
theorem rowTangent_S_succ (m c e : ℕ) :
    (rowTangent U P J a V dU dP da dV (m + 1)).S c e =
      ((rowTangent U P J a V dU dP da dV m).S c e +
        ((rowDT U P J a V dU dP da dV m * rowW U P J a V m c +
          rowD U P J a V m * rowWT U P J a V dU dP da dV m c) * rowW U P J a V m e +
          rowD U P J a V m * rowW U P J a V m c * rowWT U P J a V dU dP da dV m e)) *
        (P m c * P m e) +
      ((rowState U P J a V m).S c e + rowD U P J a V m * rowW U P J a V m c * rowW U P J a V m e) *
        (dP m c * P m e + P m c * dP m e) := by
  rw [rowTangent_succ_S]
  simp [factorPivotTan, rowD, rowW, rowDT, rowWT]

/-- The derivative of the pivot of row `m + 1`. -/
theorem rowDT_succ (m : ℕ) :
    rowDT U P J a V dU dP da dV (m + 1) = da (m + 1) - ∑ e in range J,
      ((∑ c in range J, (dU (m + 1) c * (rowState U P J a V (m + 1)).S c e +
          U (m + 1) c * (rowTangent U P J a V dU dP da dV (m + 1)).S c e)) * U (m + 1) e +
        (∑ c in range J, U (m + 1) c * (rowState U P J a V (m + 1)).S c e) * dU (m + 1) e) := by
  have h := rowTangent_d_of_lt U P J a V dU dP da dV m (m + 1) (by omega)
  simp only [rowDT, rowTangent, factorRowWTan_d]
  rw [rowState_succ_S]
  simp [factorPivotTan, factorPivot, rowTimes, h]

/-- The derivative of the row `m + 1` of `W`, cleared of its denominator. -/
theorem rowWT_succ (m c : ℕ) (hd : rowD U P J a V (m + 1) ≠ 0) :
    rowD U P J a V (m + 1) * rowWT U P J a V dU dP da dV (m + 1) c +
        rowW U P J a V (m + 1) c * rowDT U P J a V dU dP da dV (m + 1) =
      dV (m + 1) c - ∑ e in range J,
        (dU (m + 1) e * (rowState U P J a V (m + 1)).S e c +
          U (m + 1) e * (rowTangent U P J a V dU dP da dV (m + 1)).S e c) := by
  have hW := rowTangent_W_of_lt U P J a V dU dP da dV m (m + 1) (by omega) c
  have hV := rowState_W_of_lt U P J a V m (m + 1) (by omega) c
  have hd' : (factorPivot U P J (m + 1) (rowState U P J a V m)).d (m + 1) ≠ 0 := hd
  have e1 : rowW U P J a V (m + 1) c =
      (V (m + 1) c - rowTimes U J (m + 1) (rowState U P J a V (m + 1)).S c) /
        rowD U P J a V (m + 1) := by
    simp [rowW, rowD, rowState, factorRowWTan, factorRowW, hV]
  have e2 : rowWT U P J a V dU dP da dV (m + 1) c =
      ((dV (m + 1) c - ∑ e in range J,
        (dU (m + 1) e * (rowState U P J a V (m + 1)).S e c +
          U (m + 1) e * (rowTangent U P J a V dU dP da dV (m + 1)).S e c)) *
          rowD U P J a V (m + 1) -
        (V (m + 1) c - rowTimes U J (m + 1) (rowState U P J a V (m + 1)).S c) *
          rowDT U P J a V dU dP da dV (m + 1)) / rowD U P J a V (m + 1) ^ 2 := by
    simp [rowWT, rowDT, rowD, rowTangent, rowState, factorRowWTan, factorRowW, hV, hW]
  rw [e1, e2]
  field_simp
  ring

theorem rowDT_zero : rowDT U P J a V dU dP da dV 0 = da 0 := rfl

theorem rowWT_zero (c : ℕ) (ha : a 0 ≠ 0) :
    rowD U P J a V 0 * rowWT U P J a V dU dP da dV 0 c +
      rowW U P J a V 0 c * rowDT U P J a V dU dP da dV 0 = dV 0 c := by
  simp only [rowD, rowW, rowDT, rowWT, rowState, rowTangent, factorInit, factorInitTan, if_true]
  field_simp
  ring

theorem rowTangent_S_zero (c e : ℕ) : (rowTangent U P J a V dU dP da dV 0).S c e = 0 := rfl

end

/-! ## The reverse loop of `factor_grad` -/

section
variable {α : Type} [Field α]

/-- Replacing entry `n` of the left factor of an inner product. -/
theorem dotV_set_left (N n : ℕ) (hn : n < N) (x y : Vec α) (X : α) :
    dotV N (fun i => if i = n then X else x i) y = dotV N x y + (X - x n) * y n := by
  unfold dotV
  have h : ∀ i, (if i = n then X else x i) * y i =
      x i * y i + if i = n then (X - x n) * y n else 0 := by
    intro i
    split_ifs with hi
    · subst hi; ring
    · rw [add_zero]
  rw [sum_congr rfl fun i _ => h i, sum_add_distrib, sum_ite_eq' (range N) n]
  simp [hn]

theorem factorGradBody_bU (U P : Mat α) (d : Vec α) (W : Mat α) (bd : Vec α) (bW : Mat α)
    (J n : ℕ) (s : FactorGradState α) :
    (factorGradBody U P d W bd bW J n s).bU = fun i c =>
      if i = n then
        (s.bU n c + ∑ e in range J, (-s.bW_ e) * s.S_ e c) -
          ∑ e in range J, 2 * (s.bd_ - ∑ c in range J, W n c * s.bW_ c) * U n e * s.S_ e c
      else s.bU i c := by
  funext i c
  simp only [factorGradBody]
  split_ifs <;> rfl

end

section
variable {α : Type} [Field α] [CharZero α]

/-- One pass of the reverse loop of `factor_grad` keeps the invariant. -/
theorem factorGradInv_step (U P : Mat α) (J N : ℕ) (a : Vec α) (V : Mat α) (dU dP : Mat α)
    (da : Vec α) (dV : Mat α) (bd : Vec α) (bW : Mat α) (T : α)
    (m : ℕ) (hm : m + 1 < N)
    (hnz : ∀ i, i < N → rowD U P J a V i ≠ 0)
    (hP : ∀ c, c < J → P m c ≠ 0)
    (s : FactorGradState α)
    (h : FactorGradInv U P J N a V dU dP da dV bd bW T (m + 1) s) :
    FactorGradInv U P J N a V dU dP da dV bd bW T m
      (factorGradBody U P (rowD U P J a V) (rowW U P J a V) bd bW J (m + 1) s) := by
  obtain ⟨hS, hT⟩ := h
  have hA := factorGrad_algebra_A J (U (m + 1)) (dU (m + 1)) s.bW_ (dV (m + 1))
    (rowW U P J a V (m + 1)) (rowWT U P J a V dU dP da dV (m + 1))
    (rowState U P J a V (m + 1)).S (rowTangent U P J a V dU dP da dV (m + 1)).S s.bS_
    (rowD U P J a V (m + 1)) (rowDT U P J a V dU dP da dV (m + 1)) (da (m + 1)) s.bd_
    (s.bd_ - ∑ c in range J, rowW U P J a V (m + 1) c * s.bW_ c) rfl
    (fun c e _ _ => rowState_S_symm U P J a V (m + 1) c e)
    (rowDT_succ U P J a V dU dP da dV m)
    (fun c _ => rowWT_succ U P J a V dU dP da dV m c (hnz (m + 1) hm))
  have hB := factorGrad_algebra_B J (P m) (dP m) (rowW U P J a V m)
    (rowWT U P J a V dU dP da dV m) (bW m)
    (rowState U P J a V (m + 1)).S (rowTangent U P J a V dU dP da dV (m + 1)).S
    (rowState U P J a V m).S (rowTangent U P J a V dU dP da dV m).S
    (fun c e => s.bS_ c e - U (m + 1) c * s.bW_ e -
      (s.bd_ - ∑ c in range J, rowW U P J a V (m + 1) c * s.bW_ c) * U (m + 1) c * U (m + 1) e)
    (rowD U P J a V m) (rowDT U P J a V dU dP da dV m) (bd m) hP (hnz m (by omega))
    (fun c e _ _ => rowState_S_succ U P J a V m c e)
    (fun c e _ _ => rowState_S_symm U P J a V m c e)
    (fun c e _ _ => rowTangent_S_succ U P J a V dU dP da dV m c e)
  simp only [] at hB
  have hS1 : ∀ (f : Vec α) (c : ℕ), c < J →
      ∑ e in range J, f e * s.S_ e c = ∑ e in range J, f e * (rowState U P J a V (m + 1)).S e c :=
    fun f c hc => sum_congr rfl fun e he => by rw [hS e c (mem_range.mp he) hc]
  refine ⟨fun c e hc he => ?_, ?_⟩
  · simp only [factorGradBody, Nat.add_sub_cancel, hS c e hc he,
      rowState_S_succ U P J a V m c e]
    field_simp [hP c hc, hP e he]
  · have e_ba : dotV N (factorGradBody U P (rowD U P J a V) (rowW U P J a V) bd bW J (m + 1)
          s).ba da =
        dotV N s.ba da +
          (s.bd_ - ∑ c in range J, rowW U P J a V (m + 1) c * s.bW_ c) * da (m + 1) := by
      simp only [factorGradBody]
      rw [dotV_set_left N (m + 1) hm]
      ring
    have e_bV : dotM N J (factorGradBody U P (rowD U P J a V) (rowW U P J a V) bd bW J (m + 1)
          s).bV dV =
        dotM N J s.bV dV + ∑ c in range J, s.bW_ c * dV (m + 1) c := by
      simp only [factorGradBody]
      rw [dotM_row_set_left N J (m + 1) hm]
      simp only [add_sub_cancel_left]
    have e_bU : dotM N J (factorGradBody U P (rowD U P J a V) (rowW U P J a V) bd bW J (m + 1)
          s).bU dU =
        dotM N J s.bU dU + ∑ c in range J,
          (∑ e in range J, (-s.bW_ e) * (rowState U P J a V (m + 1)).S e c -
            ∑ e in range J, 2 * (s.bd_ - ∑ c in range J, rowW U P J a V (m + 1) c * s.bW_ c) *
              U (m + 1) e * (rowState U P J a V (m + 1)).S e c) * dU (m + 1) c := by
      rw [factorGradBody_bU, dotM_row_set_left N J (m + 1) hm]
      congr 1
      refine sum_congr rfl fun c hc => ?_
      have hc' := mem_range.mp hc
      rw [hS1 (fun e => -s.bW_ e) c hc',
        hS1 (fun e => 2 * (s.bd_ - ∑ c in range J, rowW U P J a V (m + 1) c * s.bW_ c) *
          U (m + 1) e) c hc']
      ring
    have e_bP : dotM (N - 1) J (factorGradBody U P (rowD U P J a V) (rowW U P J a V) bd bW J
          (m + 1) s).bP dP =
        dotM (N - 1) J s.bP dP + ∑ c in range J,
          (∑ e in range J, (s.bS_ c e - U (m + 1) c * s.bW_ e -
              (s.bd_ - ∑ c in range J, rowW U P J a V (m + 1) c * s.bW_ c) *
                U (m + 1) c * U (m + 1) e) * ((rowState U P J a V (m + 1)).S e c * (P m c)⁻¹) +
            ∑ e in range J, (rowState U P J a V (m + 1)).S e c * (P m c)⁻¹ *
              (s.bS_ e c - U (m + 1) e * s.bW_ c -
                (s.bd_ - ∑ c in range J, rowW U P J a V (m + 1) c * s.bW_ c) *
                  U (m + 1) e * U (m + 1) c)) * dP m c := by
      simp only [factorGradBody, Nat.add_sub_cancel]
      rw [dotM_row_set_left (N - 1) J m (by omega)]
      simp only [add_sub_cancel_left]
      congr 1
      refine sum_congr rfl fun c hc => ?_
      have hc' := mem_range.mp hc
      congr 2
      · exact sum_congr rfl fun e he => by rw [hS e c (mem_range.mp he) hc']
      · exact sum_congr rfl fun e he => by rw [hS e c (mem_range.mp he) hc']
    rw [e_ba, e_bV, e_bU, e_bP]
    simp only [factorGradBody, Nat.add_sub_cancel]
    rw [hT, sum_range_succ]
    linear_combination hA + hB

end

/-! ## The adjoint identity of `factor_grad` -/

section
variable {α : Type} [Field α]

variable (U P : Mat α) (J N : ℕ) (a : Vec α) (V : Mat α) (dU dP : Mat α) (da : Vec α)
  (dV : Mat α) (bd : Vec α) (bW bS : Mat α)

/-- The loss of the derivative of the row recursion, row by row. -/
theorem factorLoss_rowTangent (hN : 1 ≤ N) :
    factorLoss J N bd bW bS (rowTangent U P J a V dU dP da dV (N - 1)) =
      ∑ i in range N, (bd i * rowDT U P J a V dU dP da dV i +
        ∑ c in range J, bW i c * rowWT U P J a V dU dP da dV i c) +
      ∑ c in range J, ∑ e in range J,
        bS c e * (rowTangent U P J a V dU dP da dV (N - 1)).S c e := by
  simp only [factorLoss, dotV, dotM]
  rw [← sum_add_distrib]
  congr 1
  refine sum_congr rfl fun i hi => ?_
  have hi' : i ≤ N - 1 := by have := mem_range.mp hi; omega
  rw [rowTangent_d_eq_rowDT U P J a V dU dP da dV (N - 1) i hi']
  congr 1
  exact sum_congr rfl fun c _ => by rw [rowTangent_W_eq_rowWT U P J a V dU dP da dV (N - 1) i hi']

/-- Before the reverse loop the invariant holds at the last row. -/
theorem factorGradInv_init (hN : 1 ≤ N) (hnz : rowD U P J a V (N - 1) ≠ 0) :
    FactorGradInv U P J N a V dU dP da dV bd bW
      (factorLoss J N bd bW bS (rowTangent U P J a V dU dP da dV (N - 1))) (N - 1)
      (factorGradInit N (rowD U P J a V) (rowState U P J a V (N - 1)).S bd bW bS
        (fun _ => 0) (fun _ _ => 0) (fun _ _ => 0) (fun _ _ => 0)) := by
  refine ⟨fun _ _ _ _ => rfl, ?_⟩
  rw [factorLoss_rowTangent U P J N a V dU dP da dV bd bW bS hN]
  obtain ⟨k, rfl⟩ : ∃ k, N = k + 1 := ⟨N - 1, by omega⟩
  simp only [Nat.add_sub_cancel] at hnz ⊢
  have e : rowD U P J a V k * ∑ c in range J, bW k c / rowD U P J a V k *
      rowWT U P J a V dU dP da dV k c = ∑ c in range J, bW k c *
      rowWT U P J a V dU dP da dV k c := by
    rw [mul_sum]
    refine sum_congr rfl fun c _ => ?_
    field_simp
  simp only [factorGradInit, Nat.add_sub_cancel, dotV, dotM, zero_mul, sum_const_zero, add_zero,
    sum_range_succ _ k, e]
  ring

/-- After the update of the first row the output buffers pair with the direction to the
derivative of the loss. -/
theorem factorGradInv_last (T : α) (hN : 1 ≤ N) (ha : a 0 ≠ 0) (s : FactorGradState α)
    (h : FactorGradInv U P J N a V dU dP da dV bd bW T 0 s) :
    T = dotV N (factorGradLast (rowW U P J a V) J s).ba da +
      dotM N J (factorGradLast (rowW U P J a V) J s).bU dU +
      dotM N J (factorGradLast (rowW U P J a V) J s).bV dV +
      dotM (N - 1) J (factorGradLast (rowW U P J a V) J s).bP dP := by
  obtain ⟨-, hT⟩ := h
  have e_ba : dotV N (factorGradLast (rowW U P J a V) J s).ba da =
      dotV N s.ba da + (s.bd_ - ∑ c in range J, s.bW_ c * rowW U P J a V 0 c) * da 0 := by
    simp only [factorGradLast]
    rw [dotV_set_left N 0 hN]
    ring
  have e_bV : dotM N J (factorGradLast (rowW U P J a V) J s).bV dV =
      dotM N J s.bV dV + ∑ c in range J, s.bW_ c * dV 0 c := by
    simp only [factorGradLast]
    rw [dotM_row_set_left N J 0 hN]
    simp only [add_sub_cancel_left]
  have e3 : rowD U P J a V 0 * ∑ c in range J, s.bW_ c * rowWT U P J a V dU dP da dV 0 c =
      ∑ c in range J, s.bW_ c * dV 0 c -
        (∑ c in range J, s.bW_ c * rowW U P J a V 0 c) * da 0 := by
    rw [mul_sum, sum_mul, ← sum_sub_distrib]
    refine sum_congr rfl fun c _ => ?_
    have := rowWT_zero U P J a V dU dP da dV c ha
    rw [rowDT_zero] at this
    linear_combination s.bW_ c * this
  rw [e_ba, e_bV, hT]
  simp only [range_zero, sum_empty, rowDT_zero, rowTangent_S_zero, mul_zero, sum_const_zero,
    factorGradLast]
  linear_combination e3

end

section
variable {α : Type} [Field α] [CharZero α]

variable (U P : Mat α) (J N : ℕ) (a : Vec α) (V : Mat α) (dU dP : Mat α) (da : Vec α)
  (dV : Mat α) (bd : Vec α) (bW bS : Mat α)

/-- The reverse loop of `factor_grad` keeps the invariant down to row 0. -/
theorem factorGradInv_loop (T : α) (hnz : ∀ i, i < N → rowD U P J a V i ≠ 0)
    (hP : ∀ n c, n + 1 < N → c < J → P n c ≠ 0) (k : ℕ) (hk : k < N)
    (s : FactorGradState α) (h : FactorGradInv U P J N a V dU dP da dV bd bW T k s) :
    FactorGradInv U P J N a V dU dP da dV bd bW T 0
      (loopDown (factorGradBody U P (rowD U P J a V) (rowW U P J a V) bd bW J) 1 k s) := by
  induction k generalizing s with
  | zero => exact h
  | succ k ih =>
    rw [loopDown_succ, Nat.add_comm 1 k]
    exact ih (by omega) _ (factorGradInv_step U P J N a V dU dP da dV bd bW T k hk hnz
      (fun c hc => hP k c hk hc) s h)

/-- The adjoint identity of `factor_grad`: on zero buffers it returns the vector whose pairing
with any direction is the loss of the derivative of the row recursion in that direction. -/
theorem factor_grad_adjoint (hN : 1 ≤ N) (hnz : ∀ i, i < N → rowD U P J a V i ≠ 0)
    (hP : ∀ n c, n + 1 < N → c < J → P n c ≠ 0) :
    factorLoss J N bd bW bS (rowTangent U P J a V dU dP da dV (N - 1)) =
      dotV N (factor_grad U P (rowD U P J a V) (rowW U P J a V) (rowState U P J a V (N - 1)).S
        bd bW bS J N (fun _ => 0) (fun _ _ => 0) (fun _ _ => 0) (fun _ _ => 0)).ba da +
      dotM N J (factor_grad U P (rowD U P J a V) (rowW U P J a V) (rowState U P J a V (N - 1)).S
        bd bW bS J N (fun _ => 0) (fun _ _ => 0) (fun _ _ => 0) (fun _ _ => 0)).bU dU +
      dotM N J (factor_grad U P (rowD U P J a V) (rowW U P J a V) (rowState U P J a V (N - 1)).S
        bd bW bS J N (fun _ => 0) (fun _ _ => 0) (fun _ _ => 0) (fun _ _ => 0)).bV dV +
      dotM (N - 1) J (factor_grad U P (rowD U P J a V) (rowW U P J a V)
        (rowState U P J a V (N - 1)).S
        bd bW bS J N (fun _ => 0) (fun _ _ => 0) (fun _ _ => 0) (fun _ _ => 0)).bP dP :=
  factorGradInv_last U P J N a V dU dP da dV bd bW _ hN (hnz 0 hN) _
    (factorGradInv_loop U P J N a V dU dP da dV bd bW _ hnz hP (N - 1) (by omega) _
      (factorGradInv_init U P J N a V dU dP da dV bd bW bS hN (hnz (N - 1) (by omega))))

end

/-! ## `factor_grad` computes the gradient of `factor` -/

section
variable {α : Type} [Field α]

/-- The function `factor_grad` only reads the rows below `N` of `d` and `W`. -/
theorem factor_grad_congr (U P : Mat α) (d d2 : Vec α) (W W2 S : Mat α) (bd : Vec α)
    (bW bS : Mat α) (J N : ℕ) (ba : Vec α) (bU bV bP : Mat α) (hN : 1 ≤ N)
    (hd : ∀ i, i < N → d i = d2 i) (hW : ∀ i, i < N → ∀ c, W i c = W2 i c) :
    factor_grad U P d W S bd bW bS J N ba bU bV bP =
      factor_grad U P d2 W2 S bd bW bS J N ba bU bV bP := by
  have hbody : ∀ n, 1 ≤ n → n < N → ∀ s, factorGradBody U P d W bd bW J n s =
      factorGradBody U P d2 W2 bd bW J n s := by
    intro n h1 hn s
    simp only [factorGradBody, hd (n - 1) (by omega), hW n hn, hW (n - 1) (by omega)]
  have hloop : ∀ k, k < N → ∀ s, loopDown (factorGradBody U P d W bd bW J) 1 k s =
      loopDown (factorGradBody U P d2 W2 bd bW J) 1 k s := by
    intro k
    induction k with
    | zero => intro _ s; rfl
    | succ k ih =>
      intro hk s
      rw [loopDown_succ, loopDown_succ, hbody (1 + k) (by omega) (by omega), ih (by omega)]
  have hinit : factorGradInit N d S bd bW bS ba bU bV bP =
      factorGradInit N d2 S bd bW bS ba bU bV bP := by
    simp only [factorGradInit, hd (N - 1) (by omega)]
  have hlast : ∀ s, factorGradLast W J s = factorGradLast W2 J s := by
    intro s
    simp only [factorGradLast, hW 0 hN]
  simp only [factor_grad]
  rw [hloop (N - 1) (by omega), hinit, hlast]

/-- The buffers after `factor_grad` are their initial content plus the result on zero
buffers. -/
theorem factor_grad_shift (U P : Mat α) (d : Vec α) (W S : Mat α) (bd : Vec α)
    (bW bS : Mat α) (J N : ℕ) (ba0 : Vec α) (bU0 bV0 bP0 : Mat α) :
    FactorGradShift ba0 bU0 bV0 bP0 (factor_grad U P d W S bd bW bS J N ba0 bU0 bV0 bP0)
      (factor_grad U P d W S bd bW bS J N (fun _ => 0) (fun _ _ => 0) (fun _ _ => 0)
        (fun _ _ => 0)) := by
  have h0 : FactorGradShift ba0 bU0 bV0 bP0 (factorGradInit N d S bd bW bS ba0 bU0 bV0 bP0)
      (factorGradInit N d S bd bW bS (fun _ => 0) (fun _ _ => 0) (fun _ _ => 0)
        (fun _ _ => 0)) := by
    refine ⟨rfl, rfl, rfl, rfl, ?_, ?_, ?_, ?_⟩ <;> intros <;> simp [factorGradInit]
  exact factorGradLast_shift W J ba0 bU0 bV0 bP0 _ _
    (loopDown_rel (FactorGradShift ba0 bU0 bV0 bP0) _ _ 1 1
      (fun n => factorGradBody_shift U P d W bd bW J ba0 bU0 bV0 bP0 (1 + n)) (N - 1) _ _ h0)

end

section

/-- The loss of a differentiable curve of buffers is differentiable. -/
theorem factorLoss_deriv (J N : ℕ) (bd : Vec ℝ) (bW bS : Mat ℝ) (st : ℝ → FactorBuf ℝ)
    (st' : FactorBuf ℝ) (h : FactorBufDeriv J N st st') :
    HasDerivAt (fun t => factorLoss J N bd bW bS (st t)) (factorLoss J N bd bW bS st') 0 := by
  obtain ⟨hd, hW, hS⟩ := h
  simp only [factorLoss, dotV, dotM]
  refine ((HasDerivAt.sum fun i hi => ?_).add (HasDerivAt.sum fun i hi => ?_)).add
    (HasDerivAt.sum fun c hc => ?_)
  · exact (hd i (mem_range.mp hi)).const_mul (bd i)
  · exact HasDerivAt.sum fun c hc =>
      (hW i c (mem_range.mp hi) (mem_range.mp hc)).const_mul (bW i c)
  · exact HasDerivAt.sum fun e he =>
      (hS c e (mem_range.mp hc) (mem_range.mp he)).const_mul (bS c e)

/-- C6: over the reals, for `N >= 1`, `J >= 1`, at a point `(a, U, V, P)` with `a(0) != 0`, all
`P` entries non-zero and `factor` returning 0 with outputs `(d, W, S)`, and for every
`(bd, bW, bS)`: along every differentiable curve of inputs through that point, with velocity
`(da, dU, dV, dP)`, the scalar `<bd, d> + <bW, W> + <bS, S>` of the outputs of `factor` has at
the point the derivative `<Da, da> + <DU, dU> + <DV, dV> + <DP, dP>`, where
`(Da, DU, DV, DP)` are the increments that `factor_grad` adds to `(ba, bU, bV, bP)`: the
increments are the gradient of the scalar. -/
theorem factor_grad_gradient (J N : ℕ) (U P : ℝ → Mat ℝ) (a : ℝ → Vec ℝ) (V : ℝ → Mat ℝ)
    (S0 : Mat ℝ) (dU dP : Mat ℝ) (da : Vec ℝ) (dV : Mat ℝ) (bd : Vec ℝ) (bW bS : Mat ℝ)
    (ba0 : Vec ℝ) (bU0 bV0 bP0 : Mat ℝ) (hN : 1 ≤ N) (_hJ : 1 ≤ J)
    (hU : ∀ i c, i < N → c < J → HasDerivAt (fun t => U t i c) (dU i c) 0)
    (hP : ∀ i c, i + 1 < N → c < J → HasDerivAt (fun t => P t i c) (dP i c) 0)
    (ha : ∀ i, i < N → HasDerivAt (fun t => a t i) (da i) 0)
    (hV : ∀ i c, i < N → c < J → HasDerivAt (fun t => V t i c) (dV i c) 0)
    (ha0 : a 0 0 ≠ 0) (hP0 : ∀ n c, n + 1 < N → c < J → P 0 n c ≠ 0)
    (h0 : (factor (U 0) (P 0) J N (a 0) (V 0) S0).1 = 0) :
    HasDerivAt
      (fun t => factorLoss J N bd bW bS (factor (U t) (P t) J N (a t) (V t) S0).2)
      (dotV N (fun i =>
          (factor_grad (U 0) (P 0) (factor (U 0) (P 0) J N (a 0) (V 0) S0).2.d
            (factor (U 0) (P 0) J N (a 0) (V 0) S0).2.W
            (factor (U 0) (P 0) J N (a 0) (V 0) S0).2.S bd bW bS J N ba0 bU0 bV0 bP0).ba i -
          ba0 i) da +
        dotM N J (fun i c =>
          (factor_grad (U 0) (P 0) (factor (U 0) (P 0) J N (a 0) (V 0) S0).2.d
            (factor (U 0) (P 0) J N (a 0) (V 0) S0).2.W
            (factor (U 0) (P 0) J N (a 0) (V 0) S0).2.S bd bW bS J N ba0 bU0 bV0 bP0).bU i c -
          bU0 i c) dU +
        dotM N J (fun i c =>
          (factor_grad (U 0) (P 0) (factor (U 0) (P 0) J N (a 0) (V 0) S0).2.d
            (factor (U 0) (P 0) J N (a 0) (V 0) S0).2.W
            (factor (U 0) (P 0) J N (a 0) (V 0) S0).2.S bd bW bS J N ba0 bU0 bV0 bP0).bV i c -
          bV0 i c) dV +
        dotM (N - 1) J (fun i c =>
          (factor_grad (U 0) (P 0) (factor (U 0) (P 0) J N (a 0) (V 0) S0).2.d
            (factor (U 0) (P 0) J N (a 0) (V 0) S0).2.W
            (factor (U 0) (P 0) J N (a 0) (V 0) S0).2.S bd bW bS J N ba0 bU0 bV0 bP0).bP i c -
          bP0 i c) dP) 0 := by
  obtain ⟨hpos, hfac⟩ := factor_success (U 0) (P 0) J N (a 0) (V 0) S0 h0
  have hnz := rowD_ne_zero_of_success (U 0) (P 0) J N (a 0) (V 0) S0 ha0 h0
  have hder := rowState_deriv J N U P a V dU dP da dV hN hU hP ha hV hnz
  -- near the point every pivot stays positive, so `factor` returns 0 there as well
  have hev : ∀ᶠ t in nhds (0 : ℝ), ∀ n ∈ range N, 1 ≤ n →
      0 < pivot (U t) (P t) J (a t) (V t) n := by
    rw [Filter.eventually_all_finset]
    intro n hn
    have hn' : n < N := mem_range.mp hn
    rcases Nat.eq_zero_or_pos n with rfl | h1
    · exact Filter.Eventually.of_forall fun t h => absurd h (by decide)
    · have hc := ((hder n hn').1 n hn').continuousAt
      have hp : 0 < (rowState (U 0) (P 0) J (a 0) (V 0) n).d n := by
        have := hpos n h1 hn'
        rwa [← rowD_eq_pivot _ _ _ _ _ n h1] at this
      refine (hc.tendsto.eventually (eventually_gt_nhds hp)).mono fun t ht _ => ?_
      rw [← rowD_eq_pivot _ _ _ _ _ n h1]
      exact ht
  have heq : (fun t => factorLoss J N bd bW bS (factor (U t) (P t) J N (a t) (V t) S0).2)
      =ᶠ[nhds 0] fun t => factorLoss J N bd bW bS (rowState (U t) (P t) J (a t) (V t) (N - 1)) :=
    hev.mono fun t ht => by
      show factorLoss J N bd bW bS (factor (U t) (P t) J N (a t) (V t) S0).2 = _
      rw [factor_of_pos (U t) (P t) J N (a t) (V t) S0
        (fun m h1 hm => ht m (mem_range.mpr hm) h1)]
  refine ((factorLoss_deriv J N bd bW bS _ _ (hder (N - 1) (by omega))).congr_of_eventuallyEq
    heq).congr_deriv ?_
  rw [factor_grad_adjoint (U 0) (P 0) J N (a 0) (V 0) dU dP da dV bd bW bS hN hnz hP0, hfac]
  have hcongr := factor_grad_congr (U 0) (P 0) (rowState (U 0) (P 0) J (a 0) (V 0) (N - 1)).d
    (rowD (U 0) (P 0) J (a 0) (V 0)) (rowState (U 0) (P 0) J (a 0) (V 0) (N - 1)).W
    (rowW (U 0) (P 0) J (a 0) (V 0)) (rowState (U 0) (P 0) J (a 0) (V 0) (N - 1)).S bd bW bS J N
    (fun _ => 0) (fun _ _ => 0) (fun _ _ => 0) (fun _ _ => 0) hN
    (fun i hi => rowState_d_eq_rowD _ _ _ _ _ (N - 1) i (by omega))
    (fun i hi c => rowState_W_eq_rowW _ _ _ _ _ (N - 1) i (by omega) c)
  obtain ⟨-, -, -, -, s5, s6, s7, s8⟩ := factor_grad_shift (U 0) (P 0)
    (rowState (U 0) (P 0) J (a 0) (V 0) (N - 1)).d
    (rowState (U 0) (P 0) J (a 0) (V 0) (N - 1)).W
    (rowState (U 0) (P 0) J (a 0) (V 0) (N - 1)).S bd bW bS J N ba0 bU0 bV0 bP0
  rw [← hcongr]
  simp only [s5, s6, s7, s8, add_sub_cancel_left]

end

section

/-- The gradient theorem applied along the curve `a(t) = [2 + t, 2 + t]` with
`U = V = P = 1`, two rows and `J = 1`, all output gradients equal to one: the loss
`2 x + 1 / x + 1 / (x + 1)` at `x = 2 + t` has derivative `59 / 36` at `t = 0`. -/
theorem factor_grad_gradient_witness :
    HasDerivAt
      (fun t : ℝ => factorLoss 1 2 (fun _ => 1) (fun _ _ => 1) (fun _ _ => 1)
        (factor (fun _ _ => 1) (fun _ _ => 1) 1 2 (fun _ => 2 + t) (fun _ _ => 1)
          (fun _ _ => 0)).2)
      (59 / 36) 0 := by
  refine (factor_grad_gradient 1 2 (fun _ _ _ => 1) (fun _ _ _ => 1) (fun t _ => 2 + t)
    (fun _ _ _ => 1) (fun _ _ => 0) (fun _ _ => 0) (fun _ _ => 0) (fun _ => 1) (fun _ _ => 0)
    (fun _ => 1) (fun _ _ => 1) (fun _ _ => 1) (fun _ => 0) (fun _ _ => 0) (fun _ _ => 0)
    (fun _ _ => 0) (by decide) (by decide) (fun _ _ _ _ => hasDerivAt_const _ _)
    (fun _ _ _ _ => hasDerivAt_const _ _) (fun _ _ => (hasDerivAt_id _).const_add 2)
    (fun _ _ _ _ => hasDerivAt_const _ _) (by norm_num) (fun _ _ _ _ => one_ne_zero)
    (by norm_num [factor, factorLoop, factorPivot, factorRowW, factorInit,
      rowTimes])).congr_deriv ?_
  norm_num [factor_grad, loopDown, factorGradBody, factorGradInit, factorGradLast, factor,
    factorLoop, factorPivot, factorRowW, factorInit, rowTimes, dotV, dotM, sum_range_succ]

end

/-! ## The derivative of `solve` -/

section
variable {α : Type} [Field α]

theorem loopUp_solveFwdPair_fst (U P W dU dP dW : Mat α) (J k : ℕ)
    (p : SolveBuf α × SolveBuf α) :
    (loopUp (solveFwdPair U P W dU dP dW J) 1 k p).1 = loopUp (solveFwd U P W J) 1 k p.1 := by
  induction k with
  | zero => rfl
  | succ k ih => rw [loopUp_succ, loopUp_succ, ← ih]; rfl

theorem loopDown_solveBwdPair_fst (U P W dU dP dW : Mat α) (J k : ℕ)
    (p : SolveBuf α × SolveBuf α) :
    (loopDown (solveBwdPair U P W dU dP dW J) 0 k p).1 = loopDown (solveBwd U P W J) 0 k p.1 := by
  induction k generalizing p with
  | zero => rfl
  | succ k ih => rw [loopDown_succ, loopDown_succ, ih]; rfl

/-- The first component of the last stage is the result of `solve`. -/
theorem solveStage3_fst (U P : Mat α) (d : Vec α) (W dU dP : Mat α) (dd : Vec α) (dW : Mat α)
    (J N : ℕ) (Y dY F0 G0 : Mat α) :
    (solveStage3 U P d W dU dP dd dW J N Y dY).1 = solve U P d W J N Y F0 G0 := by
  simp only [solveStage3, solveStage2, solveStage1, loopDown_solveBwdPair_fst,
    loopUp_solveFwdPair_fst, solve]

end

section

theorem solveFwd_deriv (J N Nrhs n : ℕ) (U P W : ℝ → Mat ℝ) (dU dP dW : Mat ℝ)
    (st : ℝ → SolveBuf ℝ) (st' : SolveBuf ℝ) (hn1 : 1 ≤ n) (hn : n < N)
    (hU : ∀ i c, i < N → c < J → HasDerivAt (fun t => U t i c) (dU i c) 0)
    (hP : ∀ i c, i + 1 < N → c < J → HasDerivAt (fun t => P t i c) (dP i c) 0)
    (hW : ∀ i c, i < N → c < J → HasDerivAt (fun t => W t i c) (dW i c) 0)
    (h : SolveBufDeriv J N Nrhs st st') :
    SolveBufDeriv J N Nrhs (fun t => solveFwd (U t) (P t) (W t) J n (st t))
      (solveFwdTan (U 0) (P 0) (W 0) dU dP dW J n (st 0) st') := by
  obtain ⟨hZ, hF, hG⟩ := h
  have hF2 : ∀ c r, c < J → r < Nrhs →
      HasDerivAt (fun t => (solveFwd (U t) (P t) (W t) J n (st t)).F c r)
        ((solveFwdTan (U 0) (P 0) (W 0) dU dP dW J n (st 0) st').F c r) 0 := by
    intro c r hc hr
    simp only [solveFwd, solveFwdTan]
    exact (hP (n - 1) c (by omega) hc).mul
      ((hF c r hc hr).add ((hW (n - 1) c (by omega) hc).mul (hZ (n - 1) r (by omega) hr)))
  refine ⟨fun i r hi hr => ?_, hF2, hG⟩
  simp only [solveFwd, solveFwdTan]
  split_ifs with hin
  · refine (hZ n r hn hr).sub (HasDerivAt.sum fun c hc => ?_)
    have hc' : c < J := mem_range.mp hc
    have := hF2 c r hc' hr
    simp only [solveFwd, solveFwdTan] at this
    exact (hU n c hn hc').mul this
  · exact hZ i r hi hr

theorem solveBwd_deriv (J N Nrhs n : ℕ) (U P W : ℝ → Mat ℝ) (dU dP dW : Mat ℝ)
    (st : ℝ → SolveBuf ℝ) (st' : SolveBuf ℝ) (hn : n + 1 < N)
    (hU : ∀ i c, i < N → c < J → HasDerivAt (fun t => U t i c) (dU i c) 0)
    (hP : ∀ i c, i + 1 < N → c < J → HasDerivAt (fun t => P t i c) (dP i c) 0)
    (hW : ∀ i c, i < N → c < J → HasDerivAt (fun t => W t i c) (dW i c) 0)
    (h : SolveBufDeriv J N Nrhs st st') :
    SolveBufDeriv J N Nrhs (fun t => solveBwd (U t) (P t) (W t) J n (st t))
      (solveBwdTan (U 0) (P 0) (W 0) dU dP dW J n (st 0) st') := by
  obtain ⟨hZ, hF, hG⟩ := h
  have hG2 : ∀ c r, c < J → r < Nrhs →
      HasDerivAt (fun t => (solveBwd (U t) (P t) (W t) J n (st t)).G c r)
        ((solveBwdTan (U 0) (P 0) (W 0) dU dP dW J n (st 0) st').G c r) 0 := by
    intro c r hc hr
    simp only [solveBwd, solveBwdTan]
    exact (hP n c hn hc).mul
      ((hG c r hc hr).add ((hU (n + 1) c hn hc).mul (hZ (n + 1) r hn hr)))
  refine ⟨fun i r hi hr => ?_, hF, hG2⟩
  simp only [solveBwd, solveBwdTan]
  split_ifs with hin
  · refine (hZ n r (by omega) hr).sub (HasDerivAt.sum fun c hc => ?_)
    have hc' : c < J := mem_range.mp hc
    have := hG2 c r hc' hr
    simp only [solveBwd, solveBwdTan] at this
    exact (hW n c (by omega) hc').mul this
  · exact hZ i r hi hr

theorem solveScale_deriv (J N Nrhs : ℕ) (d : ℝ → Vec ℝ) (dd : Vec ℝ)
    (st : ℝ → SolveBuf ℝ) (st' : SolveBuf ℝ)
    (hd : ∀ i, i < N → HasDerivAt (fun t => d t i) (dd i) 0)
    (hd0 : ∀ i, i < N → d 0 i ≠ 0)
    (h : SolveBufDeriv J N Nrhs st st') :
    SolveBufDeriv J N Nrhs (fun t => solveScale (d t) (st t))
      (solveScaleTan (d 0) dd (st 0) st') := by
  obtain ⟨hZ, hF, hG⟩ := h
  exact ⟨fun i r hi hr => (hZ i r hi hr).div (hd i hi) (hd0 i hi), hF, hG⟩

/-- Along a differentiable curve of inputs the buffers of `solve` are differentiable at
parameter 0 as long as the pivots are non-zero there, with derivative `solveStage3`. -/
theorem solve_deriv (J N Nrhs : ℕ) (U P W : ℝ → Mat ℝ) (d : ℝ → Vec ℝ) (Y : ℝ → Mat ℝ)
    (F0 G0 : Mat ℝ) (dU dP dW : Mat ℝ) (dd : Vec ℝ) (dY : Mat ℝ)
    (hU : ∀ i c, i < N → c < J → HasDerivAt (fun t => U t i c) (dU i c) 0)
    (hP : ∀ i c, i + 1 < N → c < J → HasDerivAt (fun t => P t i c) (dP i c) 0)
    (hW : ∀ i c, i < N → c < J → HasDerivAt (fun t => W t i c) (dW i c) 0)
    (hd : ∀ i, i < N → HasDerivAt (fun t => d t i) (dd i) 0)
    (hY : ∀ i r, i < N → r < Nrhs → HasDerivAt (fun t => Y t i r) (dY i r) 0)
    (hd0 : ∀ i, i < N → d 0 i ≠ 0) :
    SolveBufDeriv J N Nrhs (fun t => solve (U t) (P t) (d t) (W t) J N (Y t) F0 G0)
      (solveStage3 (U 0) (P 0) (d 0) (W 0) dU dP dd dW J N (Y 0) dY).2 := by
  have h0 : SolveBufDeriv J N Nrhs
      (fun t => ({ Z := Y t, F := fun _ _ => 0, G := fun _ _ => 0 } : SolveBuf ℝ))
      { Z := dY, F := fun _ _ => 0, G := fun _ _ => 0 } :=
    ⟨hY, fun _ _ _ _ => hasDerivAt_const _ _, fun _ _ _ _ => hasDerivAt_const _ _⟩
  have h1 : ∀ k, k < N → ∀ (st : ℝ → SolveBuf ℝ) (st' : SolveBuf ℝ),
      SolveBufDeriv J N Nrhs st st' →
      SolveBufDeriv J N Nrhs (fun t => loopUp (solveFwd (U t) (P t) (W t) J) 1 k (st t))
        (loopUp (solveFwdPair (U 0) (P 0) (W 0) dU dP dW J) 1 k (st 0, st')).2 := by
    intro k
    induction k with
    | zero => intro _ st st' h; exact h
    | succ k ih =>
      intro hk st st' h
      have := solveFwd_deriv J N Nrhs (1 + k) U P W dU dP dW _ _ (by omega) (by omega) hU hP hW
        (ih (by omega) st st' h)
      simp only [loopUp_succ, solveFwdPair, loopUp_solveFwdPair_fst]
      exact this
  have h3 : ∀ k, k < N → ∀ (st : ℝ → SolveBuf ℝ) (st' : SolveBuf ℝ),
      SolveBufDeriv J N Nrhs st st' →
      SolveBufDeriv J N Nrhs (fun t => loopDown (solveBwd (U t) (P t) (W t) J) 0 k (st t))
        (loopDown (solveBwdPair (U 0) (P 0) (W 0) dU dP dW J) 0 k (st 0, st')).2 := by
    intro k
    induction k with
    | zero => intro _ st st' h; exact h
    | succ k ih =>
      intro hk st st' h
      have := solveBwd_deriv J N Nrhs k U P W dU dP dW _ _ (by omega) hU hP hW h
      have := ih (by omega) _ _ this
      simp only [loopDown_succ, solveBwdPair, Nat.zero_add]
      exact this
  rcases Nat.eq_zero_or_pos N with rfl | hN
  · exact ⟨fun i r hi _ => absurd hi (by omega), fun _ _ _ _ => hasDerivAt_const _ _,
      fun _ _ _ _ => hasDerivAt_const _ _⟩
  · have s1 := h1 (N - 1) (by omega) _ _ h0
    have s2 := solveScale_deriv J N Nrhs d dd _ _ hd hd0 s1
    have s3 := h3 (N - 1) (by omega) _ _ s2
    simp only [solveStage3, solveStage2, solveStage1]
    simp only [loopUp_solveFwdPair_fst]
    exact s3

end

/-! ## The reverse loops of `solve_grad` -/

section
variable {α : Type} [Field α]

/-- One pass of the first loop of `solve_grad` undoes one pass of the backward sweep and
transposes its derivative. -/
theorem solveGrad_step1 (U P W dU dP : Mat α) (dd : Vec α) (dW : Mat α) (J N Nrhs n : ℕ)
    (hn : n + 1 < N) (hP : ∀ c, c < J → P n c ≠ 0) (s : SolveGradState α) (t t' : SolveBuf α)
    (hG : ∀ c r, c < J → r < Nrhs → s.G_ c r = (solveBwd U P W J n t).G c r)
    (hZ : ∀ i r, i < N → r < Nrhs → s.Z_ i r = (solveBwd U P W J n t).Z i r) :
    (∀ c r, c < J → r < Nrhs → (solveGradBody1 U P W J Nrhs n s).G_ c r = t.G c r) ∧
    (∀ i r, i < N → r < Nrhs → (solveGradBody1 U P W J Nrhs n s).Z_ i r = t.Z i r) ∧
    solveGradPairing J N Nrhs dU dP dd dW (solveGradBody1 U P W J Nrhs n s) t' =
      solveGradPairing J N Nrhs dU dP dd dW s (solveBwdTan U P W dU dP dW J n t t') := by
  have hZ1 : ∀ r, r < Nrhs → s.Z_ (n + 1) r = t.Z (n + 1) r := by
    intro r hr
    rw [hZ (n + 1) r hn hr]
    simp [solveBwd]
  have hG' : ∀ c r, c < J → r < Nrhs →
      s.G_ c r = P n c * (t.G c r + U (n + 1) c * t.Z (n + 1) r) :=
    fun c r hc hr => hG c r hc hr
  have hZn : ∀ r, r < Nrhs → s.Z_ n r =
      t.Z n r - ∑ c in range J, W n c * (P n c * (t.G c r + U (n + 1) c * t.Z (n + 1) r)) := by
    intro r hr
    rw [hZ n r (by omega) hr]
    simp [solveBwd]
  refine ⟨fun c r hc hr => ?_, fun i r hi hr => ?_, ?_⟩
  · simp only [solveGradBody1, if_neg (Nat.succ_ne_self n), hG' c r hc hr, hZ1 r hr]
    field_simp [hP c hc]
  · simp only [solveGradBody1]
    split_ifs with hin
    · subst hin
      have e : ∑ c in range J, W i c * s.G_ c r =
          ∑ c in range J, W i c * (P i c * (t.G c r + U (i + 1) c * t.Z (i + 1) r)) :=
        sum_congr rfl fun c hc => by rw [hG' c r (mem_range.mp hc) hr]
      rw [hZn r hr, e]
      ring
    · rw [hZ i r hi hr]
      simp [solveBwd, hin]
  · simp only [solveGradPairing, solvePairing, solveGradBody1, solveBwdTan,
      if_neg (Nat.succ_ne_self n)]
    rw [dotM_row_set_left N Nrhs (n + 1) hn, dotM_row_set_right N Nrhs n (by omega),
      dotM_row_set_left N J (n + 1) hn, dotM_row_set_left (N - 1) J n (by omega),
      dotM_row_set_left N J n (by omega)]
    simp only [add_sub_cancel_left, sub_sub_cancel_left]
    have e1 : ∀ c ∈ range J, ∑ r in range Nrhs,
        s.Z_ (n + 1) r * (P n c * (s.bG_ c r - W n c * s.bY n r)) =
        ∑ r in range Nrhs, t.Z (n + 1) r * (P n c * (s.bG_ c r - W n c * s.bY n r)) :=
      fun c _ => sum_congr rfl fun r hr => by rw [hZ1 r (mem_range.mp hr)]
    have e2 : ∀ c ∈ range J, ∑ r in range Nrhs,
        (s.bG_ c r - W n c * s.bY n r) * ((P n c)⁻¹ * s.G_ c r) =
        ∑ r in range Nrhs,
          (s.bG_ c r - W n c * s.bY n r) * (t.G c r + U (n + 1) c * t.Z (n + 1) r) :=
      fun c hc => sum_congr rfl fun r hr => by
        rw [hG' c r (mem_range.mp hc) (mem_range.mp hr),
          inv_mul_cancel_left₀ (hP c (mem_range.mp hc))]
    have e3 : ∀ c ∈ range J, ∑ r in range Nrhs, s.bY n r * s.G_ c r =
        ∑ r in range Nrhs, s.bY n r * (P n c * (t.G c r + U (n + 1) c * t.Z (n + 1) r)) :=
      fun c hc => sum_congr rfl fun r hr => by
        rw [hG' c r (mem_range.mp hc) (mem_range.mp hr)]
    have E1 : ∑ c in range J, (∑ r in range Nrhs,
        s.Z_ (n + 1) r * (P n c * (s.bG_ c r - W n c * s.bY n r))) * dU (n + 1) c =
        ∑ c in range J, (∑ r in range Nrhs,
          t.Z (n + 1) r * (P n c * (s.bG_ c r - W n c * s.bY n r))) * dU (n + 1) c :=
      sum_congr rfl fun c hc => by rw [e1 c hc]
    have E2 : ∑ c in range J, (∑ r in range Nrhs,
        (s.bG_ c r - W n c * s.bY n r) * ((P n c)⁻¹ * s.G_ c r)) * dP n c =
        ∑ c in range J, (∑ r in range Nrhs,
          (s.bG_ c r - W n c * s.bY n r) * (t.G c r + U (n + 1) c * t.Z (n + 1) r)) *
            dP n c :=
      sum_congr rfl fun c hc => by rw [e2 c hc]
    have E3 : ∑ c in range J, (-∑ r in range Nrhs, s.bY n r * s.G_ c r) * dW n c =
        ∑ c in range J, (-∑ r in range Nrhs,
          s.bY n r * (P n c * (t.G c r + U (n + 1) c * t.Z (n + 1) r))) * dW n c :=
      sum_congr rfl fun c hc => by rw [e3 c hc]
    rw [E1, E2, E3]
    simp only [dotM, mul_neg, neg_mul, sum_neg_distrib, sum_sum_mul_row Nrhs J,
      sum_row_mul_sum Nrhs J]
    simp only [sum_mul]
    have key : ∑ c in range J, ∑ r in range Nrhs,
          U (n + 1) c * (P n c * (s.bG_ c r - W n c * s.bY n r)) * t'.Z (n + 1) r +
        ∑ c in range J, ∑ r in range Nrhs, P n c * (s.bG_ c r - W n c * s.bY n r) * t'.G c r +
        ∑ c in range J, ∑ r in range Nrhs,
          t.Z (n + 1) r * (P n c * (s.bG_ c r - W n c * s.bY n r)) * dU (n + 1) c +
        ∑ c in range J, ∑ r in range Nrhs,
          (s.bG_ c r - W n c * s.bY n r) * (t.G c r + U (n + 1) c * t.Z (n + 1) r) * dP n c -
        ∑ c in range J, ∑ r in range Nrhs,
          s.bY n r * (P n c * (t.G c r + U (n + 1) c * t.Z (n + 1) r)) * dW n c =
        -∑ c in range J, ∑ r in range Nrhs, s.bY n r *
          (dW n c * (P n c * (t.G c r + U (n + 1) c * t.Z (n + 1) r)) +
            W n c * (dP n c * (t.G c r + U (n + 1) c * t.Z (n + 1) r) +
              P n c * (t'.G c r + (dU (n + 1) c * t.Z (n + 1) r +
                U (n + 1) c * t'.Z (n + 1) r)))) +
        ∑ c in range J, ∑ r in range Nrhs, s.bG_ c r *
          (dP n c * (t.G c r + U (n + 1) c * t.Z (n + 1) r) +
            P n c * (t'.G c r + (dU (n + 1) c * t.Z (n + 1) r +
              U (n + 1) c * t'.Z (n + 1) r))) := by
      simp only [← sum_neg_distrib, ← sum_add_distrib, ← sum_sub_distrib]
      exact sum_congr rfl fun c _ => sum_congr rfl fun r _ => by ring
    linear_combination key

/-- The middle of `solve_grad` undoes the division by the pivots and transposes its
derivative. -/
theorem solveGrad_stepMid (dU dP : Mat α) (d dd : Vec α) (dW : Mat α) (J N Nrhs : ℕ)
    (hN : 1 ≤ N) (hd : ∀ i, i < N → d i ≠ 0) (s : SolveGradState α) (t t' : SolveBuf α)
    (hZ : ∀ i r, i < N → r < Nrhs → s.Z_ i r = (solveScale d t).Z i r)
    (hbW : ∀ c, c < J → s.bW (N - 1) c = 0) :
    (∀ i r, i < N → r < Nrhs → (solveGradMid d N Nrhs s).Z_ i r = t.Z i r) ∧
    solveGradPairing J N Nrhs dU dP dd dW (solveGradMid d N Nrhs s) t' =
      solveGradPairing J N Nrhs dU dP dd dW s (solveScaleTan d dd t t') := by
  have hZ' : ∀ i r, i < N → r < Nrhs → s.Z_ i r = t.Z i r / d i := hZ
  refine ⟨fun i r hi hr => ?_, ?_⟩
  · simp only [solveGradMid, hZ' i r hi hr]
    field_simp [hd i hi]
  · have ebW : dotM N J (solveGradMid d N Nrhs s).bW dW = dotM N J s.bW dW := by
      simp only [solveGradMid]
      rw [dotM_row_set_left N J (N - 1) (by omega)]
      rw [sum_eq_zero fun c hc => by rw [hbW c (mem_range.mp hc)]; ring, add_zero]
    have ebd : dotV N (solveGradMid d N Nrhs s).bd dd =
        dotV N s.bd dd - ∑ i in range N, ∑ r in range Nrhs,
          t.Z i r / d i * (s.bY i r / d i) * dd i := by
      simp only [solveGradMid, dotV]
      rw [← sum_sub_distrib]
      refine sum_congr rfl fun i hi => ?_
      rw [sub_mul, sum_mul]
      congr 1
      exact sum_congr rfl fun r hr => by rw [hZ' i r (mem_range.mp hi) (mem_range.mp hr)]
    have eZ : dotM N Nrhs s.bY (solveScaleTan d dd t t').Z =
        dotM N Nrhs (solveGradMid d N Nrhs s).bY t'.Z - ∑ i in range N, ∑ r in range Nrhs,
          t.Z i r / d i * (s.bY i r / d i) * dd i := by
      simp only [solveGradMid, solveScaleTan, dotM]
      rw [← sum_sub_distrib]
      refine sum_congr rfl fun i hi => ?_
      rw [← sum_sub_distrib]
      refine sum_congr rfl fun r _ => ?_
      field_simp [hd i (mem_range.mp hi)]
      ring
    simp only [solveGradPairing, solvePairing]
    rw [ebW, ebd, eZ]
    simp only [solveGradMid, solveScaleTan]
    ring

/-- One pass of the second loop of `solve_grad` undoes one pass of the forward sweep and
transposes its derivative. -/
theorem solveGrad_step2 (U P W dU dP : Mat α) (dd : Vec α) (dW : Mat α) (J N Nrhs m : ℕ)
    (hm : m + 1 < N) (hP : ∀ c, c < J → P m c ≠ 0) (s : SolveGradState α) (t t' : SolveBuf α)
    (hF : ∀ c r, c < J → r < Nrhs → s.F_ c r = (solveFwd U P W J (m + 1) t).F c r)
    (hZ : ∀ i r, i ≤ m + 1 → r < Nrhs → s.Z_ i r = (solveFwd U P W J (m + 1) t).Z i r) :
    (∀ c r, c < J → r < Nrhs → (solveGradBody2 U P W J Nrhs (m + 1) s).F_ c r = t.F c r) ∧
    (∀ i r, i ≤ m → r < Nrhs → (solveGradBody2 U P W J Nrhs (m + 1) s).Z_ i r = t.Z i r) ∧
    solveGradPairing J N Nrhs dU dP dd dW (solveGradBody2 U P W J Nrhs (m + 1) s) t' =
      solveGradPairing J N Nrhs dU dP dd dW s (solveFwdTan U P W dU dP dW J (m + 1) t t') := by
  have hZ1 : ∀ i r, i ≤ m → r < Nrhs → s.Z_ i r = t.Z i r := by
    intro i r hi hr
    rw [hZ i r (by omega) hr]
    simp [solveFwd, show i ≠ m + 1 by omega]
  have hF' : ∀ c r, c < J → r < Nrhs →
      s.F_ c r = P m c * (t.F c r + W m c * t.Z m r) := by
    intro c r hc hr
    rw [hF c r hc hr]
    simp [solveFwd]
  refine ⟨fun c r hc hr => ?_, fun i r hi hr => hZ1 i r hi hr, ?_⟩
  · simp only [solveGradBody2, Nat.add_sub_cancel, hF' c r hc hr, hZ1 m r le_rfl hr]
    field_simp [hP c hc]
  · simp only [solveGradPairing, solvePairing, solveGradBody2, solveFwdTan, Nat.add_sub_cancel]
    rw [dotM_row_set_left N Nrhs m (by omega), dotM_row_set_right N Nrhs (m + 1) hm,
      dotM_row_set_left N J (m + 1) hm, dotM_row_set_left (N - 1) J m (by omega),
      dotM_row_set_left N J m (by omega)]
    simp only [add_sub_cancel_left, sub_sub_cancel_left]
    have e1 : ∀ c ∈ range J, ∑ r in range Nrhs, s.bY (m + 1) r * s.F_ c r =
        ∑ r in range Nrhs, s.bY (m + 1) r * (P m c * (t.F c r + W m c * t.Z m r)) :=
      fun c hc => sum_congr rfl fun r hr => by
        rw [hF' c r (mem_range.mp hc) (mem_range.mp hr)]
    have e2 : ∀ c ∈ range J, ∑ r in range Nrhs,
        (s.bF_ c r - U (m + 1) c * s.bY (m + 1) r) * ((P m c)⁻¹ * s.F_ c r) =
        ∑ r in range Nrhs,
          (s.bF_ c r - U (m + 1) c * s.bY (m + 1) r) * (t.F c r + W m c * t.Z m r) :=
      fun c hc => sum_congr rfl fun r hr => by
        rw [hF' c r (mem_range.mp hc) (mem_range.mp hr),
          inv_mul_cancel_left₀ (hP c (mem_range.mp hc))]
    have e3 : ∀ c ∈ range J, ∑ r in range Nrhs,
        s.Z_ m r * (P m c * (s.bF_ c r - U (m + 1) c * s.bY (m + 1) r)) =
        ∑ r in range Nrhs, t.Z m r * (P m c * (s.bF_ c r - U (m + 1) c * s.bY (m + 1) r)) :=
      fun c _ => sum_congr rfl fun r hr => by rw [hZ1 m r le_rfl (mem_range.mp hr)]
    have E1 : ∑ c in range J, (-∑ r in range Nrhs, s.bY (m + 1) r * s.F_ c r) * dU (m + 1) c =
        ∑ c in range J, (-∑ r in range Nrhs,
          s.bY (m + 1) r * (P m c * (t.F c r + W m c * t.Z m r))) * dU (m + 1) c :=
      sum_congr rfl fun c hc => by rw [e1 c hc]
    have E2 : ∑ c in range J, (∑ r in range Nrhs,
        (s.bF_ c r - U (m + 1) c * s.bY (m + 1) r) * ((P m c)⁻¹ * s.F_ c r)) * dP m c =
        ∑ c in range J, (∑ r in range Nrhs,
          (s.bF_ c r - U (m + 1) c * s.bY (m + 1) r) * (t.F c r + W m c * t.Z m r)) * dP m c :=
      sum_congr rfl fun c hc => by rw [e2 c hc]
    have E3 : ∑ c in range J, (∑ r in range Nrhs,
        s.Z_ m r * (P m c * (s.bF_ c r - U (m + 1) c * s.bY (m + 1) r))) * dW m c =
        ∑ c in range J, (∑ r in range Nrhs,
          t.Z m r * (P m c * (s.bF_ c r - U (m + 1) c * s.bY (m + 1) r))) * dW m c :=
      sum_congr rfl fun c hc => by rw [e3 c hc]
    rw [E1, E2, E3]
    simp only [dotM, mul_neg, neg_mul, sum_neg_distrib, sum_sum_mul_row Nrhs J,
      sum_row_mul_sum Nrhs J]
    simp only [sum_mul]
    have key : ∑ c in range J, ∑ r in range Nrhs,
          W m c * (P m c * (s.bF_ c r - U (m + 1) c * s.bY (m + 1) r)) * t'.Z m r +
        ∑ c in range J, ∑ r in range Nrhs,
          P m c * (s.bF_ c r - U (m + 1) c * s.bY (m + 1) r) * t'.F c r -
        ∑ c in range J, ∑ r in range Nrhs,
          s.bY (m + 1) r * (P m c * (t.F c r + W m c * t.Z m r)) * dU (m + 1) c +
        ∑ c in range J, ∑ r in range Nrhs,
          (s.bF_ c r - U (m + 1) c * s.bY (m + 1) r) * (t.F c r + W m c * t.Z m r) * dP m c +
        ∑ c in range J, ∑ r in range Nrhs,
          t.Z m r * (P m c * (s.bF_ c r - U (m + 1) c * s.bY (m + 1) r)) * dW m c =
        -∑ c in range J, ∑ r in range Nrhs, s.bY (m + 1) r *
          (dU (m + 1) c * (P m c * (t.F c r + W m c * t.Z m r)) +
            U (m + 1) c * (dP m c * (t.F c r + W m c * t.Z m r) +
              P m c * (t'.F c r + (dW m c * t.Z m r + W m c * t'.Z m r)))) +
        ∑ c in range J, ∑ r in range Nrhs, s.bF_ c r *
          (dP m c * (t.F c r + W m c * t.Z m r) +
            P m c * (t'.F c r + (dW m c * t.Z m r + W m c * t'.Z m r))) := by
      simp only [← sum_neg_distrib, ← sum_add_distrib, ← sum_sub_distrib]
      exact sum_congr rfl fun c _ => sum_congr rfl fun r _ => by ring
    linear_combination key

end

section
variable {α : Type} [Field α]

theorem loopUp_solveGradBody1_F (U P W : Mat α) (J Nrhs k : ℕ) (s : SolveGradState α) :
    (loopUp (solveGradBody1 U P W J Nrhs) 0 k s).F_ = s.F_ := by
  induction k with
  | zero => rfl
  | succ k ih => rw [loopUp_succ, ← ih]; rfl

/-- The first loop of `solve_grad` leaves the last row of `bW` alone. -/
theorem loopUp_solveGradBody1_bW (U P W : Mat α) (J N Nrhs k : ℕ) (hk : k ≤ N - 1)
    (s : SolveGradState α) (c : ℕ) :
    (loopUp (solveGradBody1 U P W J Nrhs) 0 k s).bW (N - 1) c = s.bW (N - 1) c := by
  induction k with
  | zero => rfl
  | succ k ih =>
    rw [loopUp_succ, ← ih (by omega), Nat.zero_add]
    simp [solveGradBody1, show N - 1 ≠ k by omega]

theorem loopDown_solveBwd_F (U P W : Mat α) (J k : ℕ) (t : SolveBuf α) :
    (loopDown (solveBwd U P W J) 0 k t).F = t.F := by
  induction k generalizing t with
  | zero => rfl
  | succ k ih => rw [loopDown_succ, ih]; rfl

/-- The first loop of `solve_grad` undoes the backward sweep and transposes its derivative. -/
theorem solveGrad_loop1 (U P W dU dP : Mat α) (dd : Vec α) (dW : Mat α) (J N Nrhs : ℕ)
    (hP : ∀ n c, n + 1 < N → c < J → P n c ≠ 0) (K : ℕ) (hK : K ≤ N - 1)
    (s : SolveGradState α) (q : SolveBuf α × SolveBuf α)
    (hG : ∀ c r, c < J → r < Nrhs →
      s.G_ c r = (loopDown (solveBwdPair U P W dU dP dW J) 0 K q).1.G c r)
    (hZ : ∀ i r, i < N → r < Nrhs →
      s.Z_ i r = (loopDown (solveBwdPair U P W dU dP dW J) 0 K q).1.Z i r) :
    (∀ i r, i < N → r < Nrhs →
      (loopUp (solveGradBody1 U P W J Nrhs) 0 K s).Z_ i r = q.1.Z i r) ∧
    solveGradPairing J N Nrhs dU dP dd dW (loopUp (solveGradBody1 U P W J Nrhs) 0 K s) q.2 =
      solveGradPairing J N Nrhs dU dP dd dW s
        (loopDown (solveBwdPair U P W dU dP dW J) 0 K q).2 := by
  suffices h : (∀ c r, c < J → r < Nrhs →
      (loopUp (solveGradBody1 U P W J Nrhs) 0 K s).G_ c r = q.1.G c r) ∧
      (∀ i r, i < N → r < Nrhs →
        (loopUp (solveGradBody1 U P W J Nrhs) 0 K s).Z_ i r = q.1.Z i r) ∧
      solveGradPairing J N Nrhs dU dP dd dW (loopUp (solveGradBody1 U P W J Nrhs) 0 K s) q.2 =
        solveGradPairing J N Nrhs dU dP dd dW s
          (loopDown (solveBwdPair U P W dU dP dW J) 0 K q).2 from h.2
  induction K generalizing q with
  | zero => exact ⟨hG, hZ, rfl⟩
  | succ K ih =>
    rw [loopDown_succ, Nat.zero_add] at hG hZ
    obtain ⟨h1, h2, h3⟩ := ih (by omega) (solveBwdPair U P W dU dP dW J K q) hG hZ
    obtain ⟨g1, g2, g3⟩ := solveGrad_step1 U P W dU dP dd dW J N Nrhs K (by omega)
      (fun c hc => hP K c (by omega) hc) (loopUp (solveGradBody1 U P W J Nrhs) 0 K s)
      q.1 q.2 h1 h2
    rw [loopUp_succ, loopDown_succ, Nat.zero_add]
    exact ⟨g1, g2, g3.trans h3⟩

/-- The second loop of `solve_grad` transposes the derivative of the forward sweep. -/
theorem solveGrad_loop2 (U P W dU dP : Mat α) (dd : Vec α) (dW : Mat α) (J N Nrhs : ℕ)
    (hP : ∀ n c, n + 1 < N → c < J → P n c ≠ 0) (K : ℕ) (hK : K ≤ N - 1)
    (s : SolveGradState α) (q : SolveBuf α × SolveBuf α)
    (hF : ∀ c r, c < J → r < Nrhs →
      s.F_ c r = (loopUp (solveFwdPair U P W dU dP dW J) 1 K q).1.F c r)
    (hZ : ∀ i r, i ≤ K → r < Nrhs →
      s.Z_ i r = (loopUp (solveFwdPair U P W dU dP dW J) 1 K q).1.Z i r) :
    solveGradPairing J N Nrhs dU dP dd dW (loopDown (solveGradBody2 U P W J Nrhs) 1 K s) q.2 =
      solveGradPairing J N Nrhs dU dP dd dW s
        (loopUp (solveFwdPair U P W dU dP dW J) 1 K q).2 := by
  induction K generalizing s with
  | zero => rfl
  | succ K ih =>
    rw [loopUp_succ, Nat.add_comm 1 K] at hF hZ
    obtain ⟨g1, g2, g3⟩ := solveGrad_step2 U P W dU dP dd dW J N Nrhs K (by omega)
      (fun c hc => hP K c (by omega) hc) s
      (loopUp (solveFwdPair U P W dU dP dW J) 1 K q).1
      (loopUp (solveFwdPair U P W dU dP dW J) 1 K q).2 hF hZ
    rw [loopUp_succ, loopDown_succ, Nat.add_comm 1 K, ih (by omega) _ g1 g2]
    exact g3

/-- The adjoint identity of `solve_grad`: on zero buffers it returns the vectors whose pairing
with any direction is the loss of the derivative of `solve` in that direction. -/
theorem solve_grad_adjoint (U P : Mat α) (d : Vec α) (W dU dP : Mat α) (dd : Vec α)
    (dW : Mat α) (J N Nrhs : ℕ) (Y dY bZ bF bG F0 G0 bY0 : Mat α) (hN : 1 ≤ N)
    (hd : ∀ i, i < N → d i ≠ 0) (hP : ∀ n c, n + 1 < N → c < J → P n c ≠ 0) :
    solveLoss J N Nrhs bZ bF bG (solveStage3 U P d W dU dP dd dW J N Y dY).2 =
      solveGradPairing J N Nrhs dU dP dd dW
        (solve_grad U P d W (solve U P d W J N Y F0 G0).Z (solve U P d W J N Y F0 G0).F
          (solve U P d W J N Y F0 G0).G bZ bF bG J N Nrhs (fun _ _ => 0) (fun _ _ => 0)
          (fun _ => 0) (fun _ _ => 0) bY0)
        { Z := dY, F := fun _ _ => 0, G := fun _ _ => 0 } := by
  obtain ⟨s0, hs0⟩ : ∃ s0, s0 = solveGradInit (solve U P d W J N Y F0 G0).Z
      (solve U P d W J N Y F0 G0).F (solve U P d W J N Y F0 G0).G bZ bF bG
      (fun _ _ => 0) (fun _ _ => 0) (fun _ => 0) (fun _ _ => 0) := ⟨_, rfl⟩
  have hout := solveStage3_fst U P d W dU dP dd dW J N Y dY F0 G0
  have e0 : solveLoss J N Nrhs bZ bF bG (solveStage3 U P d W dU dP dd dW J N Y dY).2 =
      solveGradPairing J N Nrhs dU dP dd dW s0 (solveStage3 U P d W dU dP dd dW J N Y dY).2 := by
    rw [hs0]
    simp [solveLoss, solveGradPairing, solvePairing, solveGradInit, dotM, dotV]
  obtain ⟨hZ1, hp1⟩ := solveGrad_loop1 U P W dU dP dd dW J N Nrhs hP (N - 1) le_rfl s0
    (solveStage2 U P d W dU dP dd dW J N Y dY)
    (fun c r _ _ => by
      show s0.G_ c r = (solveStage3 U P d W dU dP dd dW J N Y dY).1.G c r
      rw [hout, hs0]; rfl)
    (fun i r _ _ => by
      show s0.Z_ i r = (solveStage3 U P d W dU dP dd dW J N Y dY).1.Z i r
      rw [hout, hs0]; rfl)
  obtain ⟨hZ2, hp2⟩ := solveGrad_stepMid dU dP d dd dW J N Nrhs hN hd
    (loopUp (solveGradBody1 U P W J Nrhs) 0 (N - 1) s0)
    (solveStage1 U P W dU dP dW J N Y dY).1 (solveStage1 U P W dU dP dW J N Y dY).2 hZ1
    (fun c _ => by
      rw [loopUp_solveGradBody1_bW U P W J N Nrhs (N - 1) le_rfl, hs0]
      simp [solveGradInit])
  have hF3 : ∀ c r, c < J → r < Nrhs →
      (solveGradMid d N Nrhs (loopUp (solveGradBody1 U P W J Nrhs) 0 (N - 1) s0)).F_ c r =
        (solveStage1 U P W dU dP dW J N Y dY).1.F c r := by
    intro c r _ _
    have e1 : (solveGradMid d N Nrhs (loopUp (solveGradBody1 U P W J Nrhs) 0 (N - 1) s0)).F_ =
        (loopUp (solveGradBody1 U P W J Nrhs) 0 (N - 1) s0).F_ := rfl
    have e2 : (solveStage3 U P d W dU dP dd dW J N Y dY).1.F =
        (solveStage1 U P W dU dP dW J N Y dY).1.F := by
      simp only [solveStage3, solveStage2, loopDown_solveBwdPair_fst, loopDown_solveBwd_F]
      rfl
    rw [e1, loopUp_solveGradBody1_F, ← e2, hout, hs0]
    rfl
  have hp3 := solveGrad_loop2 U P W dU dP dd dW J N Nrhs hP (N - 1) le_rfl
    (solveGradMid d N Nrhs (loopUp (solveGradBody1 U P W J Nrhs) 0 (N - 1) s0))
    ({ Z := Y, F := fun _ _ => 0, G := fun _ _ => 0 },
      { Z := dY, F := fun _ _ => 0, G := fun _ _ => 0 })
    hF3 (fun i r hi hr => hZ2 i r (by omega) hr)
  rw [e0]
  refine hp1.symm.trans (hp2.symm.trans (hp3.symm.trans ?_))
  rw [hs0]
  rfl

end

/-! ## `solve_grad` computes the gradient of `solve` -/

section

/-- The loss of a differentiable curve of buffers of `solve` is differentiable. -/
theorem solveLoss_deriv (J N Nrhs : ℕ) (bZ bF bG : Mat ℝ) (st : ℝ → SolveBuf ℝ)
    (st' : SolveBuf ℝ) (h : SolveBufDeriv J N Nrhs st st') :
    HasDerivAt (fun t => solveLoss J N Nrhs bZ bF bG (st t))
      (solveLoss J N Nrhs bZ bF bG st') 0 := by
  obtain ⟨hZ, hF, hG⟩ := h
  simp only [solveLoss, dotM]
  refine ((HasDerivAt.sum fun i hi => ?_).add (HasDerivAt.sum fun c hc => ?_)).add
    (HasDerivAt.sum fun c hc => ?_)
  · exact HasDerivAt.sum fun r hr =>
      (hZ i r (mem_range.mp hi) (mem_range.mp hr)).const_mul (bZ i r)
  · exact HasDerivAt.sum fun r hr =>
      (hF c r (mem_range.mp hc) (mem_range.mp hr)).const_mul (bF c r)
  · exact HasDerivAt.sum fun r hr =>
      (hG c r (mem_range.mp hc) (mem_range.mp hr)).const_mul (bG c r)

/-- C7: over the reals, for `N >= 1`, `J >= 1`, `Nrhs >= 1`, at a point `(U, P, d, W)` with all
`d` and all `P` entries non-zero, a right-hand side `Y`, `(Z, F, G)` the outputs of `solve`,
every `(bZ, bF, bG)` and zero-initialised buffers `bU`, `bP`, `bd`, `bW`: along every
differentiable curve of `(U, P, d, W)` through that point, with velocity `(dU, dP, dd, dW)`,
the scalar `<bZ, Z> + <bF, F> + <bG, G>` of the outputs of `solve` has at the point the
derivative `<bU, dU> + <bP, dP> + <bd, dd> + <bW, dW>` for the buffers left by `solve_grad`:
the buffers are the gradient of the scalar. -/
theorem solve_grad_gradient (J N Nrhs : ℕ) (U P W : ℝ → Mat ℝ) (d : ℝ → Vec ℝ)
    (Y F0 G0 : Mat ℝ) (dU dP dW : Mat ℝ) (dd : Vec ℝ) (bZ bF bG bY0 : Mat ℝ)
    (hN : 1 ≤ N) (_hJ : 1 ≤ J) (_hR : 1 ≤ Nrhs)
    (hU : ∀ i c, i < N → c < J → HasDerivAt (fun t => U t i c) (dU i c) 0)
    (hP : ∀ i c, i + 1 < N → c < J → HasDerivAt (fun t => P t i c) (dP i c) 0)
    (hW : ∀ i c, i < N → c < J → HasDerivAt (fun t => W t i c) (dW i c) 0)
    (hd : ∀ i, i < N → HasDerivAt (fun t => d t i) (dd i) 0)
    (hd0 : ∀ i, i < N → d 0 i ≠ 0) (hP0 : ∀ n c, n + 1 < N → c < J → P 0 n c ≠ 0) :
    HasDerivAt
      (fun t => solveLoss J N Nrhs bZ bF bG (solve (U t) (P t) (d t) (W t) J N Y F0 G0))
      (dotM N J
          (solve_grad (U 0) (P 0) (d 0) (W 0) (solve (U 0) (P 0) (d 0) (W 0) J N Y F0 G0).Z
            (solve (U 0) (P 0) (d 0) (W 0) J N Y F0 G0).F
            (solve (U 0) (P 0) (d 0) (W 0) J N Y F0 G0).G bZ bF bG J N Nrhs
            (fun _ _ => 0) (fun _ _ => 0) (fun _ => 0) (fun _ _ => 0) bY0).bU dU +
        dotM (N - 1) J
          (solve_grad (U 0) (P 0) (d 0) (W 0) (solve (U 0) (P 0) (d 0) (W 0) J N Y F0 G0).Z
            (solve (U 0) (P 0) (d 0) (W 0) J N Y F0 G0).F
            (solve (U 0) (P 0) (d 0) (W 0) J N Y F0 G0).G bZ bF bG J N Nrhs
            (fun _ _ => 0) (fun _ _ => 0) (fun _ => 0) (fun _ _ => 0) bY0).bP dP +
        dotV N
          (solve_grad (U 0) (P 0) (d 0) (W 0) (solve (U 0) (P 0) (d 0) (W 0) J N Y F0 G0).Z
            (solve (U 0) (P 0) (d 0) (W 0) J N Y F0 G0).F
            (solve (U 0) (P 0) (d 0) (W 0) J N Y F0 G0).G bZ bF bG J N Nrhs
            (fun _ _ => 0) (fun _ _ => 0) (fun _ => 0) (fun _ _ => 0) bY0).bd dd +
        dotM N J
          (solve_grad (U 0) (P 0) (d 0) (W 0) (solve (U 0) (P 0) (d 0) (W 0) J N Y F0 G0).Z
            (solve (U 0) (P 0) (d 0) (W 0) J N Y F0 G0).F
            (solve (U 0) (P 0) (d 0) (W 0) J N Y F0 G0).G bZ bF bG J N Nrhs
            (fun _ _ => 0) (fun _ _ => 0) (fun _ => 0) (fun _ _ => 0) bY0).bW dW) 0 := by
  have hder := solve_deriv J N Nrhs U P W d (fun _ => Y) F0 G0 dU dP dW dd (fun _ _ => 0)
    hU hP hW hd (fun _ _ _ _ => hasDerivAt_const _ _) hd0
  refine (solveLoss_deriv J N Nrhs bZ bF bG _ _ hder).congr_deriv ?_
  rw [solve_grad_adjoint (U 0) (P 0) (d 0) (W 0) dU dP dd dW J N Nrhs Y (fun _ _ => 0)
    bZ bF bG F0 G0 bY0 hN hd0 hP0]
  simp [solveGradPairing, solvePairing, dotM]

/-- The gradient theorem applied along the curve `d(t) = [2 + t, 3 + t]` with
`U = P = W = 1`, `Y = [1, 2]`, two rows, `J = 1`, one right-hand side and all output
gradients equal to one: the loss `1 / x + 1 + 1 / (x + 1)` at `x = 2 + t` has derivative
`-13 / 36` at `t = 0`. -/
theorem solve_grad_gradient_witness :
    HasDerivAt
      (fun t : ℝ => solveLoss 1 2 1 (fun _ _ => 1) (fun _ _ => 1) (fun _ _ => 1)
        (solve (fun _ _ => 1) (fun _ _ => 1) (fun i => 2 + (i : ℝ) + t) (fun _ _ => 1) 1 2
          (fun i _ => (i : ℝ) + 1) (fun _ _ => 0) (fun _ _ => 0)))
      (-13 / 36) 0 := by
  refine (solve_grad_gradient 1 2 1 (fun _ _ _ => 1) (fun _ _ _ => 1) (fun _ _ _ => 1)
    (fun t i => 2 + (i : ℝ) + t) (fun i _ => (i : ℝ) + 1) (fun _ _ => 0) (fun _ _ => 0)
    (fun _ _ => 0) (fun _ _ => 0) (fun _ _ => 0) (fun _ => 1) (fun _ _ => 1) (fun _ _ => 1)
    (fun _ _ => 1) (fun _ _ => 0) (by decide) (by decide) (by decide)
    (fun _ _ _ _ => hasDerivAt_const _ _) (fun _ _ _ _ => hasDerivAt_const _ _)
    (fun _ _ _ _ => hasDerivAt_const _ _) (fun i _ => (hasDerivAt_id _).const_add (2 + (i : ℝ)))
    (fun i _ => by positivity) (fun _ _ _ _ => one_ne_zero)).congr_deriv ?_
  norm_num [solve_grad, solve, loopUp, loopDown, solveGradInit, solveGradBody1, solveGradMid,
    solveGradBody2, solveFwd, solveScale, solveBwd, dotV, dotM, sum_range_succ]

end

/-! ## The output buffers of `solve_grad` -/

section
variable {α : Type} [Field α]

theorem solveGradBody1_shift (U P W : Mat α) (J Nrhs : ℕ) (oU oP : Mat α) (od : Vec α)
    (oW : Mat α) (n : ℕ) (s t : SolveGradState α) (h : SolveGradShift oU oP od oW s t) :
    SolveGradShift oU oP od oW (solveGradBody1 U P W J Nrhs n s)
      (solveGradBody1 U P W J Nrhs n t) := by
  obtain ⟨h1, h2, h3, h4, h5, h6, h7, h8, h9, h10⟩ := h
  refine ⟨?_, ?_, ?_, ?_, ?_, ?_, ?_, ?_, ?_, ?_⟩
  · simp only [solveGradBody1, h1]
  · simp only [solveGradBody1, h2]
  · simp only [solveGradBody1, h3, h6]
  · simp only [solveGradBody1, h4, h5]
  · simp only [solveGradBody1, h4, h5]
  · simp only [solveGradBody1, h3, h6]
  · intro i c
    simp only [solveGradBody1, h3, h4, h5, h6, h7]
    split_ifs <;> first | omega | ring1 | (subst_vars; ring1)
  · intro i c
    simp only [solveGradBody1, h3, h4, h6, h8]
    split_ifs <;> first | omega | ring1 | (subst_vars; ring1)
  · intro i
    simp only [solveGradBody1, h9]
  · intro i c
    simp only [solveGradBody1, h4, h6, h10]
    split_ifs <;> first | omega | ring1 | (subst_vars; ring1)

theorem solveGradMid_shift (d : Vec α) (N Nrhs : ℕ) (oU oP : Mat α) (od : Vec α) (oW : Mat α)
    (s t : SolveGradState α) (h : SolveGradShift oU oP od oW s t) :
    SolveGradShift oU oP od (fun i c => if i = N - 1 then 0 else oW i c)
      (solveGradMid d N Nrhs s) (solveGradMid d N Nrhs t) := by
  obtain ⟨h1, h2, h3, h4, h5, h6, h7, h8, h9, h10⟩ := h
  refine ⟨h1, h2, h3, h4, ?_, ?_, h7, h8, ?_, ?_⟩
  · simp only [solveGradMid, h5]
  · simp only [solveGradMid, h6]
  · intro i
    simp only [solveGradMid, h5, h6, h9]
    ring
  · intro i c
    simp only [solveGradMid, h10]
    split_ifs <;> first | omega | ring1

theorem solveGradBody2_shift (U P W : Mat α) (J Nrhs : ℕ) (oU oP : Mat α) (od : Vec α)
    (oW : Mat α) (n : ℕ) (s t : SolveGradState α) (h : SolveGradShift oU oP od oW s t) :
    SolveGradShift oU oP od oW (solveGradBody2 U P W J Nrhs n s)
      (solveGradBody2 U P W J Nrhs n t) := by
  obtain ⟨h1, h2, h3, h4, h5, h6, h7, h8, h9, h10⟩ := h
  refine ⟨?_, ?_, ?_, ?_, ?_, ?_, ?_, ?_, ?_, ?_⟩
  · simp only [solveGradBody2, h1, h6]
  · simp only [solveGradBody2, h2, h5]
  · simp only [solveGradBody2, h3]
  · simp only [solveGradBody2, h4]
  · simp only [solveGradBody2, h5]
  · simp only [solveGradBody2, h1, h6]
  · intro i c
    simp only [solveGradBody2, h2, h6, h7]
    split_ifs <;> first | omega | ring1 | (subst_vars; ring1)
  · intro i c
    simp only [solveGradBody2, h1, h2, h6, h8]
    split_ifs <;> first | omega | ring1 | (subst_vars; ring1)
  · intro i
    simp only [solveGradBody2, h9]
  · intro i c
    simp only [solveGradBody2, h1, h5, h6, h10]
    split_ifs <;> first | omega | ring1 | (subst_vars; ring1)

/-- A run of `solve_grad` on any initial buffers against the run on zero buffers. -/
theorem solve_grad_shift (U P : Mat α) (d : Vec α) (W : Mat α) (Z F G bZ bF bG : Mat α)
    (J N Nrhs : ℕ) (bU0 bP0 : Mat α) (bd0 : Vec α) (bW0 bY0 bY1 : Mat α) :
    SolveGradShift (fun i c => if i = 0 then 0 else bU0 i c) bP0 bd0
      (fun i c => if i = N - 1 then 0 else bW0 i c)
      (solve_grad U P d W Z F G bZ bF bG J N Nrhs bU0 bP0 bd0 bW0 bY0)
      (solve_grad U P d W Z F G bZ bF bG J N Nrhs (fun _ _ => 0) (fun _ _ => 0) (fun _ => 0)
        (fun _ _ => 0) bY1) := by
  have h0 : SolveGradShift (fun i c => if i = 0 then 0 else bU0 i c) bP0 bd0 bW0
      (solveGradInit Z F G bZ bF bG bU0 bP0 bd0 bW0)
      (solveGradInit Z F G bZ bF bG (fun _ _ => 0) (fun _ _ => 0) (fun _ => 0)
        (fun _ _ => 0)) := by
    refine ⟨rfl, rfl, rfl, rfl, rfl, rfl, ?_, ?_, ?_, ?_⟩ <;> intros <;> simp [solveGradInit]
  have h1 := loopUp_rel (SolveGradShift (fun i c => if i = 0 then 0 else bU0 i c) bP0 bd0 bW0)
    _ _ 0 0 (fun n => solveGradBody1_shift U P W J Nrhs _ _ _ _ (0 + n)) (N - 1) _ _ h0
  have h2 := solveGradMid_shift d N Nrhs _ _ _ _ _ _ h1
  exact loopDown_rel (SolveGradShift (fun i c => if i = 0 then 0 else bU0 i c) bP0 bd0
    (fun i c => if i = N - 1 then 0 else bW0 i c)) _ _ 1 1
    (fun n => solveGradBody2_shift U P W J Nrhs _ _ _ _ (1 + n)) (N - 1) _ _ h2

theorem loopUp_solveGradBody1_bU_zero (U P W : Mat α) (J Nrhs k : ℕ) (s : SolveGradState α)
    (c : ℕ) : (loopUp (solveGradBody1 U P W J Nrhs) 0 k s).bU 0 c = s.bU 0 c := by
  induction k with
  | zero => rfl
  | succ k ih =>
    rw [loopUp_succ, ← ih]
    simp [solveGradBody1]

theorem loopDown_solveGradBody2_bU_zero (U P W : Mat α) (J Nrhs k : ℕ) (s : SolveGradState α)
    (c : ℕ) : (loopDown (solveGradBody2 U P W J Nrhs) 1 k s).bU 0 c = s.bU 0 c := by
  induction k generalizing s with
  | zero => rfl
  | succ k ih =>
    rw [loopDown_succ, ih]
    simp only [solveGradBody2]
    rw [if_neg (by omega)]

/-- The second loop of `solve_grad` leaves the last row of `bW` alone. -/
theorem loopDown_solveGradBody2_bW (U P W : Mat α) (J N Nrhs k : ℕ) (hk : k ≤ N - 1)
    (s : SolveGradState α) (c : ℕ) :
    (loopDown (solveGradBody2 U P W J Nrhs) 1 k s).bW (N - 1) c = s.bW (N - 1) c := by
  induction k generalizing s with
  | zero => rfl
  | succ k ih =>
    rw [loopDown_succ, ih (by omega)]
    simp [solveGradBody2, show N - 1 ≠ k by omega]

/-- After `solve_grad` the row 0 of `bU` is zero. -/
theorem solve_grad_bU_zero (U P : Mat α) (d : Vec α) (W : Mat α) (Z F G bZ bF bG : Mat α)
    (J N Nrhs : ℕ) (bU bP : Mat α) (bd : Vec α) (bW bY : Mat α) (c : ℕ) :
    (solve_grad U P d W Z F G bZ bF bG J N Nrhs bU bP bd bW bY).bU 0 c = 0 := by
  simp only [solve_grad]
  rw [loopDown_solveGradBody2_bU_zero]
  show (loopUp (solveGradBody1 U P W J Nrhs) 0 (N - 1) _).bU 0 c = 0
  rw [loopUp_solveGradBody1_bU_zero]
  simp [solveGradInit]

/-- After `solve_grad` the row `N - 1` of `bW` is zero. -/
theorem solve_grad_bW_last (U P : Mat α) (d : Vec α) (W : Mat α) (Z F G bZ bF bG : Mat α)
    (J N Nrhs : ℕ) (bU bP : Mat α) (bd : Vec α) (bW bY : Mat α) (c : ℕ) :
    (solve_grad U P d W Z F G bZ bF bG J N Nrhs bU bP bd bW bY).bW (N - 1) c = 0 := by
  simp only [solve_grad]
  rw [loopDown_solveGradBody2_bW U P W J N Nrhs (N - 1) le_rfl]
  simp [solveGradMid]

end

section
variable {α : Type} [Field α]

theorem solveGradBody1_sameY (U P W : Mat α) (J Nrhs n : ℕ) (s t : SolveGradState α)
    (h : SolveGradSameY s t) :
    SolveGradSameY (solveGradBody1 U P W J Nrhs n s) (solveGradBody1 U P W J Nrhs n t) := by
  obtain ⟨h1, h2, h3⟩ := h
  refine ⟨?_, ?_, ?_⟩
  · simp only [solveGradBody1, h1, h2]
  · simp only [solveGradBody1, h1, h2]
  · simp only [solveGradBody1, h3]

theorem solveGradMid_sameY (d : Vec α) (N Nrhs : ℕ) (s t : SolveGradState α)
    (h : SolveGradSameY s t) :
    SolveGradSameY (solveGradMid d N Nrhs s) (solveGradMid d N Nrhs t) := by
  obtain ⟨h1, h2, h3⟩ := h
  refine ⟨?_, h2, h3⟩
  simp only [solveGradMid, h1]

theorem solveGradBody2_sameY (U P W : Mat α) (J Nrhs n : ℕ) (s t : SolveGradState α)
    (h : SolveGradSameY s t) :
    SolveGradSameY (solveGradBody2 U P W J Nrhs n s) (solveGradBody2 U P W J Nrhs n t) := by
  obtain ⟨h1, h2, h3⟩ := h
  refine ⟨?_, ?_, ?_⟩
  · simp only [solveGradBody2, h1, h3]
  · simp only [solveGradBody2, h2]
  · simp only [solveGradBody2, h1, h3]

/-- C11 (counterexample): for `N = 2`, `J = 1`, one right-hand side, `U = W = [1, 1]`, `P = [1]`,
`d = [2, 2]`, `(Z, F, G)` the outputs of `solve` on `Y = [1, 1]` and all incoming gradients 1,
the run of `solve_grad` on buffers filled with 1 leaves 0 in row 0 of `bU` and in row `N - 1`
of `bW`, not the prior content 1 plus the content 0 that the run on zero buffers leaves. -/
theorem solve_grad_resets_boundary_rows :
    (solve_grad exOnes exOnes exTwoVec exOnes exSolveOut.Z exSolveOut.F exSolveOut.G
        exOnes exOnes exOnes 1 2 1 exOnes exOnes exOneVec exOnes exOnes).bU 0 0 ≠
      exOnes 0 0 +
        (solve_grad exOnes exOnes exTwoVec exOnes exSolveOut.Z exSolveOut.F exSolveOut.G
          exOnes exOnes exOnes 1 2 1 exZeroMat exZeroMat exZeroVec exZeroMat exZeroMat).bU 0 0 ∧
    (solve_grad exOnes exOnes exTwoVec exOnes exSolveOut.Z exSolveOut.F exSolveOut.G
        exOnes exOnes exOnes 1 2 1 exOnes exOnes exOneVec exOnes exOnes).bW 1 0 ≠
      exOnes 1 0 +
        (solve_grad exOnes exOnes exTwoVec exOnes exSolveOut.Z exSolveOut.F exSolveOut.G
          exOnes exOnes exOnes 1 2 1 exZeroMat exZeroMat exZeroVec exZeroMat exZeroMat).bW 1 0 := by
  norm_num [solve_grad, solveGradInit, solveGradBody1, solveGradMid, solveGradBody2, loopUp,
    loopDown, exSolveOut, solve, solveFwd, solveScale, solveBwd, exOnes, exTwoVec, exOneVec,
    exZeroMat, exZeroVec, sum_range_succ]

/-- C11 (amended): whatever the output buffers hold on entry, after `solve_grad` the buffers
`bP` and `bd` hold their prior content plus the result of the same call on zero buffers, and
so do all rows of `bU` but row 0 and all rows of `bW` but row `N - 1`; row 0 of `bU` and row
`N - 1` of `bW` are reset, they hold the result of the call on zero buffers alone. -/
theorem solve_grad_accumulates (U P : Mat α) (d : Vec α) (W : Mat α) (Z F G bZ bF bG : Mat α)
    (J N Nrhs : ℕ) (bU0 bP0 : Mat α) (bd0 : Vec α) (bW0 bY0 : Mat α) :
    (∀ i c, (solve_grad U P d W Z F G bZ bF bG J N Nrhs bU0 bP0 bd0 bW0 bY0).bU i c =
      (if i = 0 then 0 else bU0 i c) +
        (solve_grad U P d W Z F G bZ bF bG J N Nrhs (fun _ _ => 0) (fun _ _ => 0) (fun _ => 0)
          (fun _ _ => 0) (fun _ _ => 0)).bU i c) ∧
    (∀ i c, (solve_grad U P d W Z F G bZ bF bG J N Nrhs bU0 bP0 bd0 bW0 bY0).bP i c =
      bP0 i c +
        (solve_grad U P d W Z F G bZ bF bG J N Nrhs (fun _ _ => 0) (fun _ _ => 0) (fun _ => 0)
          (fun _ _ => 0) (fun _ _ => 0)).bP i c) ∧
    (∀ i, (solve_grad U P d W Z F G bZ bF bG J N Nrhs bU0 bP0 bd0 bW0 bY0).bd i =
      bd0 i +
        (solve_grad U P d W Z F G bZ bF bG J N Nrhs (fun _ _ => 0) (fun _ _ => 0) (fun _ => 0)
          (fun _ _ => 0) (fun _ _ => 0)).bd i) ∧
    (∀ i c, (solve_grad U P d W Z F G bZ bF bG J N Nrhs bU0 bP0 bd0 bW0 bY0).bW i c =
      (if i = N - 1 then 0 else bW0 i c) +
        (solve_grad U P d W Z F G bZ bF bG J N Nrhs (fun _ _ => 0) (fun _ _ => 0) (fun _ => 0)
          (fun _ _ => 0) (fun _ _ => 0)).bW i c) := by
  have h := solve_grad_shift U P d W Z F G bZ bF bG J N Nrhs bU0 bP0 bd0 bW0 bY0
    (fun _ _ => 0)
  exact ⟨h.2.2.2.2.2.2.1, h.2.2.2.2.2.2.2.1, h.2.2.2.2.2.2.2.2.1, h.2.2.2.2.2.2.2.2.2⟩

/-- C12: the content of `bY` after `solve_grad` is the same for any two initial contents of
the five output buffers and any two triples `(Z, F, G)`: it is a function of
`(U, P, d, W, bZ, bF, bG)` and the dimensions only. -/
theorem solve_grad_bY_overwritten (U P : Mat α) (d : Vec α) (W : Mat α)
    (Z F G Z' F' G' bZ bF bG : Mat α) (J N Nrhs : ℕ) (bU bP : Mat α) (bd : Vec α)
    (bW bY bU' bP' : Mat α) (bd' : Vec α) (bW' bY' : Mat α) :
    (solve_grad U P d W Z F G bZ bF bG J N Nrhs bU bP bd bW bY).bY =
      (solve_grad U P d W Z' F' G' bZ bF bG J N Nrhs bU' bP' bd' bW' bY').bY := by
  have h0 : SolveGradSameY (solveGradInit Z F G bZ bF bG bU bP bd bW)
      (solveGradInit Z' F' G' bZ bF bG bU' bP' bd' bW') := ⟨rfl, rfl, rfl⟩
  have h1 := loopUp_rel SolveGradSameY _ _ 0 0
    (fun n => solveGradBody1_sameY U P W J Nrhs (0 + n)) (N - 1) _ _ h0
  have h2 := solveGradMid_sameY d N Nrhs _ _ h1
  exact (loopDown_rel SolveGradSameY _ _ 1 1
    (fun n => solveGradBody2_sameY U P W J Nrhs (1 + n)) (N - 1) _ _ h2).1

/-- C13 (counterexample): for `N = 2`, `J = 1`, one right-hand side, `U = W = [1, 1]`,
`P = [1]`, `d = [2, 2]`, `(Z, F, G)` the outputs of `solve` on `Y = [1, 1]`, all incoming
gradients 1 and zero buffers, `solve_grad` leaves `1/2` in row 0 of `bW`. -/
theorem solve_grad_bW_row_zero_nonzero :
    (solve_grad exOnes exOnes exTwoVec exOnes exSolveOut.Z exSolveOut.F exSolveOut.G
        exOnes exOnes exOnes 1 2 1 exZeroMat exZeroMat exZeroVec exZeroMat exZeroMat).bW 0 0 =
      1 / 2 ∧
    (solve_grad exOnes exOnes exTwoVec exOnes exSolveOut.Z exSolveOut.F exSolveOut.G
        exOnes exOnes exOnes 1 2 1 exZeroMat exZeroMat exZeroVec exZeroMat exZeroMat).bW 0 0 ≠
      0 := by
  norm_num [solve_grad, solveGradInit, solveGradBody1, solveGradMid, solveGradBody2, loopUp,
    loopDown, exSolveOut, solve, solveFwd, solveScale, solveBwd, exOnes, exTwoVec, exOneVec,
    exZeroMat, exZeroVec, sum_range_succ]

/-- C13 (amended): for every `N` and every input to `solve_grad`, with any initial buffer
contents, row `N - 1` of `bW` is zero after `solve_grad`, and so is row 0 of `bU` (row 0 of
`bW` is covered only when it is row `N - 1`). -/
theorem solve_grad_zero_boundary_rows (U P : Mat α) (d : Vec α) (W : Mat α)
    (Z F G bZ bF bG : Mat α) (J N Nrhs : ℕ) (bU bP : Mat α) (bd : Vec α) (bW bY : Mat α) :
    (∀ c, (solve_grad U P d W Z F G bZ bF bG J N Nrhs bU bP bd bW bY).bW (N - 1) c = 0) ∧
    (∀ c, (solve_grad U P d W Z F G bZ bF bG J N Nrhs bU bP bd bW bY).bU 0 c = 0) :=
  ⟨fun c => solve_grad_bW_last U P d W Z F G bZ bF bG J N Nrhs bU bP bd bW bY c,
    fun c => solve_grad_bU_zero U P d W Z F G bZ bF bG J N Nrhs bU bP bd bW bY c⟩

end

/-! ## Concrete runs of `factor` and the scalar recursion -/

/-- C14: for `N = 4`, `J = 1`, `a = [1, 1, 1, 1]`, `U = V = [1, 1/2, 1/2, 1/2]` and
`P = [9/10, 9/10, 9/10]` over the rationals, whatever `S` holds on entry, `factor` returns 0
and leaves `d = [1, 319/400, 53189/63800, 4566167/5318900]` and
`W = [1, 38/319, 10678/53189, 1153984/4566167]`. -/
theorem factor_concrete_scenario (S0 : Mat ℚ) :
    (factor exHalfU exDecay 1 4 exOneVec exHalfU S0).1 = 0 ∧
    (factor exHalfU exDecay 1 4 exOneVec exHalfU S0).2.d 0 = 1 ∧
    (factor exHalfU exDecay 1 4 exOneVec exHalfU S0).2.d 1 = 319 / 400 ∧
    (factor exHalfU exDecay 1 4 exOneVec exHalfU S0).2.d 2 = 53189 / 63800 ∧
    (factor exHalfU exDecay 1 4 exOneVec exHalfU S0).2.d 3 = 4566167 / 5318900 ∧
    (factor exHalfU exDecay 1 4 exOneVec exHalfU S0).2.W 0 0 = 1 ∧
    (factor exHalfU exDecay 1 4 exOneVec exHalfU S0).2.W 1 0 = 38 / 319 ∧
    (factor exHalfU exDecay 1 4 exOneVec exHalfU S0).2.W 2 0 = 10678 / 53189 ∧
    (factor exHalfU exDecay 1 4 exOneVec exHalfU S0).2.W 3 0 = 1153984 / 4566167 := by
  norm_num [factor, factorLoop, factorPivot, factorRowW, factorInit, rowTimes, exHalfU, exDecay,
    exOneVec]

/-- C15 (counterexample): for `J = 1`, `N = 3`, `a = [2, 2, 2]`, `U = V = [1, 1, 1]` and
`P = [1, 1]`, `factor` returns 0 with `a(0) = 2`, `d = [2, 3/2, 4/3]` and `W(1) = 1/3`, while
`a(2) - U(2)^2 * W(1)^2 * d(1) * P(1)^2` is `11/6`: the formula fails at `n = 2`. -/
theorem factor_scalar_formula_fails :
    (factor exOnes exOnes 1 3 exTwoVec exOnes exZeroMat).1 = 0 ∧ exTwoVec 0 ≠ 0 ∧
    (factor exOnes exOnes 1 3 exTwoVec exOnes exZeroMat).2.d 2 = 4 / 3 ∧
    exTwoVec 2 - exOnes 2 0 ^ 2 * (factor exOnes exOnes 1 3 exTwoVec exOnes exZeroMat).2.W 1 0 ^ 2 *
      (factor exOnes exOnes 1 3 exTwoVec exOnes exZeroMat).2.d 1 * exOnes 1 0 ^ 2 = 11 / 6 ∧
    (factor exOnes exOnes 1 3 exTwoVec exOnes exZeroMat).2.d 2 ≠
      exTwoVec 2 - exOnes 2 0 ^ 2 * (factor exOnes exOnes 1 3 exTwoVec exOnes exZeroMat).2.W 1 0 ^ 2 *
        (factor exOnes exOnes 1 3 exTwoVec exOnes exZeroMat).2.d 1 * exOnes 1 0 ^ 2 := by
  norm_num [factor, factorLoop, factorPivot, factorRowW, factorInit, rowTimes, exOnes, exTwoVec]

section
variable {α : Type} [LinearOrderedField α]

/-- C15 (amended): for `J = 1` and `N = 3`, on every input on which `factor` returns 0, the
output pivots satisfy `d(1) = a(1) - U(1)^2 * W(0)^2 * d(0) * P(0)^2` and
`d(2) = a(2) - U(2)^2 * (W(1)^2 * d(1) + W(0)^2 * d(0) * P(0)^2) * P(1)^2`: the term of row 0
stays in the running state, decayed once more, when row 2 is reached. -/
theorem factor_scalar_recursion (U P : Mat α) (a : Vec α) (V S0 : Mat α)
    (h : (factor U P 1 3 a V S0).1 = 0) :
    (factor U P 1 3 a V S0).2.d 1 =
      a 1 - U 1 0 ^ 2 * (factor U P 1 3 a V S0).2.W 0 0 ^ 2 * (factor U P 1 3 a V S0).2.d 0 *
        P 0 0 ^ 2 ∧
    (factor U P 1 3 a V S0).2.d 2 =
      a 2 - U 2 0 ^ 2 * ((factor U P 1 3 a V S0).2.W 1 0 ^ 2 * (factor U P 1 3 a V S0).2.d 1 +
        (factor U P 1 3 a V S0).2.W 0 0 ^ 2 * (factor U P 1 3 a V S0).2.d 0 * P 0 0 ^ 2) *
        P 1 0 ^ 2 := by
  rw [(factor_success U P 1 3 a V S0 h).2]
  constructor
  · simp [rowState, factorRowW, factorPivot, factorInit, rowTimes]
    ring
  · simp [rowState, factorRowW, factorPivot, factorInit, rowTimes]
    ring

/-- The scalar recursion on the run with `a = [2, 2, 2]`, `U = V = [1, 1, 1]`, `P = [1, 1]`. -/
theorem factor_scalar_recursion_witness :
    (factor exOnes exOnes 1 3 exTwoVec exOnes exZeroMat).1 = 0 ∧
    (factor exOnes exOnes 1 3 exTwoVec exOnes exZeroMat).2.d 2 =
      exTwoVec 2 - exOnes 2 0 ^ 2 *
        ((factor exOnes exOnes 1 3 exTwoVec exOnes exZeroMat).2.W 1 0 ^ 2 *
            (factor exOnes exOnes 1 3 exTwoVec exOnes exZeroMat).2.d 1 +
          (factor exOnes exOnes 1 3 exTwoVec exOnes exZeroMat).2.W 0 0 ^ 2 *
            (factor exOnes exOnes 1 3 exTwoVec exOnes exZeroMat).2.d 0 * exOnes 0 0 ^ 2) *
        exOnes 1 0 ^ 2 :=
  ⟨by norm_num [factor, factorLoop, factorPivot, factorRowW, factorInit, rowTimes, exOnes,
      exTwoVec],
    (factor_scalar_recursion exOnes exOnes exTwoVec exOnes exZeroMat
      (by norm_num [factor, factorLoop, factorPivot, factorRowW, factorInit, rowTimes, exOnes,
        exTwoVec])).2⟩

/-- The state in which the row loop stops: after the last row, or at the first row whose
updated pivot is not positive. -/
theorem factor_cases (U P : Mat α) (J N : ℕ) (a : Vec α) (V S0 : Mat α) :
    factor U P J N a V S0 = (0, rowState U P J a V (N - 1)) ∨
    ∃ n, 1 ≤ n ∧ n < N ∧ pivot U P J a V n ≤ 0 ∧
      factor U P J N a V S0 = (n, factorPivot U P J n (rowState U P J a V (n - 1))) := by
  rcases first_bad_pivot U P J a V N with hall | ⟨n, h1, hlt, hneg, hpos⟩
  · exact Or.inl (factor_of_pos U P J N a V S0 hall)
  · exact Or.inr ⟨n, h1, hlt, hneg, factor_of_bad U P J N a V S0 n h1 hlt hneg hpos⟩

/-- C19: on every input on which `factor` returns a non-zero `n`, every pivot `d(m)` with
`m > n` still equals its input `a(m)`, every row `m >= n` of `W` still equals the input row
`V_m`, and `d(n)` holds its updated value `a(n) - U_n S U_n^T` for the returned `S`, which is
not positive. -/
theorem factor_abort_frame (U P : Mat α) (J N : ℕ) (a : Vec α) (V S0 : Mat α)
    (h : (factor U P J N a V S0).1 ≠ 0) :
    (∀ m, (factor U P J N a V S0).1 < m → (factor U P J N a V S0).2.d m = a m) ∧
    (∀ m c, (factor U P J N a V S0).1 ≤ m → (factor U P J N a V S0).2.W m c = V m c) ∧
    (factor U P J N a V S0).2.d (factor U P J N a V S0).1 =
      a (factor U P J N a V S0).1 - ∑ e in range J, (∑ c in range J,
        U (factor U P J N a V S0).1 c * (factor U P J N a V S0).2.S c e) *
          U (factor U P J N a V S0).1 e ∧
    (factor U P J N a V S0).2.d (factor U P J N a V S0).1 ≤ 0 := by
  rcases factor_cases U P J N a V S0 with h0 | ⟨n, h1, _, hneg, hn⟩
  · rw [h0] at h
    exact absurd rfl h
  · rw [hn]
    obtain ⟨m, rfl⟩ : ∃ m, n = m + 1 := ⟨n - 1, by omega⟩
    simp only [Nat.add_sub_cancel]
    have hp := factorPivot_d_eq_pivot U P J a V m
    refine ⟨fun i hi => ?_, fun i c hi => ?_, ?_, ?_⟩
    · rw [factorPivot_d_of_ne _ _ _ _ _ _ (by omega), rowState_d_of_lt _ _ _ _ _ _ _ (by omega)]
    · rw [factorPivot_W, rowState_W_of_lt _ _ _ _ _ _ _ (by omega)]
    · rw [hp, pivot, rowState_succ_S]
    · rw [hp]
      exact hneg

/-- The frame of an abort on the run with `a = [1, 1]`, `U = V = [1, 1]`, `P = [1]`, which
stops at row 1 with the pivot 0. -/
theorem factor_abort_frame_witness :
    (factor exOnes exOnes 1 2 exOneVec exOnes exZeroMat).1 ≠ 0 ∧
    (factor exOnes exOnes 1 2 exOneVec exOnes exZeroMat).2.d
      (factor exOnes exOnes 1 2 exOneVec exOnes exZeroMat).1 ≤ 0 :=
  ⟨by norm_num [factor, factorLoop, factorPivot, factorRowW, factorInit, rowTimes, exOnes,
      exOneVec],
    (factor_abort_frame exOnes exOnes 1 2 exOneVec exOnes exZeroMat
      (by norm_num [factor, factorLoop, factorPivot, factorRowW, factorInit, rowTimes, exOnes,
        exOneVec])).2.2.2⟩

theorem stateSum_congr (d d' : Vec α) (W W' P : Mat α) (n : ℕ) (hd : ∀ k, k < n → d k = d' k)
    (hW : ∀ k c, k < n → W k c = W' k c) : stateSum d W P n = stateSum d' W' P n := by
  funext c e
  simp only [stateSum]
  exact sum_congr rfl fun k hk => by
    rw [hd k (mem_range.mp hk), hW k c (mem_range.mp hk), hW k e (mem_range.mp hk)]

/-- The buffer `S` is symmetric in whatever state the row loop stops. -/
theorem factor_returns_symm (U P : Mat α) (J N : ℕ) (a : Vec α) (V S0 : Mat α) (c e : ℕ) :
    (factor U P J N a V S0).2.S c e = (factor U P J N a V S0).2.S e c := by
  rcases factor_cases U P J N a V S0 with h0 | ⟨n, h1, _, _, hn⟩
  · rw [h0]
    exact rowState_S_symm U P J a V (N - 1) c e
  · rw [hn]
    obtain ⟨m, rfl⟩ : ∃ m, n = m + 1 := ⟨n - 1, by omega⟩
    simp only [Nat.add_sub_cancel]
    rw [← rowState_succ_S]
    exact rowState_S_symm U P J a V (m + 1) c e

/-- C16: whatever `S` holds on entry, the buffer `S` is symmetric after any number `k` of
passes of the row loop of `factor` (the state in which the loop stands after `k` passes, or in
which it stopped before) and so on return, whatever the status; after a return with status 0
it is the running state of row `N - 1`, the decayed sum of the terms `d(k) W_k^T W_k` of the
rows below, which is the zero matrix when `N = 1`. -/
theorem factor_S_symmetric (U P : Mat α) (J N : ℕ) (a : Vec α) (V S0 : Mat α) :
    (∀ k c e, (factorLoop U P J k 1 (factorInit a V)).2.S c e =
      (factorLoop U P J k 1 (factorInit a V)).2.S e c) ∧
    (∀ c e, (factor U P J N a V S0).2.S c e = (factor U P J N a V S0).2.S e c) ∧
    ((factor U P J N a V S0).1 = 0 →
      (factor U P J N a V S0).2.S =
        stateSum (factor U P J N a V S0).2.d (factor U P J N a V S0).2.W P (N - 1)) ∧
    (N = 1 → ∀ c e, (factor U P J N a V S0).2.S c e = 0) := by
  refine ⟨fun k c e => factor_returns_symm U P J (k + 1) a V S0 c e,
    fun c e => factor_returns_symm U P J N a V S0 c e, fun h => ?_, ?_⟩
  · rw [(factor_success U P J N a V S0 h).2]
    show (rowState U P J a V (N - 1)).S = _
    rw [rowState_S]
    exact stateSum_congr _ _ _ _ _ _
      (fun k hk => (rowState_d_eq_rowD U P J a V (N - 1) k (by omega)).symm)
      (fun k c hk => (rowState_W_eq_rowW U P J a V (N - 1) k (by omega) c).symm)
  · rintro rfl c e
    rfl

/-- The running state on return of the run with `a = [2, 2]`, `U = V = [1, 1]`, `P = [1]`. -/
theorem factor_S_symmetric_witness :
    (factor exOnes exOnes 1 2 exTwoVec exOnes exZeroMat).1 = 0 ∧
    (factor exOnes exOnes 1 2 exTwoVec exOnes exZeroMat).2.S =
      stateSum (factor exOnes exOnes 1 2 exTwoVec exOnes exZeroMat).2.d
        (factor exOnes exOnes 1 2 exTwoVec exOnes exZeroMat).2.W exOnes (2 - 1) :=
  ⟨by norm_num [factor, factorLoop, factorPivot, factorRowW, factorInit, rowTimes, exOnes,
      exTwoVec],
    (factor_S_symmetric exOnes exOnes 1 2 exTwoVec exOnes exZeroMat).2.2.1
      (by norm_num [factor, factorLoop, factorPivot, factorRowW, factorInit, rowTimes, exOnes,
        exTwoVec])⟩

end

/-! ## The rows `solve` never reads -/

section
variable {α : Type} [Field α]

theorem solveFwd_congr (U U' P W W' : Mat α) (J n : ℕ) (s : SolveBuf α)
    (hU : ∀ c, U n c = U' n c) (hW : ∀ c, W (n - 1) c = W' (n - 1) c) :
    solveFwd U P W J n s = solveFwd U' P W' J n s := by
  simp only [solveFwd, hU, hW]

theorem solveBwd_congr (U U' P W W' : Mat α) (J n : ℕ) (s : SolveBuf α)
    (hU : ∀ c, U (n + 1) c = U' (n + 1) c) (hW : ∀ c, W n c = W' n c) :
    solveBwd U P W J n s = solveBwd U' P W' J n s := by
  simp only [solveBwd, hU, hW]

theorem loopUp_solveFwd_congr (U U' P W W' : Mat α) (J N : ℕ)
    (hU : ∀ i c, i ≠ 0 → U i c = U' i c) (hW : ∀ i c, i ≠ N - 1 → W i c = W' i c) (k : ℕ)
    (hk : k ≤ N - 1) (s : SolveBuf α) :
    loopUp (solveFwd U P W J) 1 k s = loopUp (solveFwd U' P W' J) 1 k s := by
  induction k with
  | zero => rfl
  | succ k ih =>
    rw [loopUp_succ, loopUp_succ, ih (by omega)]
    exact solveFwd_congr U U' P W W' J (1 + k) _ (fun c => hU _ c (by omega))
      (fun c => hW _ c (by omega))

theorem loopDown_solveBwd_congr (U U' P W W' : Mat α) (J N : ℕ)
    (hU : ∀ i c, i ≠ 0 → U i c = U' i c) (hW : ∀ i c, i ≠ N - 1 → W i c = W' i c) (k : ℕ)
    (hk : k ≤ N - 1) (s : SolveBuf α) :
    loopDown (solveBwd U P W J) 0 k s = loopDown (solveBwd U' P W' J) 0 k s := by
  induction k generalizing s with
  | zero => rfl
  | succ k ih =>
    rw [loopDown_succ, loopDown_succ, ih (by omega)]
    congr 1
    exact solveBwd_congr U U' P W W' J (0 + k) _ (fun c => hU _ c (by omega))
      (fun c => hW _ c (by omega))

/-- C20: the outputs `(Z, F, G)` of `solve` are the same for any two runs that differ only in
row 0 of `U` and in row `N - 1` of `W`; and `solve_grad`, on any input and any initial
buffers, leaves zero in row 0 of `bU` and in row `N - 1` of `bW`. -/
theorem solve_unused_rows (U P : Mat α) (d : Vec α) (W : Mat α) (J N Nrhs : ℕ)
    (Y F0 G0 Z F G bZ bF bG bU bP : Mat α) (bd : Vec α) (bW bY : Mat α) :
    (∀ U' W' : Mat α, (∀ i c, i ≠ 0 → U' i c = U i c) → (∀ i c, i ≠ N - 1 → W' i c = W i c) →
      solve U' P d W' J N Y F0 G0 = solve U P d W J N Y F0 G0) ∧
    (∀ c, (solve_grad U P d W Z F G bZ bF bG J N Nrhs bU bP bd bW bY).bU 0 c = 0) ∧
    (∀ c, (solve_grad U P d W Z F G bZ bF bG J N Nrhs bU bP bd bW bY).bW (N - 1) c = 0) := by
  refine ⟨fun U' W' hU hW => ?_,
    fun c => solve_grad_bU_zero U P d W Z F G bZ bF bG J N Nrhs bU bP bd bW bY c,
    fun c => solve_grad_bW_last U P d W Z F G bZ bF bG J N Nrhs bU bP bd bW bY c⟩
  simp only [solve]
  rw [loopUp_solveFwd_congr U' U P W' W J N hU hW (N - 1) le_rfl,
    loopDown_solveBwd_congr U' U P W' W J N hU hW (N - 1) le_rfl]

/-- Two runs of `solve` with `N = 2` that differ in row 0 of `U` and in row 1 of `W`. -/
theorem solve_unused_rows_witness :
    (∀ i c, i ≠ 0 → exRowZeroU i c = exOnes i c) ∧
    (∀ i c, i ≠ 2 - 1 → exRowOneW i c = exOnes i c) ∧
    solve exRowZeroU exOnes exTwoVec exRowOneW 1 2 exOnes exZeroMat exZeroMat =
      solve exOnes exOnes exTwoVec exOnes 1 2 exOnes exZeroMat exZeroMat :=
  ⟨fun i c h => by simp [exRowZeroU, exOnes, h],
    fun i c h => by simp only [exRowOneW, exOnes]; rw [if_neg h],
    (solve_unused_rows exOnes exOnes exTwoVec exOnes 1 2 1 exOnes exZeroMat exZeroMat exOnes
      exOnes exOnes exOnes exOnes exOnes exOnes exOnes exOneVec exOnes exOnes).1
      exRowZeroU exRowOneW (fun i c h => by simp [exRowZeroU, exOnes, h])
      (fun i c h => by simp only [exRowOneW, exOnes]; rw [if_neg h])⟩

end

/-! ## The reconstruction of the running state in `factor_grad` -/

section
variable {σ : Type}

/-- A descending loop is its upper passes followed by its lower passes. -/
theorem loopDown_split (body : ℕ → σ → σ) (lo k m : ℕ) (s : σ) :
    loopDown body lo (k + m) s = loopDown body lo k (loopDown body (lo + k) m s) := by
  induction m generalizing s with
  | zero => rfl
  | succ m ih =>
    rw [← Nat.add_assoc, loopDown_succ, loopDown_succ, ih, Nat.add_assoc lo k m]

end

section
variable {α : Type} [Field α]

/-- One pass of the reverse loop of `factor_grad` takes the running state of row `m + 1` back
to the running state of row `m`. -/
theorem factorGradBody_S_ (U P : Mat α) (d : Vec α) (W : Mat α) (bd : Vec α) (bW : Mat α)
    (J : ℕ) (a : Vec α) (V : Mat α) (m : ℕ) (s : FactorGradState α)
    (hP : ∀ c, c < J → P m c ≠ 0) (hd : d m = rowD U P J a V m)
    (hW : ∀ c, W m c = rowW U P J a V m c)
    (h : ∀ c e, c < J → e < J → s.S_ c e = (rowState U P J a V (m + 1)).S c e)
    (c e : ℕ) (hc : c < J) (he : e < J) :
    (factorGradBody U P d W bd bW J (m + 1) s).S_ c e = (rowState U P J a V m).S c e := by
  have h1 := hP c hc
  have h2 := hP e he
  simp only [factorGradBody, Nat.add_sub_cancel]
  rw [h c e hc he, rowState_S_succ, hd, hW, hW]
  field_simp

theorem loopDown_factorGradBody_S_ (U P : Mat α) (d : Vec α) (W : Mat α) (bd : Vec α)
    (bW : Mat α) (J N : ℕ) (a : Vec α) (V : Mat α)
    (hP : ∀ n c, n + 1 < N → c < J → P n c ≠ 0)
    (hd : ∀ i, i < N → d i = rowD U P J a V i)
    (hW : ∀ i, i < N → ∀ c, W i c = rowW U P J a V i c) (m k : ℕ) (hk : m + k ≤ N - 1)
    (s : FactorGradState α)
    (h : ∀ c e, c < J → e < J → s.S_ c e = (rowState U P J a V (m + k)).S c e)
    (c e : ℕ) (hc : c < J) (he : e < J) :
    (loopDown (factorGradBody U P d W bd bW J) (m + 1) k s).S_ c e =
      (rowState U P J a V m).S c e := by
  induction k generalizing s with
  | zero => exact h c e hc he
  | succ k ih =>
    rw [loopDown_succ, Nat.add_right_comm m 1 k]
    exact ih (by omega) _ (fun c' e' hc' he' =>
      factorGradBody_S_ U P d W bd bW J a V (m + k) s (fun c hc => hP _ c (by omega) hc)
        (hd _ (by omega)) (hW _ (by omega)) h c' e' hc' he')

end

section
variable {α : Type} [LinearOrderedField α]

/-- C17: for every input with all `P` entries non-zero on which `factor` returns 0 with
outputs `(d, W, S)`, and every `n` from `N - 1` down to 1: `factor_grad` is the passes at rows
`n`, ..., `1` and the update of the first row applied to its state at the start of the pass at
row `n`, and in that state the local `S_` is the `S` that the row loop of `factor` holds after
its pass at row `n`; and after `factor_grad` the local `S_` is the zero matrix. -/
theorem factor_grad_reconstructs_state (U P : Mat α) (J N : ℕ) (a : Vec α) (V S0 : Mat α)
    (bd : Vec α) (bW bS : Mat α) (ba : Vec α) (bU bV bP : Mat α)
    (hP : ∀ n c, n + 1 < N → c < J → P n c ≠ 0)
    (h0 : (factor U P J N a V S0).1 = 0) :
    (∀ n, 1 ≤ n → n < N →
      factor_grad U P (factor U P J N a V S0).2.d (factor U P J N a V S0).2.W
          (factor U P J N a V S0).2.S bd bW bS J N ba bU bV bP =
        factorGradLast (factor U P J N a V S0).2.W J
          (loopDown (factorGradBody U P (factor U P J N a V S0).2.d
              (factor U P J N a V S0).2.W bd bW J) 1 n
            (factorGradAt U P (factor U P J N a V S0).2.d (factor U P J N a V S0).2.W
              (factor U P J N a V S0).2.S bd bW bS J N ba bU bV bP n)) ∧
      ∀ c e, c < J → e < J →
        (factorGradAt U P (factor U P J N a V S0).2.d (factor U P J N a V S0).2.W
          (factor U P J N a V S0).2.S bd bW bS J N ba bU bV bP n).S_ c e =
        (factorLoop U P J n 1 (factorInit a V)).2.S c e) ∧
    (∀ c e, c < J → e < J →
      (factor_grad U P (factor U P J N a V S0).2.d (factor U P J N a V S0).2.W
        (factor U P J N a V S0).2.S bd bW bS J N ba bU bV bP).S_ c e = 0) := by
  obtain ⟨hpos, hfac⟩ := factor_success U P J N a V S0 h0
  rw [hfac]
  simp only
  have hd : ∀ i, i < N → (rowState U P J a V (N - 1)).d i = rowD U P J a V i :=
    fun i hi => rowState_d_eq_rowD U P J a V (N - 1) i (by omega)
  have hW : ∀ i, i < N → ∀ c, (rowState U P J a V (N - 1)).W i c = rowW U P J a V i c :=
    fun i hi c => rowState_W_eq_rowW U P J a V (N - 1) i (by omega) c
  refine ⟨fun n h1 hn => ⟨?_, fun c e hc he => ?_⟩, fun c e hc he => ?_⟩
  · simp only [factor_grad, factorGradAt]
    rw [Nat.add_comm n 1, ← loopDown_split, show n + (N - 1 - n) = N - 1 by omega]
  · have hl := factorLoop_pos U P J a V n 0 (fun i hi => hpos _ (by omega) (by omega))
    rw [Nat.zero_add, Nat.zero_add] at hl
    have hl' : factorLoop U P J n 1 (factorInit a V) = (0, rowState U P J a V n) := hl
    rw [hl']
    simp only [factorGradAt]
    exact loopDown_factorGradBody_S_ U P _ _ bd bW J N a V hP hd hW n (N - 1 - n) (by omega) _
      (fun c' e' _ _ => by
        show (rowState U P J a V (N - 1)).S c' e' = _
        rw [show n + (N - 1 - n) = N - 1 by omega]) c e hc he
  · show (loopDown (factorGradBody U P _ _ bd bW J) (0 + 1) (N - 1) _).S_ c e = 0
    rw [loopDown_factorGradBody_S_ U P _ _ bd bW J N a V hP hd hW 0 (N - 1) (by omega) _
      (fun c' e' _ _ => by
        show (rowState U P J a V (N - 1)).S c' e' = _
        rw [Nat.zero_add]) c e hc he]
    rfl

/-- The reconstruction on the run with `N = 2`, `J = 1`, `a = [2, 2]`, `U = V = [1, 1]`,
`P = [1]`. -/
theorem factor_grad_reconstructs_state_witness :
    (∀ n c, n + 1 < 2 → c < 1 → exOnes n c ≠ 0) ∧
    (factor exOnes exOnes 1 2 exTwoVec exOnes exZeroMat).1 = 0 ∧
    (factor_grad exOnes exOnes (factor exOnes exOnes 1 2 exTwoVec exOnes exZeroMat).2.d
      (factor exOnes exOnes 1 2 exTwoVec exOnes exZeroMat).2.W
      (factor exOnes exOnes 1 2 exTwoVec exOnes exZeroMat).2.S exOneVec exOnes exOnes 1 2
      exZeroVec exZeroMat exZeroMat exZeroMat).S_ 0 0 = 0 :=
  ⟨fun _ _ _ _ => by simp [exOnes],
    by norm_num [factor, factorLoop, factorPivot, factorRowW, factorInit, rowTimes, exOnes,
      exTwoVec],
    (factor_grad_reconstructs_state exOnes exOnes 1 2 exTwoVec exOnes exZeroMat exOneVec exOnes
      exOnes exZeroVec exZeroMat exZeroMat exZeroMat (fun _ _ _ _ => by simp [exOnes])
      (by norm_num [factor, factorLoop, factorPivot, factorRowW, factorInit, rowTimes, exOnes,
        exTwoVec])).2 0 0 (by decide) (by decide)⟩

end

/-! ## The reconstruction of the state of `solve` in `solve_grad` -/

section
variable {α : Type} [Field α]

/-- The first loop of `solve_grad` takes `G_` and `Z_` back through the backward sweep. -/
theorem solveGrad_undo_bwd (U P W : Mat α) (J N Nrhs : ℕ)
    (hP : ∀ n c, n + 1 < N → c < J → P n c ≠ 0) (K : ℕ) (hK : K ≤ N - 1)
    (s : SolveGradState α) (t : SolveBuf α)
    (hG : ∀ c r, c < J → r < Nrhs → s.G_ c r = (loopDown (solveBwd U P W J) 0 K t).G c r)
    (hZ : ∀ i r, i < N → r < Nrhs → s.Z_ i r = (loopDown (solveBwd U P W J) 0 K t).Z i r) :
    (∀ c r, c < J → r < Nrhs → (loopUp (solveGradBody1 U P W J Nrhs) 0 K s).G_ c r = t.G c r) ∧
    (∀ i r, i < N → r < Nrhs →
      (loopUp (solveGradBody1 U P W J Nrhs) 0 K s).Z_ i r = t.Z i r) := by
  induction K generalizing t with
  | zero => exact ⟨hG, hZ⟩
  | succ K ih =>
    rw [loopDown_succ, Nat.zero_add] at hG hZ
    obtain ⟨h1, h2⟩ := ih (by omega) (solveBwd U P W J K t) hG hZ
    obtain ⟨g1, g2, -⟩ := solveGrad_step1 U P W U P (fun _ => 0) W J N Nrhs K (by omega)
      (fun c hc => hP K c (by omega) hc) (loopUp (solveGradBody1 U P W J Nrhs) 0 K s) t t h1 h2
    rw [loopUp_succ, Nat.zero_add]
    exact ⟨g1, g2⟩

/-- The second loop of `solve_grad` takes `F_` back through the forward sweep. -/
theorem solveGrad_undo_fwd (U P W : Mat α) (J N Nrhs : ℕ)
    (hP : ∀ n c, n + 1 < N → c < J → P n c ≠ 0) (K : ℕ) (hK : K ≤ N - 1)
    (s : SolveGradState α) (t : SolveBuf α)
    (hF : ∀ c r, c < J → r < Nrhs → s.F_ c r = (loopUp (solveFwd U P W J) 1 K t).F c r)
    (hZ : ∀ i r, i ≤ K → i < N → r < Nrhs →
      s.Z_ i r = (loopUp (solveFwd U P W J) 1 K t).Z i r) :
    ∀ c r, c < J → r < Nrhs → (loopDown (solveGradBody2 U P W J Nrhs) 1 K s).F_ c r = t.F c r := by
  induction K generalizing s with
  | zero => exact hF
  | succ K ih =>
    rw [loopUp_succ, Nat.add_comm 1 K] at hF hZ
    obtain ⟨g1, g2, -⟩ := solveGrad_step2 U P W U P (fun _ => 0) W J N Nrhs K (by omega)
      (fun c hc => hP K c (by omega) hc) s (loopUp (solveFwd U P W J) 1 K t)
      (loopUp (solveFwd U P W J) 1 K t) hF (fun i r hi hr => hZ i r hi (by omega) hr)
    rw [loopDown_succ, Nat.add_comm 1 K]
    exact ih (by omega) _ g1 (fun i r hi _ hr => g2 i r hi hr)

theorem loopDown_solveGradBody2_G (U P W : Mat α) (J Nrhs k : ℕ) (s : SolveGradState α) :
    (loopDown (solveGradBody2 U P W J Nrhs) 1 k s).G_ = s.G_ := by
  induction k generalizing s with
  | zero => rfl
  | succ k ih => rw [loopDown_succ, ih]; rfl

/-- C18: for every `(U, P, d, W, Y)` with all `d` and all `P` entries non-zero and `(Z, F, G)`
the outputs of `solve` on them, inside `solve_grad`: after the first loop the local `G_` is
zero and the local `Z_` is the `Z` that `solve` holds after its division by `d`; after the
multiplication by `d` it is the `Z` that `solve` holds after its forward sweep; and after the
second loop the local `F_` is zero, with `G_` still zero. -/
theorem solve_grad_reconstructs_state (U P : Mat α) (d : Vec α) (W : Mat α) (J N Nrhs : ℕ)
    (Y F0 G0 bZ bF bG bU bP : Mat α) (bd : Vec α) (bW bY : Mat α)
    (hd : ∀ i, i < N → d i ≠ 0) (hP : ∀ n c, n + 1 < N → c < J → P n c ≠ 0) :
    (∀ c r, c < J → r < Nrhs →
      (loopUp (solveGradBody1 U P W J Nrhs) 0 (N - 1)
        (solveGradInit (solve U P d W J N Y F0 G0).Z (solve U P d W J N Y F0 G0).F
          (solve U P d W J N Y F0 G0).G bZ bF bG bU bP bd bW)).G_ c r = 0) ∧
    (∀ i r, i < N → r < Nrhs →
      (loopUp (solveGradBody1 U P W J Nrhs) 0 (N - 1)
        (solveGradInit (solve U P d W J N Y F0 G0).Z (solve U P d W J N Y F0 G0).F
          (solve U P d W J N Y F0 G0).G bZ bF bG bU bP bd bW)).Z_ i r =
      (solveScale d (loopUp (solveFwd U P W J) 1 (N - 1)
        { Z := Y, F := fun _ _ => 0, G := fun _ _ => 0 })).Z i r) ∧
    (∀ i r, i < N → r < Nrhs →
      (solveGradMid d N Nrhs (loopUp (solveGradBody1 U P W J Nrhs) 0 (N - 1)
        (solveGradInit (solve U P d W J N Y F0 G0).Z (solve U P d W J N Y F0 G0).F
          (solve U P d W J N Y F0 G0).G bZ bF bG bU bP bd bW))).Z_ i r =
      (loopUp (solveFwd U P W J) 1 (N - 1)
        { Z := Y, F := fun _ _ => 0, G := fun _ _ => 0 }).Z i r) ∧
    (∀ c r, c < J → r < Nrhs →
      (solve_grad U P d W (solve U P d W J N Y F0 G0).Z (solve U P d W J N Y F0 G0).F
        (solve U P d W J N Y F0 G0).G bZ bF bG J N Nrhs bU bP bd bW bY).F_ c r = 0 ∧
      (solve_grad U P d W (solve U P d W J N Y F0 G0).Z (solve U P d W J N Y F0 G0).F
        (solve U P d W J N Y F0 G0).G bZ bF bG J N Nrhs bU bP bd bW bY).G_ c r = 0) := by
  obtain ⟨t1, ht1⟩ : ∃ t1, t1 = loopUp (solveFwd U P W J) 1 (N - 1)
      ({ Z := Y, F := fun _ _ => 0, G := fun _ _ => 0 } : SolveBuf α) := ⟨_, rfl⟩
  have hout : solve U P d W J N Y F0 G0 =
      loopDown (solveBwd U P W J) 0 (N - 1) (solveScale d t1) := by rw [ht1]; rfl
  obtain ⟨s0, hs0⟩ : ∃ s0, s0 = solveGradInit (solve U P d W J N Y F0 G0).Z
      (solve U P d W J N Y F0 G0).F (solve U P d W J N Y F0 G0).G bZ bF bG bU bP bd bW :=
    ⟨_, rfl⟩
  have hG1 : (solveScale d t1).G = fun _ _ => 0 := by
    show t1.G = _
    rw [ht1, loopUp_solveFwd_G]
  obtain ⟨a1, a2⟩ := solveGrad_undo_bwd U P W J N Nrhs hP (N - 1) le_rfl s0 (solveScale d t1)
    (fun c r _ _ => by rw [hs0, ← hout]; rfl) (fun i r _ _ => by rw [hs0, ← hout]; rfl)
  have a3 : ∀ i r, i < N → r < Nrhs →
      (solveGradMid d N Nrhs (loopUp (solveGradBody1 U P W J Nrhs) 0 (N - 1) s0)).Z_ i r =
        t1.Z i r := by
    intro i r hi hr
    have hdi := hd i hi
    simp only [solveGradMid]
    rw [a2 i r hi hr]
    simp only [solveScale]
    field_simp
  have hF0 : ∀ c r, (solveGradMid d N Nrhs
      (loopUp (solveGradBody1 U P W J Nrhs) 0 (N - 1) s0)).F_ c r = t1.F c r := by
    intro c r
    show (loopUp (solveGradBody1 U P W J Nrhs) 0 (N - 1) s0).F_ c r = _
    rw [loopUp_solveGradBody1_F, hs0]
    show (solve U P d W J N Y F0 G0).F c r = _
    rw [hout, loopDown_solveBwd_F]
    rfl
  have a4 := solveGrad_undo_fwd U P W J N Nrhs hP (N - 1) le_rfl
    (solveGradMid d N Nrhs (loopUp (solveGradBody1 U P W J Nrhs) 0 (N - 1) s0))
    ({ Z := Y, F := fun _ _ => 0, G := fun _ _ => 0 } : SolveBuf α)
    (fun c r _ _ => by rw [hF0, ht1]) (fun i r _ hi hr => by rw [a3 i r hi hr, ht1])
  rw [← hs0, ← ht1]
  refine ⟨fun c r hc hr => ?_, a2, a3, fun c r hc hr => ⟨?_, ?_⟩⟩
  · rw [a1 c r hc hr, hG1]
  · simp only [solve_grad]
    rw [← hs0]
    exact a4 c r hc hr
  · simp only [solve_grad]
    rw [← hs0, loopDown_solveGradBody2_G]
    show (loopUp (solveGradBody1 U P W J Nrhs) 0 (N - 1) s0).G_ c r = 0
    rw [a1 c r hc hr, hG1]

/-- The reconstruction on the run with `N = 2`, `J = 1`, one right-hand side `Y = [1, 1]`,
`U = W = [1, 1]`, `P = [1]` and `d = [2, 2]`. -/
theorem solve_grad_reconstructs_state_witness :
    (∀ i, i < 2 → exTwoVec i ≠ 0) ∧ (∀ n c, n + 1 < 2 → c < 1 → exOnes n c ≠ 0) ∧
    (solve_grad exOnes exOnes exTwoVec exOnes
      (solve exOnes exOnes exTwoVec exOnes 1 2 exOnes exZeroMat exZeroMat).Z
      (solve exOnes exOnes exTwoVec exOnes 1 2 exOnes exZeroMat exZeroMat).F
      (solve exOnes exOnes exTwoVec exOnes 1 2 exOnes exZeroMat exZeroMat).G
      exOnes exOnes exOnes 1 2 1 exZeroMat exZeroMat exZeroVec exZeroMat exZeroMat).F_ 0 0 = 0 :=
  ⟨fun _ _ => by simp [exTwoVec], fun _ _ _ _ => by simp [exOnes],
    ((solve_grad_reconstructs_state exOnes exOnes exTwoVec exOnes 1 2 1 exOnes exZeroMat
      exZeroMat exOnes exOnes exOnes exZeroMat exZeroMat exZeroVec exZeroMat exZeroMat
      (fun _ _ => by simp [exTwoVec]) (fun _ _ _ _ => by simp [exOnes])).2.2.2 0 0
      (by decide) (by decide)).1⟩

end

/-! ## The status of `factor` over any scalar arithmetic -/

section
variable {α : Type}

theorem rowInv_init (A : Arith α) (U P : Mat α) (J : ℕ) (a : Vec α) (V : Mat α) :
    A.RowInv U P J a V 0 (A.factorInit a V) := by
  refine ⟨fun i hi => ?_, fun i c hi => ?_, rfl, fun i _ => rfl, fun i c hi => ?_⟩
  · obtain rfl : i = 0 := by omega
    rfl
  · obtain rfl : i = 0 := by omega
    simp [Arith.factorInit, Arith.specRows]
  · simp [Arith.factorInit, Nat.pos_iff_ne_zero.mp hi]

/-- The update of the pivot of row `m + 1` computes the updated pivot of the spec. -/
theorem rowInv_pivot (A : Arith α) (U P : Mat α) (J : ℕ) (a : Vec α) (V : Mat α) (m : ℕ)
    (st : FactorBuf α) (h : A.RowInv U P J a V m st) :
    (A.factorPivot U P J (m + 1) st).d (m + 1) = A.specPivot U P J a V (m + 1) ∧
    (A.factorPivot U P J (m + 1) st).S = (A.specRows U P J a V (m + 1)).2.2 ∧
    (∀ i, i ≠ m + 1 → (A.factorPivot U P J (m + 1) st).d i = st.d i) ∧
    (A.factorPivot U P J (m + 1) st).W = st.W := by
  obtain ⟨hd, hW, hS, hd', -⟩ := h
  have e1 : (A.factorPivot U P J (m + 1) st).S = (A.specRows U P J a V (m + 1)).2.2 := by
    funext c e
    simp only [Arith.factorPivot, Arith.specRows, Nat.add_sub_cancel, hS, hd m le_rfl,
      hW m _ le_rfl, Arith.specPivot]
  refine ⟨?_, e1, fun i hi => ?_, rfl⟩
  · simp only [Arith.factorPivot, Arith.specRows, Arith.specPivot, Nat.add_sub_cancel, hS,
      hd m le_rfl, hW m _ le_rfl, hd' (m + 1) (Nat.lt_succ_self m), if_true]
  · simp [Arith.factorPivot, hi]

/-- A full pass at row `m + 1` takes the buffers after the rows `0..m` to the buffers after
the rows `0..m+1`. -/
theorem rowInv_step (A : Arith α) (U P : Mat α) (J : ℕ) (a : Vec α) (V : Mat α) (m : ℕ)
    (st : FactorBuf α) (h : A.RowInv U P J a V m st) :
    A.RowInv U P J a V (m + 1) (A.factorRowW U J (m + 1) (A.factorPivot U P J (m + 1) st)) := by
  obtain ⟨p1, p2, p3, p4⟩ := rowInv_pivot A U P J a V m st h
  obtain ⟨hd, hW, hS, hd', hW'⟩ := h
  refine ⟨fun i hi => ?_, fun i c hi => ?_, p2, fun i hi => ?_, fun i c hi => ?_⟩
  · show (A.factorPivot U P J (m + 1) st).d i = _
    rcases Nat.eq_or_lt_of_le hi with rfl | hlt
    · exact p1
    · rw [p3 i (by omega)]
      exact hd i (by omega)
  · rcases Nat.eq_or_lt_of_le hi with rfl | hlt
    · simp only [Arith.factorRowW, if_true, p1, p2, p4, hW' (m + 1) _ (Nat.lt_succ_self m)]
      simp only [Arith.specRows, Arith.specPivot]
    · simp only [Arith.factorRowW, if_neg (show i ≠ m + 1 by omega), p4]
      exact hW i c (by omega)
  · show (A.factorPivot U P J (m + 1) st).d i = _
    rw [p3 i (by omega)]
    exact hd' i (by omega)
  · simp only [Arith.factorRowW, if_neg (show i ≠ m + 1 by omega), p4]
    exact hW' i c (by omega)

/-- When the test fails at every row left, the loop goes through them and returns 0. -/
theorem factorLoop_through (A : Arith α) (U P : Mat α) (J : ℕ) (a : Vec α) (V : Mat α)
    (k m : ℕ) (st : FactorBuf α) (h : A.RowInv U P J a V m st)
    (hok : ∀ i, i < k → A.nonpos (A.specPivot U P J a V (m + 1 + i)) = false) :
    (A.factorLoop U P J k (m + 1) st).1 = 0 ∧
      A.RowInv U P J a V (m + k) (A.factorLoop U P J k (m + 1) st).2 := by
  induction k generalizing m st with
  | zero => exact ⟨rfl, h⟩
  | succ k ih =>
    have h0 := hok 0 (by omega)
    rw [Nat.add_zero, ← (rowInv_pivot A U P J a V m st h).1] at h0
    rw [Arith.factorLoop]
    simp only [h0, Bool.false_eq_true, if_false]
    have := ih (m + 1) _ (rowInv_step A U P J a V m st h)
      (fun i hi => by
        have := hok (i + 1) (by omega)
        rwa [show m + 1 + (i + 1) = m + 1 + 1 + i by omega] at this)
    rwa [show m + 1 + k = m + (k + 1) by omega] at this

/-- When the test first succeeds at the row `m + 1 + i`, the loop returns that row, with the
buffers of the rows before it and the updated pivot of that row. -/
theorem factorLoop_stop (A : Arith α) (U P : Mat α) (J : ℕ) (a : Vec α) (V : Mat α)
    (k m i : ℕ) (hi : i < k) (st : FactorBuf α) (h : A.RowInv U P J a V m st)
    (hok : ∀ j, j < i → A.nonpos (A.specPivot U P J a V (m + 1 + j)) = false)
    (hbad : A.nonpos (A.specPivot U P J a V (m + 1 + i)) = true) :
    (A.factorLoop U P J k (m + 1) st).1 = m + 1 + i ∧
      (A.factorLoop U P J k (m + 1) st).2.d (m + 1 + i) = A.specPivot U P J a V (m + 1 + i) := by
  induction k generalizing m i st with
  | zero => omega
  | succ k ih =>
    rw [Arith.factorLoop]
    rcases Nat.eq_zero_or_pos i with rfl | hi0
    · rw [Nat.add_zero] at hbad ⊢
      have hp := (rowInv_pivot A U P J a V m st h).1
      rw [← hp] at hbad
      simp only [hbad, if_true]
      exact ⟨trivial, hp⟩
    · have h0 := hok 0 hi0
      rw [Nat.add_zero, ← (rowInv_pivot A U P J a V m st h).1] at h0
      simp only [h0, Bool.false_eq_true, if_false]
      have := ih (m + 1) (i - 1) (by omega) _ (rowInv_step A U P J a V m st h)
        (fun j hj => by
          have := hok (j + 1) (by omega)
          rwa [show m + 1 + (j + 1) = m + 1 + 1 + j by omega] at this)
        (by rwa [show m + 1 + 1 + (i - 1) = m + 1 + i by omega])
      rwa [show m + 1 + 1 + (i - 1) = m + 1 + i by omega] at this

/-- Either the test fails at every row of `1..N-1`, or there is a first row at which it
succeeds. -/
theorem first_nonpos (A : Arith α) (U P : Mat α) (J : ℕ) (a : Vec α) (V : Mat α) (N : ℕ) :
    (∀ m, 1 ≤ m → m < N → A.nonpos (A.specPivot U P J a V m) = false) ∨
    ∃ n, 1 ≤ n ∧ n < N ∧ A.nonpos (A.specPivot U P J a V n) = true ∧
      ∀ m, 1 ≤ m → m < n → A.nonpos (A.specPivot U P J a V m) = false := by
  by_cases h : ∀ m, 1 ≤ m → m < N → A.nonpos (A.specPivot U P J a V m) = false
  · exact Or.inl h
  · right
    push_neg at h
    have hex : ∃ n, 1 ≤ n ∧ n < N ∧ A.nonpos (A.specPivot U P J a V n) = true := by
      obtain ⟨n, h1, h2, h3⟩ := h
      exact ⟨n, h1, h2, by simpa using h3⟩
    classical
    refine ⟨Nat.find hex, (Nat.find_spec hex).1, (Nat.find_spec hex).2.1,
      (Nat.find_spec hex).2.2, fun m hm1 hm => ?_⟩
    have := Nat.find_min hex hm
    simp only [not_and] at this
    have h3 := this hm1 (lt_trans hm (Nat.find_spec hex).2.1)
    simpa using h3

/-- The two ways `factor` returns: 0 after tests that all failed, with the buffers of the row
recursion of the spec, or the first row `n` whose test succeeded. -/
theorem factor_outcome (A : Arith α) (U P : Mat α) (J N : ℕ) (a : Vec α) (V S0 : Mat α) :
    ((∀ m, 1 ≤ m → m < N → A.nonpos (A.specPivot U P J a V m) = false) ∧
      (A.factor U P J N a V S0).1 = 0 ∧ A.RowInv U P J a V (N - 1) (A.factor U P J N a V S0).2) ∨
    ∃ n, 1 ≤ n ∧ n < N ∧ A.nonpos (A.specPivot U P J a V n) = true ∧
      (∀ m, 1 ≤ m → m < n → A.nonpos (A.specPivot U P J a V m) = false) ∧
      (A.factor U P J N a V S0).1 = n ∧
      (A.factor U P J N a V S0).2.d n = A.specPivot U P J a V n := by
  rcases first_nonpos A U P J a V N with hall | ⟨n, h1, hlt, hbad, hok⟩
  · left
    have := factorLoop_through A U P J a V (N - 1) 0 _ (rowInv_init A U P J a V)
      (fun i hi => hall _ (by omega) (by omega))
    rw [Nat.zero_add, Nat.zero_add] at this
    exact ⟨hall, this⟩
  · right
    have := factorLoop_stop A U P J a V (N - 1) 0 (n - 1) (by omega) _
      (rowInv_init A U P J a V) (fun j hj => hok _ (by omega) (by omega))
      (by rwa [show 0 + 1 + (n - 1) = n by omega])
    rw [show 0 + 1 + (n - 1) = n by omega, Nat.zero_add] at this
    exact ⟨n, h1, hlt, hbad, hok, this⟩

end

/-! ## The exact arithmetic and the arithmetic with NaN -/

section
variable {α : Type} [LinearOrderedField α]

theorem exactArith_factorLoop (U P : Mat α) (J k n : ℕ) (st : FactorBuf α) :
    (exactArith α).factorLoop U P J k n st = factorLoop U P J k n st := by
  induction k generalizing n st with
  | zero => rfl
  | succ k ih =>
    rw [Arith.factorLoop, factorLoop, ih]
    have e : (exactArith α).factorPivot U P J n st = factorPivot U P J n st := rfl
    have e2 : ∀ s, (exactArith α).factorRowW U J n s = factorRowW U J n s := fun _ => rfl
    rw [e, e2]
    by_cases h : (factorPivot U P J n st).d n ≤ 0
    · simp [exactArith, h]
    · simp [exactArith, h]

/-- The function `factor` of the exact development is `factor` over the exact arithmetic. -/
theorem exactArith_factor (U P : Mat α) (J N : ℕ) (a : Vec α) (V S0 : Mat α) :
    (exactArith α).factor U P J N a V S0 = factor U P J N a V S0 := by
  simp only [Arith.factor, factor, exactArith_factorLoop]
  rfl

end

/-! ### Evaluation of the arithmetic with NaN -/

theorem Ext.huge_pos : (0 : ℚ) < Ext.huge := by
  unfold Ext.huge
  positivity

theorem Ext.one_lt_huge : (1 : ℚ) < Ext.huge := by
  unfold Ext.huge
  exact one_lt_pow₀ (by norm_num) (by norm_num)

/-- A result of magnitude at most 1 does not overflow. -/
theorem Ext.ofRat_small (q : ℚ) (h1 : -1 ≤ q) (h2 : q ≤ 1) : Ext.ofRat q = Ext.fin q := by
  have := Ext.one_lt_huge
  unfold Ext.ofRat
  rw [if_neg (by linarith), if_neg (by linarith)]

@[simp]
theorem Ext.add_fin (x y : ℚ) : Ext.add (Ext.fin x) (Ext.fin y) = Ext.ofRat (x + y) := rfl

@[simp]
theorem Ext.add_nan_left (x : Ext) : Ext.add Ext.nan x = Ext.nan := by
  cases x <;> rfl

@[simp]
theorem Ext.add_nan_right (x : Ext) : Ext.add x Ext.nan = Ext.nan := by
  cases x <;> rfl

@[simp]
theorem Ext.add_fin_pinf (x : ℚ) : Ext.add (Ext.fin x) Ext.pinf = Ext.pinf := rfl

@[simp]
theorem Ext.neg_fin (x : ℚ) : Ext.neg (Ext.fin x) = Ext.fin (-x) := rfl

@[simp]
theorem Ext.neg_nan : Ext.neg Ext.nan = Ext.nan := rfl

@[simp]
theorem Ext.sub_eq (x y : Ext) : Ext.sub x y = Ext.add x (Ext.neg y) := rfl

@[simp]
theorem Ext.mul_fin (x y : ℚ) : Ext.mul (Ext.fin x) (Ext.fin y) = Ext.ofRat (x * y) := rfl

@[simp]
theorem Ext.mul_fin_pinf (x : ℚ) : Ext.mul (Ext.fin x) Ext.pinf = Ext.infOf x := rfl

@[simp]
theorem Ext.mul_pinf_fin (x : ℚ) : Ext.mul Ext.pinf (Ext.fin x) = Ext.infOf x := rfl

@[simp]
theorem Ext.mul_nan_left (x : Ext) : Ext.mul Ext.nan x = Ext.nan := by
  cases x <;> rfl

@[simp]
theorem Ext.mul_nan_right (x : Ext) : Ext.mul x Ext.nan = Ext.nan := by
  cases x <;> rfl

@[simp]
theorem Ext.div_fin (x y : ℚ) :
    Ext.div (Ext.fin x) (Ext.fin y) = if y = 0 then Ext.infOf x else Ext.ofRat (x / y) := rfl

@[simp]
theorem Ext.div_nan_left (x : Ext) : Ext.div Ext.nan x = Ext.nan := by
  cases x <;> rfl

@[simp]
theorem Ext.div_nan_right (x : Ext) : Ext.div x Ext.nan = Ext.nan := by
  cases x <;> rfl

@[simp]
theorem Ext.infOf_zero : Ext.infOf 0 = Ext.nan := by
  simp [Ext.infOf]

@[simp]
theorem Ext.infOf_pos (q : ℚ) (h : 0 < q) : Ext.infOf q = Ext.pinf := by
  simp [Ext.infOf, h, h.ne']

@[simp]
theorem Ext.nonpos_fin (x : ℚ) : Ext.nonpos (Ext.fin x) = decide (x ≤ 0) := rfl

@[simp]
theorem Ext.nonpos_nan : Ext.nonpos Ext.nan = false := rfl

@[simp]
theorem Ext.pos_nan : Ext.pos Ext.nan = false := rfl

section
variable {α : Type}

/-- C3 (counterexample): in the arithmetic with the IEEE special values, for `N = 2`, `J = 1`,
`a = [0, -1]`, `U = V = [1, 1]`, `P = [1]`: `W(0) = 1 / 0` is infinite, `S = 0 * inf * inf`
is NaN, the updated pivot of row 1 is NaN, the test `NaN <= 0.0` is false and `factor`
returns 0, although the updated pivot of row 1 is not `> 0`. -/
theorem factor_status_nan_pivot :
    (extArith.factor (liftMat Ext.fin exOnes) (liftMat Ext.fin exOnes) 1 2
      (liftVec Ext.fin exZeroThenNeg) (liftMat Ext.fin exOnes) (liftMat Ext.fin exOnes)).1 = 0 ∧
    extArith.specPivot (liftMat Ext.fin exOnes) (liftMat Ext.fin exOnes) 1
      (liftVec Ext.fin exZeroThenNeg) (liftMat Ext.fin exOnes) 1 = Ext.nan ∧
    ¬ (∀ m, 1 ≤ m → m < 2 →
      extArith.pos (extArith.specPivot (liftMat Ext.fin exOnes) (liftMat Ext.fin exOnes) 1
        (liftVec Ext.fin exZeroThenNeg) (liftMat Ext.fin exOnes) m) = true) := by
  have h1 : extArith.specPivot (liftMat Ext.fin exOnes) (liftMat Ext.fin exOnes) 1
      (liftVec Ext.fin exZeroThenNeg) (liftMat Ext.fin exOnes) 1 = Ext.nan := by
    simp [Arith.specPivot, Arith.specRows, extArith, liftMat, liftVec, exOnes, exZeroThenNeg,
      List.range_succ]
  have h2 : (extArith.factorPivot (liftMat Ext.fin exOnes) (liftMat Ext.fin exOnes) 1 1
      (extArith.factorInit (liftVec Ext.fin exZeroThenNeg) (liftMat Ext.fin exOnes))).d 1 =
      Ext.nan := by
    simp [Arith.factorPivot, Arith.factorInit, extArith, liftMat, liftVec, exOnes,
      exZeroThenNeg, List.range_succ]
  refine ⟨?_, h1, fun h => ?_⟩
  · simp only [Arith.factor, Arith.factorLoop, h2]
    simp [extArith]
  · have := h 1 le_rfl (by decide)
    rw [h1] at this
    simp [extArith] at this

/-- C3 (amended): over any scalar arithmetic, for `N >= 1` the status returned by `factor` is
below `N`; it is a non-zero `n` exactly when `n` is the first row of `1..N-1` for whose updated
pivot `d(n) = a(n) - U_n S_n U_n^T` the test `d(n) <= 0` succeeds, and it is 0 exactly when
the test fails for the updated pivot of every row of `1..N-1`; where a failed test means a
positive pivot, that is exactly when every updated pivot is positive. -/
theorem factor_status_tests (A : Arith α) (U P : Mat α) (J N : ℕ) (a : Vec α) (V S0 : Mat α)
    (hN : 1 ≤ N) :
    (A.factor U P J N a V S0).1 < N ∧
    (∀ n, n ≠ 0 → ((A.factor U P J N a V S0).1 = n ↔
      (1 ≤ n ∧ n < N ∧ A.nonpos (A.specPivot U P J a V n) = true ∧
        ∀ m, 1 ≤ m → m < n → A.nonpos (A.specPivot U P J a V m) = false))) ∧
    ((A.factor U P J N a V S0).1 = 0 ↔
      ∀ m, 1 ≤ m → m < N → A.nonpos (A.specPivot U P J a V m) = false) ∧
    ((∀ m, 1 ≤ m → m < N → (A.nonpos (A.specPivot U P J a V m) = false ↔
        A.pos (A.specPivot U P J a V m) = true)) →
      ((A.factor U P J N a V S0).1 = 0 ↔
        ∀ m, 1 ≤ m → m < N → A.pos (A.specPivot U P J a V m) = true)) := by
  have key : (A.factor U P J N a V S0).1 = 0 ↔
      ∀ m, 1 ≤ m → m < N → A.nonpos (A.specPivot U P J a V m) = false := by
    rcases factor_outcome A U P J N a V S0 with ⟨hall, h0, -⟩ | ⟨n0, h1, hlt, hbad, -, hst, -⟩
    · exact ⟨fun _ => hall, fun _ => h0⟩
    · constructor
      · intro h
        rw [hst] at h
        omega
      · intro hall
        rw [hall n0 h1 hlt] at hbad
        exact absurd hbad (by decide)
  refine ⟨?_, fun n hn => ?_, key, fun hp => ?_⟩
  · rcases factor_outcome A U P J N a V S0 with ⟨-, h0, -⟩ | ⟨n0, -, hlt, -, -, hst, -⟩
    · rw [h0]
      omega
    · rw [hst]
      exact hlt
  · rcases factor_outcome A U P J N a V S0 with ⟨hall, h0, -⟩ | ⟨n0, h1, hlt, hbad, hok, hst, -⟩
    · rw [h0]
      constructor
      · intro h
        exact absurd h.symm hn
      · rintro ⟨h1, hlt, hbad, -⟩
        rw [hall n h1 hlt] at hbad
        exact absurd hbad (by decide)
    · rw [hst]
      constructor
      · rintro rfl
        exact ⟨h1, hlt, hbad, hok⟩
      · rintro ⟨h1', hlt', hbad', hok'⟩
        rcases lt_trichotomy n0 n with hlt2 | heq | hgt
        · rw [hok' n0 h1 hlt2] at hbad
          exact absurd hbad (by decide)
        · exact heq
        · rw [hok n h1' hgt] at hbad'
          exact absurd hbad' (by decide)
  · rw [key]
    exact ⟨fun h m h1 hm => (hp m h1 hm).mp (h m h1 hm),
      fun h m h1 hm => (hp m h1 hm).mpr (h m h1 hm)⟩

/-- The status theorem applied to the run with a NaN pivot: the status is below `N = 2`. -/
theorem factor_status_tests_witness :
    1 ≤ 2 ∧
    (extArith.factor (liftMat Ext.fin exOnes) (liftMat Ext.fin exOnes) 1 2
      (liftVec Ext.fin exZeroThenNeg) (liftMat Ext.fin exOnes) (liftMat Ext.fin exOnes)).1 < 2 :=
  ⟨by decide, (factor_status_tests extArith (liftMat Ext.fin exOnes) (liftMat Ext.fin exOnes) 1 2
    (liftVec Ext.fin exZeroThenNeg) (liftMat Ext.fin exOnes) (liftMat Ext.fin exOnes)
    (by decide)).1⟩

/-- In the arithmetic with the IEEE special values, for `N = 2`, `J = 1`, `a = [0, 1]`,
`U = V = [1, 1]`, `P = [1]`, `factor` returns 0 and leaves `d(0) = 0` and `d(1) = NaN`:
neither pivot is positive. -/
theorem factor_accepts_nan_pivot :
    (extArith.factor (liftMat Ext.fin exOnes) (liftMat Ext.fin exOnes) 1 2
      (liftVec Ext.fin exZeroThenOne) (liftMat Ext.fin exOnes) (liftMat Ext.fin exOnes)).1 = 0 ∧
    (extArith.factor (liftMat Ext.fin exOnes) (liftMat Ext.fin exOnes) 1 2
      (liftVec Ext.fin exZeroThenOne) (liftMat Ext.fin exOnes) (liftMat Ext.fin exOnes)).2.d 0 =
      Ext.fin 0 ∧
    (extArith.factor (liftMat Ext.fin exOnes) (liftMat Ext.fin exOnes) 1 2
      (liftVec Ext.fin exZeroThenOne) (liftMat Ext.fin exOnes) (liftMat Ext.fin exOnes)).2.d 1 =
      Ext.nan := by
  have h2 : (extArith.factorPivot (liftMat Ext.fin exOnes) (liftMat Ext.fin exOnes) 1 1
      (extArith.factorInit (liftVec Ext.fin exZeroThenOne) (liftMat Ext.fin exOnes))).d 1 =
      Ext.nan := by
    simp [Arith.factorPivot, Arith.factorInit, extArith, liftMat, liftVec, exOnes,
      exZeroThenOne, List.range_succ]
  have h3 : extArith.nonpos Ext.nan = false := rfl
  refine ⟨?_, ?_, ?_⟩
  · simp only [Arith.factor, Arith.factorLoop, h2, h3]
    simp
  · simp only [Arith.factor, Arith.factorLoop, h2, h3]
    simp [Arith.factorRowW, Arith.factorPivot, Arith.factorInit, liftVec, exZeroThenOne]
  · simp only [Arith.factor, Arith.factorLoop, h2, h3]
    simp only [Bool.false_eq_true, if_false, Arith.factorRowW, h2]

/-- C5 (amended): over any scalar arithmetic, if `factor` returns 0 then every returned pivot
is the updated pivot `d(n) = a(n) - U_n S_n U_n^T` of its row, for every row `n` of `1..N-1`
the test `d(n) <= 0` fails for it, and the pivot of row 0 is the input `a(0)`, which `factor`
does not test; where a failed test means a positive value, the pivots of the rows `1..N-1`
are positive. -/
theorem factor_success_tests (A : Arith α) (U P : Mat α) (J N : ℕ) (a : Vec α) (V S0 : Mat α)
    (h : (A.factor U P J N a V S0).1 = 0) :
    (∀ n, n ≤ N - 1 → (A.factor U P J N a V S0).2.d n = A.specPivot U P J a V n) ∧
    (∀ n, 1 ≤ n → n < N → A.nonpos ((A.factor U P J N a V S0).2.d n) = false) ∧
    (A.factor U P J N a V S0).2.d 0 = a 0 ∧
    ((∀ x, A.nonpos x = false → A.pos x = true) →
      ∀ n, 1 ≤ n → n < N → A.pos ((A.factor U P J N a V S0).2.d n) = true) := by
  rcases factor_outcome A U P J N a V S0 with ⟨hall, -, hinv⟩ | ⟨n0, h1, -, -, -, hst, -⟩
  · have hd : ∀ n, 1 ≤ n → n < N →
        A.nonpos ((A.factor U P J N a V S0).2.d n) = false := by
      intro n h1 hn
      rw [hinv.1 n (by omega)]
      exact hall n h1 hn
    exact ⟨hinv.1, hd, hinv.1 0 (Nat.zero_le _), fun hp n h1 hn => hp _ (hd n h1 hn)⟩
  · rw [hst] at h
    omega

/-- The success theorem applied to the run with `a = [0, 1]`, which returns 0 with a NaN
pivot in row 1. -/
theorem factor_success_tests_witness :
    (extArith.factor (liftMat Ext.fin exOnes) (liftMat Ext.fin exOnes) 1 2
      (liftVec Ext.fin exZeroThenOne) (liftMat Ext.fin exOnes) (liftMat Ext.fin exOnes)).1 = 0 ∧
    extArith.nonpos
      ((extArith.factor (liftMat Ext.fin exOnes) (liftMat Ext.fin exOnes) 1 2
        (liftVec Ext.fin exZeroThenOne) (liftMat Ext.fin exOnes)
        (liftMat Ext.fin exOnes)).2.d 1) = false :=
  ⟨factor_accepts_nan_pivot.1,
    (factor_success_tests extArith (liftMat Ext.fin exOnes) (liftMat Ext.fin exOnes) 1 2
      (liftVec Ext.fin exZeroThenOne) (liftMat Ext.fin exOnes) (liftMat Ext.fin exOnes)
      factor_accepts_nan_pivot.1).2.1 1 le_rfl (by decide)⟩

end

/-! ## The status of `factor` and the positive definite leading blocks -/

section
variable {α : Type}

end

theorem Ext.big_pos : (0 : ℚ) < Ext.big := by
  unfold Ext.big
  positivity

theorem Ext.big_lt_huge : Ext.big < Ext.huge := by
  unfold Ext.big Ext.huge
  exact pow_lt_pow_right₀ (by norm_num) (by norm_num)

theorem Ext.huge_le_big_sq : Ext.huge ≤ Ext.big * Ext.big := by
  unfold Ext.big Ext.huge
  rw [← pow_add]
  exact pow_le_pow_right₀ (by norm_num) (by norm_num)

@[simp]
theorem Ext.ofRat_zero : Ext.ofRat 0 = Ext.fin 0 := Ext.ofRat_small 0 (by norm_num) (by norm_num)

@[simp]
theorem Ext.ofRat_one : Ext.ofRat 1 = Ext.fin 1 := Ext.ofRat_small 1 (by norm_num) (by norm_num)

@[simp]
theorem Ext.ofRat_big : Ext.ofRat Ext.big = Ext.fin Ext.big := by
  have h1 := Ext.big_pos
  have h2 := Ext.big_lt_huge
  unfold Ext.ofRat
  rw [if_neg (by linarith), if_neg (by linarith)]

@[simp]
theorem Ext.ofRat_big_sq : Ext.ofRat (Ext.big * Ext.big) = Ext.pinf := by
  unfold Ext.ofRat
  rw [if_pos Ext.huge_le_big_sq]

@[simp]
theorem Ext.infOf_one : Ext.infOf 1 = Ext.pinf := Ext.infOf_pos 1 (by norm_num)

section
variable {α β : Type} [LinearOrderedField α]

end

end Celerite
